import Mathlib

/-!
# Determinization and minimization of automata (`4-determinize.c`)

A shallow embedding of the subset construction, of its hash table of subsets
and of Brzozowski's minimization, followed by the properties proved about them.

Conventions of the embedding.

* `state_id`, `symbol_id` and the `uint32_t` counters are natural numbers; where
  the C arithmetic is 32-bit arithmetic that can wrap (the FNV hash, the load
  factor test, the capacity doubling, the probe index, the counters) the
  reduction modulo `2 ^ 32` is written out.
* A `struct state_array` is the list of its first `number_of_states` ids.
* `abort()` is the result `none`.
* The automaton type, its operations and the state arrays live in headers that
  are not part of the sources at hand; they are modelled from the specification
  and marked as such.
-/

namespace Owl

/-! ## The automaton interface -/

/-- Modelled from the spec: the symbol id that labels an epsilon (no-input)
transition.  It is the largest `symbol_id`, hence never below
`number_of_symbols`, and never scanned by the loop over the alphabet. -/
def SYMBOL_EPSILON : Nat := 4294967295

/-- Modelled from the spec: `struct transition`, an outgoing transition
(symbol, target) of a state. -/
structure transition where
  target : Nat
  symbol : Nat
deriving DecidableEq, Repr

/-- Modelled from the spec: `struct state`, the outgoing transitions of a state
and its accepting flag. -/
structure state where
  transitions : List transition
  accepting : Bool
deriving DecidableEq, Repr

/-- Modelled from the spec: `struct automaton`, with its start state, alphabet
size, per-state transitions and accepting flags, and the epsilon-closure of
every state as `automaton_compute_epsilon_closure` leaves it. -/
structure automaton where
  states : List state
  start_state : Nat
  number_of_symbols : Nat
  epsilon_closure_for_state : List (List Nat)
deriving DecidableEq, Repr

/-- The automaton `{0}` of the C sources: no state, no symbol. -/
def empty_automaton : automaton := ⟨[], 0, 0, []⟩

/-- The read `a->states[q]`. -/
def automaton.state_at (a : automaton) (q : Nat) : state :=
  a.states.getD q ⟨[], false⟩

/-- The read `a->epsilon_closure_for_state[q]`. -/
def automaton.closure_at (a : automaton) (q : Nat) : List Nat :=
  a.epsilon_closure_for_state.getD q []

/-- Modelled from the spec: the state table of an automaton grows on demand
until it holds state `s`. -/
def grow_states (a : automaton) (s : Nat) : automaton :=
  { a with states := a.states ++ List.replicate (s + 1 - a.states.length) ⟨[], false⟩ }

/-- Modelled from the spec: `add_transition(from, to, symbol)` records one
transition on the source state; both ends exist afterwards and the alphabet
covers the symbol. -/
def automaton_add_transition (a : automaton) (source target symbol : Nat) : automaton :=
  let b := grow_states (grow_states a source) target
  { b with
    states := b.states.set source
      { transitions := (b.state_at source).transitions ++ [⟨target, symbol⟩],
        accepting := (b.state_at source).accepting },
    number_of_symbols :=
      if symbol ≠ SYMBOL_EPSILON ∧ b.number_of_symbols ≤ symbol then symbol + 1
      else b.number_of_symbols }

/-- Modelled from the spec: `mark_accepting(state)` sets the accepting flag of
a state, which exists afterwards. -/
def automaton_mark_accepting_state (a : automaton) (s : Nat) : automaton :=
  let b := grow_states a s
  { b with
    states := b.states.set s
      { transitions := (b.state_at s).transitions, accepting := true } }

/-! ## Hashing and canonical subsets -/

/-- The constant `fnvPrime`. -/
def fnvPrime : Nat := 0x01000193

/-- The constant `fnvInitial`. -/
def fnvInitial : Nat := 0x811c9dc5

/-- The function `fnv`: 32-bit FNV-1a over a sequence of bytes. -/
def fnv (data : List Nat) : Nat :=
  data.foldl (fun hash byte => (hash ^^^ byte) * fnvPrime % 2 ^ 32) fnvInitial

/-- The four bytes of a `state_id` in memory (least significant first). -/
def state_id_bytes (s : Nat) : List Nat :=
  [s % 256, s / 256 % 256, s / 65536 % 256, s / 16777216 % 256]

/-- The bytes `subset->states[0 .. number_of_states)` handed to `fnv`. -/
def subset_bytes (subset : List Nat) : List Nat :=
  (subset.map state_id_bytes).flatten

/-- The function `compare_state_ids`. -/
def compare_state_ids (a b : Nat) : Int :=
  if a < b then -1 else if a > b then 1 else 0

/-- Modelled from the spec: `qsort` of the C library, which leaves the array
sorted ascending for the comparison function. -/
def qsort (compare : Nat → Nat → Int) (l : List Nat) : List Nat :=
  l.insertionSort (fun x y => compare x y ≤ 0)

/-- The loop `for (i = 1; i < n; ++i)` that removes adjacent duplicates in
place: the array, the index `i`, the counter `removed`, and the number of
iterations left. -/
def remove_duplicates (states : List Nat) (i removed : Nat) : Nat → List Nat × Nat
  | 0 => (states, removed)
  | k + 1 =>
    if states.getD i 0 = states.getD (i - 1) 0 then
      remove_duplicates states (i + 1) (removed + 1) k
    else if removed > 0 then
      remove_duplicates (states.set (i - removed) (states.getD i 0)) (i + 1) removed k
    else
      remove_duplicates states (i + 1) removed k

/-- The canonicalization at the head of `deterministic_state_for_subset`: sort,
remove duplicates, shrink `number_of_states`. -/
def canonicalize (states : List Nat) : List Nat :=
  let n := states.length
  let sorted := qsort compare_state_ids states
  let r := remove_duplicates sorted 1 0 (n - 1)
  r.1.take (n - r.2)

/-! ## The subset table -/

/-- The structure `subset_table`: three parallel arrays of `available_size`
slots (a null `subsets` pointer is `none`) and the number of used slots. -/
structure subset_table where
  subsets : List (Option (List Nat))
  subset_hashes : List Nat
  subset_states : List Nat
  available_size : Nat
  used_size : Nat
deriving DecidableEq, Repr

/-- The table `{0}`. -/
def empty_table : subset_table := ⟨[], [], [], 0, 0⟩

/-- The table of `n` zeroed slots that `calloc` returns during a growth. -/
def fresh_table (n : Nat) : subset_table :=
  ⟨List.replicate n none, List.replicate n 0, List.replicate n 0, n, 0⟩

/-- The probe loop `while (true)` of `subset_table_adopt_subset`, from probe
index `index`.  The first argument bounds the number of slots visited: the loop
aborts when the index is back at `hash & mask`, so it visits no more than
`available_size` slots. -/
def probe (subset : List Nat) (hash subset_state mask : Nat) :
    Nat → subset_table → Nat → Option (subset_table × Nat)
  | 0, _, _ => none
  | fuel + 1, table, index =>
    match table.subsets.getD index none with
    | none =>
      some ({ table with
              subsets := table.subsets.set index (some subset),
              subset_hashes := table.subset_hashes.set index hash,
              subset_states := table.subset_states.set index subset_state,
              used_size := (table.used_size + 1) % 2 ^ 32 }, index)
    | some key =>
      if table.subset_hashes.getD index 0 = hash ∧ subset = key then
        some (table, index)
      else
        let next := ((index + 1) % 2 ^ 32) &&& mask
        if next = hash &&& mask then none
        else probe subset hash subset_state mask fuel table next

/-- The loop over the old slots during a growth: every occupied slot is
inserted again with its stored hash and stored state. -/
def reinsert (adopt : subset_table → List Nat → Nat → Nat → Option (subset_table × Nat))
    (old : subset_table) : List Nat → subset_table → Option subset_table
  | [], table => some table
  | i :: rest, table =>
    match old.subsets.getD i none with
    | none => reinsert adopt old rest table
    | some s =>
      match adopt table s (old.subset_hashes.getD i 0) (old.subset_states.getD i 0) with
      | none => none
      | some r => reinsert adopt old rest r.1

/-- The function `subset_table_adopt_subset`.  It returns the table after the
call and the index of the subset.  The first argument bounds the depth of the
recursion through the growth loop. -/
def subset_table_adopt_subset :
    Nat → subset_table → List Nat → Nat → Nat → Option (subset_table × Nat)
  | 0, _, _, _, _ => none
  | depth + 1, table, subset, hash, subset_state =>
    let grown : Option subset_table :=
      if 3 * table.available_size % 2 ^ 32 ≤ 4 * (table.used_size + 1) % 2 ^ 32 then
        let n := table.available_size * 2 % 2 ^ 32
        let n := if n = 0 then 256 else n
        reinsert (subset_table_adopt_subset depth) table
          (List.range table.available_size) (fresh_table n)
      else some table
    match grown with
    | none => none
    | some table =>
      let mask := (table.available_size + 2 ^ 32 - 1) % 2 ^ 32
      probe subset hash subset_state mask table.available_size table (hash &&& mask)

/-! ## The subset construction -/

/-- The structure `worklist`, newest entry first: the pairs of a subset and its
deterministic state that are still to be explored. -/
abbrev worklist := List (List Nat × Nat)

/-- The outcome of `deterministic_state_for_subset`: the table, the worklist,
the moved-out scratch buffer, `*next_state`, and the returned state id. -/
structure resolution where
  table : subset_table
  worklist : worklist
  states : List Nat
  next_state : Nat
  state : Nat
deriving DecidableEq, Repr

/-- The function `deterministic_state_for_subset`. -/
def deterministic_state_for_subset (table : subset_table) (wl : worklist)
    (states : List Nat) (next_state : Nat) : Option resolution :=
  let subset := canonicalize states
  let hash := fnv (subset_bytes subset)
  match subset_table_adopt_subset 2 table subset hash next_state with
  | none => none
  | some (table, idx) =>
    if table.subset_states.getD idx 0 = next_state then
      some { table := table,
             worklist := ((table.subsets.getD idx none).getD [], next_state) :: wl,
             states := [],
             next_state := (next_state + 1) % 2 ^ 32,
             state := table.subset_states.getD idx 0 }
    else
      some { table := table, worklist := wl, states := [], next_state := next_state,
             state := table.subset_states.getD idx 0 }

/-- The enumeration `start_state_options`. -/
inductive start_state_options where
  | INCLUDE_START_STATE
  | IGNORE_START_STATE
deriving DecidableEq, Repr

/-- The local variables of `determinize_automaton` that its loops update. -/
structure determinize_state where
  subsets : subset_table
  worklist : worklist
  next_state : Nat
  next_subset : List Nat
  result : automaton
deriving DecidableEq, Repr

/-- The loop over the transitions of one state of the subset, for one symbol. -/
def push_transitions (a : automaton) (symbol : Nat) (transitions : List transition)
    (next_subset : List Nat) : List Nat :=
  transitions.foldl
    (fun acc t =>
      if t.symbol ≠ symbol then acc
      else (acc ++ [t.target]) ++ a.closure_at t.target)
    next_subset

/-- The loop over the states of the subset, for one symbol. -/
def push_successors (a : automaton) (symbol : Nat) (subset : List Nat)
    (next_subset : List Nat) : List Nat :=
  subset.foldl
    (fun acc q => push_transitions a symbol (a.state_at q).transitions acc)
    next_subset

/-- The loop `for (symbol = 0; symbol < a->number_of_symbols; ++symbol)`, over
the symbols that are left. -/
def explore_symbols (a : automaton) (subset : List Nat) (state : Nat) :
    List Nat → determinize_state → Option determinize_state
  | [], s => some s
  | symbol :: rest, s =>
    let next_subset := push_successors a symbol subset s.next_subset
    if next_subset.length = 0 then
      explore_symbols a subset state rest { s with next_subset := next_subset }
    else
      match deterministic_state_for_subset s.subsets s.worklist next_subset s.next_state with
      | none => none
      | some r =>
        explore_symbols a subset state rest
          { subsets := r.table, worklist := r.worklist, next_state := r.next_state,
            next_subset := r.states,
            result := automaton_add_transition s.result state r.state symbol }

/-- The loop `while (worklist.number_of_subsets > 0)`; the first argument bounds
the number of iterations. -/
def determinize_loop (a : automaton) : Nat → determinize_state → Option determinize_state
  | 0, _ => none
  | fuel + 1, s =>
    match s.worklist with
    | [] => some s
    | (subset, state) :: rest =>
      let result :=
        if subset.any (fun q => (a.state_at q).accepting) then
          automaton_mark_accepting_state s.result state
        else s.result
      match explore_symbols a subset state (List.range a.number_of_symbols)
          { s with worklist := rest, result := result } with
      | none => none
      | some s => determinize_loop a fuel s

/-- The initial subset of `determinize_automaton`. -/
def initial_subset (a : automaton) (options : start_state_options) : List Nat :=
  (if options = start_state_options.INCLUDE_START_STATE then [a.start_state] else [])
    ++ a.closure_at a.start_state

/-- The body of `determinize_automaton`, returning all its local variables at
the end of the worklist loop.  `compute_epsilon_closure` stands for the external
function `automaton_compute_epsilon_closure` called first; `fuel` bounds the
number of iterations of the worklist loop. -/
def determinize_run (compute_epsilon_closure : automaton → automaton)
    (fuel : Nat) (a : automaton) (result : automaton) (options : start_state_options) :
    Option determinize_state :=
  let a := compute_epsilon_closure a
  let next_subset := initial_subset a options
  match deterministic_state_for_subset empty_table [] next_subset 0 with
  | none => none
  | some r =>
    determinize_loop a fuel
      { subsets := r.table, worklist := r.worklist, next_state := r.next_state,
        next_subset := r.states, result := { result with start_state := r.state } }

/-- The function `determinize_automaton`: the automaton `result` it leaves. -/
def determinize_automaton (compute_epsilon_closure : automaton → automaton)
    (fuel : Nat) (a : automaton) (result : automaton) (options : start_state_options) :
    Option automaton :=
  (determinize_run compute_epsilon_closure fuel a result options).map
    (fun s => s.result)

/-- The function `determinize_minimize` (Brzozowski's algorithm); `reverse`
stands for the external function `automaton_reverse`. -/
def determinize_minimize (compute_epsilon_closure : automaton → automaton)
    (reverse : automaton → automaton) (fuel : Nat) (input : automaton)
    (result : automaton) : Option automaton :=
  let reversed := reverse input
  match determinize_automaton compute_epsilon_closure fuel reversed empty_automaton
      start_state_options.IGNORE_START_STATE with
  | none => none
  | some dfa =>
    let reversed := reverse dfa
    determinize_automaton compute_epsilon_closure fuel reversed result
      start_state_options.IGNORE_START_STATE

/-! ## Notions used to state the properties -/

/-- The table after the probe loop has filled the empty slot `idx`. -/
def filled (t : subset_table) (idx : Nat) (s : List Nat) (h id : Nat) : subset_table :=
  { t with
    subsets := t.subsets.set idx (some s),
    subset_hashes := t.subset_hashes.set idx h,
    subset_states := t.subset_states.set idx id,
    used_size := (t.used_size + 1) % 2 ^ 32 }

/-- Slot `j` is occupied by an entry that the probe for `(s, h)` skips. -/
def skipped (t : subset_table) (s : List Nat) (h j : Nat) : Prop :=
  ∃ key, t.subsets.getD j none = some key ∧ ¬ (t.subset_hashes.getD j 0 = h ∧ s = key)

/-- The table stores subset `s` with state id `id` in some slot. -/
def stored (t : subset_table) (s : List Nat) (id : Nat) : Prop :=
  ∃ i, t.subsets.getD i none = some s ∧ t.subset_states.getD i 0 = id

/-- The table stores the entry (subset, hash, state id) in some slot. -/
def stored_entry (t : subset_table) (s : List Nat) (h id : Nat) : Prop :=
  ∃ i, t.subsets.getD i none = some s ∧ t.subset_hashes.getD i 0 = h
    ∧ t.subset_states.getD i 0 = id

/-- The number of occupied slots of the table. -/
def occupied_slots (t : subset_table) : Nat :=
  ((Finset.range t.available_size).filter (fun i => t.subsets.getD i none ≠ none)).card

/-- The invariant of the subset table: the three arrays have `available_size`
slots; the capacity is zero (the table `{0}`) or a power of two between `2 ^ 8`
and `2 ^ 30` with a load factor below 3/4; `used_size` counts the occupied
slots; every stored hash is the FNV hash of its subset; every entry is reached
from its home slot through occupied slots only; no subset is stored twice. -/
structure TableInv (t : subset_table) : Prop where
  len_subsets : t.subsets.length = t.available_size
  len_hashes : t.subset_hashes.length = t.available_size
  len_states : t.subset_states.length = t.available_size
  size : (t.available_size = 0 ∧ t.used_size = 0) ∨
    ((∃ k, 8 ≤ k ∧ k ≤ 30 ∧ t.available_size = 2 ^ k) ∧ 4 * t.used_size < 3 * t.available_size)
  used : t.used_size = occupied_slots t
  hash_ok : ∀ i s, t.subsets.getD i none = some s →
    t.subset_hashes.getD i 0 = fnv (subset_bytes s)
  probe_ok : ∀ i s, t.subsets.getD i none = some s → ∀ d, d < t.available_size →
    (fnv (subset_bytes s) % t.available_size + d) % t.available_size = i →
    ∀ e, e < d →
      t.subsets.getD ((fnv (subset_bytes s) % t.available_size + e) % t.available_size) none
        ≠ none
  nodup : ∀ i j s, t.subsets.getD i none = some s → t.subsets.getD j none = some s → i = j

/-- The outcome the probe loop can have for subset `s` on table `t`: the table
is unchanged and the returned slot holds `s`, or `s` was absent and the returned
slot, empty before, is filled with `s`, its hash and the candidate id. -/
def adopt_outcome (t : subset_table) (s : List Nat) (id : Nat)
    (r : subset_table × Nat) : Prop :=
  r.2 < t.available_size ∧
  ((∃ i, t.subsets.getD i none = some s) → r.1 = t ∧ t.subsets.getD r.2 none = some s) ∧
  ((∀ i, t.subsets.getD i none ≠ some s) →
    r.1 = filled t r.2 s (fnv (subset_bytes s)) id ∧ t.subsets.getD r.2 none = none)

/-- What `subset_table_adopt_subset` guarantees for the call on table `t` with
subset `s`, its FNV hash and the candidate id `id`, when it returns `r`: the
returned slot holds `s`; if `s` was stored, the stored entries and `used_size`
are unchanged; otherwise exactly the entry `(s, hash, id)` is added, in the
returned slot, and `used_size` grows by one. -/
structure AdoptSpec (t : subset_table) (s : List Nat) (id : Nat)
    (r : subset_table × Nat) : Prop where
  inv : TableInv r.1
  index_lt : r.2 < r.1.available_size
  holds : r.1.subsets.getD r.2 none = some s
  capacity : r.1.available_size =
    if 3 * t.available_size ≤ 4 * (t.used_size + 1) then
      (if t.available_size = 0 then 256 else 2 * t.available_size)
    else t.available_size
  present : (∃ i, t.subsets.getD i none = some s) →
    r.1.used_size = t.used_size ∧
    ∀ s' h' id', stored_entry r.1 s' h' id' ↔ stored_entry t s' h' id'
  absent : (∀ i, t.subsets.getD i none ≠ some s) →
    r.1.used_size = t.used_size + 1 ∧
    r.1.subset_hashes.getD r.2 0 = fnv (subset_bytes s) ∧
    r.1.subset_states.getD r.2 0 = id ∧
    ∀ s' h' id', stored_entry r.1 s' h' id' ↔
      stored_entry t s' h' id' ∨ (s' = s ∧ h' = fnv (subset_bytes s) ∧ id' = id)

/-- The tables reachable from the table `{0}` by calls of
`subset_table_adopt_subset` that pass a subset with its FNV hash, each call made
while `4 * (used_size + 1) < 3 * 2 ^ 30`, that is while the capacity needed stays
within `2 ^ 30` slots and the 32-bit load factor arithmetic does not wrap. -/
inductive reachable_table : subset_table → Prop
  | empty : reachable_table empty_table
  | adopt (t : subset_table) (s : List Nat) (id depth : Nat) (r : subset_table × Nat) :
      reachable_table t → 4 * (t.used_size + 1) < 3 * 2 ^ 30 →
      subset_table_adopt_subset (depth + 2) t s (fnv (subset_bytes s)) id = some r →
      reachable_table r.1

/-! ### Languages -/

/-- The automaton reads the word `w` from state `q` to state `q'`: epsilon
transitions consume nothing, any other transition consumes its symbol. -/
inductive reads (a : automaton) : Nat → List Nat → Nat → Prop
  | done (q : Nat) : reads a q [] q
  | epsilon (q t : Nat) (w : List Nat) (q' : Nat) :
      (⟨t, SYMBOL_EPSILON⟩ : transition) ∈ (a.state_at q).transitions →
      reads a t w q' → reads a q w q'
  | symbol (q c t : Nat) (w : List Nat) (q' : Nat) :
      c ≠ SYMBOL_EPSILON → (⟨t, c⟩ : transition) ∈ (a.state_at q).transitions →
      reads a t w q' → reads a q (c :: w) q'

/-- The automaton accepts the word `w` from state `q`. -/
def accepts_from (a : automaton) (q : Nat) (w : List Nat) : Prop :=
  ∃ q', reads a q w q' ∧ (a.state_at q').accepting = true

/-- The automaton accepts the word `w`. -/
def accepts (a : automaton) (w : List Nat) : Prop :=
  accepts_from a a.start_state w

/-- State `t` is reachable from state `q` by epsilon transitions only (`q` itself
included). -/
def epsilon_reachable (a : automaton) : Nat → Nat → Prop :=
  Relation.ReflTransGen
    (fun q t => (⟨t, SYMBOL_EPSILON⟩ : transition) ∈ (a.state_at q).transitions)

/-- A well-formed automaton: the state and symbol ids are valid, and the
epsilon-closure stored for each state is the set of states reachable from it by
epsilon transitions only, the state itself included. -/
structure WellFormed (a : automaton) : Prop where
  start_valid : a.start_state < a.states.length
  targets_valid : ∀ q tr, tr ∈ (a.state_at q).transitions → tr.target < a.states.length
  symbols_valid : ∀ q tr, tr ∈ (a.state_at q).transitions →
    tr.symbol < a.number_of_symbols ∨ tr.symbol = SYMBOL_EPSILON
  alphabet : a.number_of_symbols ≤ SYMBOL_EPSILON
  closure : ∀ q, q < a.states.length → ∀ t, t ∈ a.closure_at q ↔ epsilon_reachable a q t

/-- The epsilon-closures of the automaton can be used by the subset
construction: the ids are valid, every id stored in the closure of a state is
reachable from it by epsilon transitions, and every state reachable by one or
more epsilon transitions is stored.  Whether a state belongs to its own closure
is left open. -/
structure closures_usable (a : automaton) : Prop where
  start_valid : a.start_state < a.states.length
  targets_valid : ∀ q tr, tr ∈ (a.state_at q).transitions → tr.target < a.states.length
  symbols_valid : ∀ q tr, tr ∈ (a.state_at q).transitions →
    tr.symbol < a.number_of_symbols ∨ tr.symbol = SYMBOL_EPSILON
  alphabet : a.number_of_symbols ≤ SYMBOL_EPSILON
  closure_sound : ∀ q, q < a.states.length → ∀ t, t ∈ a.closure_at q → epsilon_reachable a q t
  closure_complete : ∀ q, q < a.states.length → ∀ t,
    Relation.TransGen
      (fun q t => (⟨t, SYMBOL_EPSILON⟩ : transition) ∈ (a.state_at q).transitions) q t →
    t ∈ a.closure_at q

/-! ### The subset construction -/

/-- The canonical subsets that the subset construction can meet: the canonical
form of the initial subset, and the canonical form of every non-empty successor
subset of one of them for a symbol of the alphabet. -/
inductive reachable_subset (a : automaton) (options : start_state_options) :
    List Nat → Prop
  | start : reachable_subset a options (canonicalize (initial_subset a options))
  | step (S : List Nat) (c : Nat) : reachable_subset a options S →
      c < a.number_of_symbols → push_successors a c S [] ≠ [] →
      reachable_subset a options (canonicalize (push_successors a c S []))

/-- The subset construction of `a` meets fewer than `3 * 2 ^ 28 - 1` distinct
subsets: the subset table then stays within `2 ^ 30` slots, where its 32-bit
load factor arithmetic does not wrap. -/
def few_subsets (a : automaton) (options : start_state_options) : Prop :=
  ∀ l : List (List Nat), l.Nodup → (∀ S, S ∈ l → reachable_subset a options S) →
    l.length < 805306367

/-- The ids assigned so far: `disc` lists the distinct canonical subsets in the
order of their discovery, the table stores exactly the pairs of a subset of
`disc` and its position, and `next_state` is the number of subsets. -/
structure Assigned (t : subset_table) (next_state : Nat) (disc : List (List Nat)) : Prop where
  inv : TableInv t
  used : t.used_size = disc.length
  next : next_state = disc.length
  nodup : disc.Nodup
  ids : ∀ S id, stored t S id ↔ disc[id]? = some S

/-- State `id` of the output automaton is untouched. -/
def blank (r : automaton) (id : Nat) : Prop := r.state_at id = ⟨[], false⟩

/-- State `id` of the output automaton records the exploration of subset `S`
for the symbols `syms`: its accepting flag tells whether `S` holds an accepting
state, it has one transition for each symbol of `syms` with a non-empty
successor subset, in order, and none else, and the target of each transition is
the state assigned to the canonical successor subset. -/
structure explored (a : automaton) (t : subset_table) (r : automaton) (S : List Nat)
    (id : Nat) (syms : List Nat) : Prop where
  accepting : (r.state_at id).accepting = S.any (fun q => (a.state_at q).accepting)
  symbols : (r.state_at id).transitions.map (fun tr => tr.symbol)
    = syms.filter (fun c => decide (push_successors a c S [] ≠ []))
  targets : ∀ tr, tr ∈ (r.state_at id).transitions →
    stored t (canonicalize (push_successors a tr.symbol S [])) tr.target

/-- The invariant of the loops of `determinize_automaton`.  `cur` is the
worklist entry being explored, with the symbols already scanned, if any. -/
structure DetInv (a : automaton) (options : start_state_options) (s : determinize_state)
    (cur : Option (List Nat × Nat × List Nat)) (disc : List (List Nat)) : Prop where
  assigned : Assigned s.subsets s.next_state disc
  reach : ∀ S, S ∈ disc → reachable_subset a options S
  start : disc[0]? = some (canonicalize (initial_subset a options)) ∧ s.result.start_state = 0
  wl_stored : ∀ p, p ∈ s.worklist → stored s.subsets p.1 p.2
  wl_nodup : (s.worklist.map Prod.snd).Nodup
  cur_stored : ∀ S id syms, cur = some (S, id, syms) →
    stored s.subsets S id ∧ id ∉ s.worklist.map Prod.snd
  pending : ∀ p, p ∈ s.worklist → blank s.result p.2
  unused : ∀ id, s.next_state ≤ id → blank s.result id
  current : ∀ S id syms, cur = some (S, id, syms) → explored a s.subsets s.result S id syms
  finished : ∀ S id, stored s.subsets S id → id ∉ s.worklist.map Prod.snd →
    (∀ S' syms, cur ≠ some (S', id, syms)) →
    explored a s.subsets s.result S id (List.range a.number_of_symbols)
  scratch : s.next_subset = []
  size : s.result.states.length ≤ s.next_state

/-- The id `x` belongs to the successor set of the subset `S` for the symbol
`c`: the union, over the states `q` of `S` and their transitions labelled `c`,
of the target of the transition and its epsilon-closure. -/
def in_successors (a : automaton) (S : List Nat) (c x : Nat) : Prop :=
  ∃ q, q ∈ S ∧ ∃ tr, tr ∈ (a.state_at q).transitions ∧ tr.symbol = c ∧
    (x = tr.target ∨ x ∈ a.closure_at tr.target)

/-- Every state id that the automaton mentions: its start state, the targets of
its transitions and the members of its epsilon-closures. -/
def state_ids (a : automaton) : List Nat :=
  a.start_state ::
    ((a.states.map (fun st => st.transitions.map (fun tr => tr.target))).flatten
      ++ a.epsilon_closure_for_state.flatten)

/-! ### A decidable check of well-formedness -/

/-- Every id of `rest` is `q` or the target of an epsilon transition of an id
listed before it (`pre` holds the ids already passed). -/
def closure_justified (a : automaton) (q : Nat) : List Nat → List Nat → Bool
  | _, [] => true
  | pre, t :: rest =>
    (decide (t = q) ||
      pre.any (fun b => decide ((⟨t, SYMBOL_EPSILON⟩ : transition) ∈ (a.state_at b).transitions)))
    && closure_justified a q (pre ++ [t]) rest

/-- The epsilon-closure stored for `q` holds `q`, is closed under epsilon
transitions, and lists only ids reached from `q`. -/
def closure_check (a : automaton) (q : Nat) : Bool :=
  decide (q ∈ a.closure_at q) &&
  (a.closure_at q).all (fun b =>
    (a.state_at b).transitions.all (fun tr =>
      decide (tr.symbol ≠ SYMBOL_EPSILON) || decide (tr.target ∈ a.closure_at q))) &&
  closure_justified a q [] (a.closure_at q)

/-- A check that decides a sufficient condition for `WellFormed`. -/
def well_formed_check (a : automaton) : Bool :=
  decide (a.start_state < a.states.length) &&
  a.states.all (fun st =>
    st.transitions.all (fun tr =>
      decide (tr.target < a.states.length) &&
      (decide (tr.symbol < a.number_of_symbols) || decide (tr.symbol = SYMBOL_EPSILON)))) &&
  decide (a.number_of_symbols ≤ SYMBOL_EPSILON) &&
  (List.range a.states.length).all (fun q => closure_check a q)

/-- A check that the target of every transition is a state of the automaton. -/
def targets_valid_check (a : automaton) : Bool :=
  a.states.all (fun st => st.transitions.all (fun tr => decide (tr.target < a.states.length)))

/-! ### Examples -/

/-- The three-state automaton of the determinization test: state 0 has an
epsilon transition to the accepting state 1 and a transition on symbol 0 to
state 2. -/
def example_nfa : automaton :=
  ⟨[⟨[⟨1, SYMBOL_EPSILON⟩, ⟨2, 0⟩], false⟩, ⟨[], true⟩, ⟨[], false⟩], 0, 1, [[0, 1], [1], [2]]⟩

/-! ### The external operations, modelled from the specification -/

/-- Append `x` to `acc` unless it is there already. -/
def add_new (acc : List Nat) (x : Nat) : List Nat :=
  if x ∈ acc then acc else acc ++ [x]

/-- The targets of the epsilon transitions of the states of `L` join `acc`. -/
def add_successors (a : automaton) (L acc : List Nat) : List Nat :=
  (L.map (fun b =>
    ((a.state_at b).transitions.filter (fun tr => decide (tr.symbol = SYMBOL_EPSILON))).map
      (fun tr => tr.target))).flatten.foldl add_new acc

/-- One round of the closure computation: the targets of the epsilon
transitions of the states of `L` join `L`. -/
def closure_round (a : automaton) (L : List Nat) : List Nat :=
  add_successors a L L

/-- Modelled from the spec: `automaton_compute_epsilon_closure`, which stores for
each state the set of states reachable from it using only epsilon transitions,
including the state itself. -/
def automaton_compute_epsilon_closure (a : automaton) : automaton :=
  { a with
    epsilon_closure_for_state :=
      (List.range a.states.length).map (fun q => (closure_round a)^[a.states.length] [q]) }

/-- The transitions that enter state `q`, turned around. -/
def incoming (a : automaton) (q : Nat) : List transition :=
  ((List.range a.states.length).map (fun p =>
    ((a.state_at p).transitions.filter (fun tr => decide (tr.target = q))).map
      (fun tr => (⟨p, tr.symbol⟩ : transition)))).flatten

/-- Modelled from the spec: `automaton_reverse`, which swaps the direction of
every transition; the start state of the reversed automaton is a new state with
an epsilon transition to each accepting state of the original, and the original
start state is its accepting state. -/
def automaton_reverse (a : automaton) : automaton :=
  let n := max a.states.length (a.start_state + 1)
  { states :=
      (List.range n).map (fun q => ⟨incoming a q, decide (q = a.start_state)⟩)
        ++ [⟨((List.range a.states.length).filter (fun f => (a.state_at f).accepting)).map
              (fun f => (⟨f, SYMBOL_EPSILON⟩ : transition)), false⟩],
    start_state := n,
    number_of_symbols := a.number_of_symbols,
    epsilon_closure_for_state := [] }

/-- The reversal `reverse` is faithful at the automaton `b`: once its
epsilon-closures are computed the reversed automaton is well-formed, and it
accepts a word if and only if `b` accepts the word read backwards. -/
def reverses (compute_epsilon_closure reverse : automaton → automaton) (b : automaton) : Prop :=
  (compute_epsilon_closure (reverse b)).states = (reverse b).states ∧
  (compute_epsilon_closure (reverse b)).start_state = (reverse b).start_state ∧
  WellFormed (compute_epsilon_closure (reverse b)) ∧
  ∀ w, accepts (reverse b) w ↔ accepts b w.reverse

/-- The one-state automaton that accepts every word over the symbol 0. -/
def example_loop : automaton := ⟨[⟨[⟨0, 0⟩], true⟩], 0, 1, []⟩

/-- The automaton that `determinize_minimize` returns for `example_loop` when the
closures include the state itself. -/
def example_loop_minimized : automaton :=
  ⟨[⟨[⟨1, 0⟩], true⟩, ⟨[⟨1, 0⟩], true⟩], 0, 1, []⟩

/-- The output automaton is sound as an automaton: its alphabet stays within
`bound`, and every recorded transition has a target among its states and a
symbol of its alphabet. -/
def result_valid (bound : Nat) (r : automaton) : Prop :=
  r.number_of_symbols ≤ bound ∧
  ∀ q tr, tr ∈ (r.state_at q).transitions →
    tr.target < r.states.length ∧ tr.symbol < r.number_of_symbols

/-- A deterministic automaton without epsilon transitions, with valid ids, in
which every state is reachable from the start state. -/
structure accessible_dfa (D : automaton) : Prop where
  no_epsilon : ∀ q tr, tr ∈ (D.state_at q).transitions → tr.symbol ≠ SYMBOL_EPSILON
  functional : ∀ q t t' c, (⟨t, c⟩ : transition) ∈ (D.state_at q).transitions →
    (⟨t', c⟩ : transition) ∈ (D.state_at q).transitions → t = t'
  accessible : ∀ q, q < D.states.length → ∃ u, reads D D.start_state u q
  targets_valid : ∀ q tr, tr ∈ (D.state_at q).transitions → tr.target < D.states.length
  symbols_valid : ∀ q tr, tr ∈ (D.state_at q).transitions → tr.symbol < D.number_of_symbols
  alphabet : D.number_of_symbols ≤ SYMBOL_EPSILON

/-- The closure computation `compute_epsilon_closure` leaves the automaton `b` as
it is and stores, for each state, the states reached from it by one or more
epsilon transitions: the state itself only when it lies on an epsilon cycle. -/
def closes_properly (compute_epsilon_closure : automaton → automaton) (b : automaton) : Prop :=
  (compute_epsilon_closure b).states = b.states ∧
  (compute_epsilon_closure b).start_state = b.start_state ∧
  (compute_epsilon_closure b).number_of_symbols = b.number_of_symbols ∧
  ∀ q, q < b.states.length → ∀ t,
    t ∈ (compute_epsilon_closure b).closure_at q ↔
      Relation.TransGen
        (fun q t => (⟨t, SYMBOL_EPSILON⟩ : transition) ∈ (b.state_at q).transitions) q t

/-- A closure computation that stores, for each state, the states reached from
it by one or more epsilon transitions. -/
def proper_epsilon_closure (a : automaton) : automaton :=
  { a with
    epsilon_closure_for_state :=
      (List.range a.states.length).map
        (fun q => (closure_round a)^[a.states.length] (add_successors a [q] [])) }

/-- Every id of `rest` is the target of an epsilon transition of `q` or of an id
listed before it (`pre` holds the ids already passed). -/
def proper_justified (b : automaton) (q : Nat) : List Nat → List Nat → Bool
  | _, [] => true
  | pre, t :: rest =>
    (q :: pre).any
      (fun p => decide ((⟨t, SYMBOL_EPSILON⟩ : transition) ∈ (b.state_at p).transitions))
    && proper_justified b q (pre ++ [t]) rest

/-- A check that decides a sufficient condition for `closes_properly`, where `c`
is the automaton that the closure computation returns for `b`. -/
def proper_closure_check (c b : automaton) : Bool :=
  decide (c.states = b.states) && decide (c.start_state = b.start_state) &&
  decide (c.number_of_symbols = b.number_of_symbols) &&
  (List.range b.states.length).all (fun q =>
    (q :: c.closure_at q).all (fun p =>
      (b.state_at p).transitions.all (fun tr =>
        decide (tr.symbol ≠ SYMBOL_EPSILON) || decide (tr.target ∈ c.closure_at q))) &&
    proper_justified b q [] (c.closure_at q))

/-- A check that every transition carries a symbol of the alphabet or the
epsilon symbol, and that the alphabet leaves the epsilon symbol out. -/
def symbols_valid_check (a : automaton) : Bool :=
  decide (a.number_of_symbols ≤ SYMBOL_EPSILON) &&
  a.states.all (fun st =>
    st.transitions.all (fun tr =>
      decide (tr.symbol < a.number_of_symbols) || decide (tr.symbol = SYMBOL_EPSILON)))

/-- State `q` is reachable from the start state of the automaton. -/
def dfa_reachable (D : automaton) (q : Nat) : Prop :=
  ∃ u, reads D D.start_state u q

/-- A minimal deterministic automaton: no epsilon transitions, at most one
transition per state and symbol, and among the states reachable from the start
state every one accepts some word and no two distinct ones accept the same
words. -/
structure minimal_dfa (D : automaton) : Prop where
  no_epsilon : ∀ q tr, tr ∈ (D.state_at q).transitions → tr.symbol ≠ SYMBOL_EPSILON
  functional : ∀ q t t' c, (⟨t, c⟩ : transition) ∈ (D.state_at q).transitions →
    (⟨t', c⟩ : transition) ∈ (D.state_at q).transitions → t = t'
  live : ∀ d, dfa_reachable D d → ∃ w, accepts_from D d w
  distinct : ∀ d d', dfa_reachable D d → dfa_reachable D d' →
    (∀ w, accepts_from D d w ↔ accepts_from D d' w) → d = d'

/-- The reachable parts of two automata are the same up to a renumbering `f` of
the states: `f` maps the start state to the start state, is a bijection between
the reachable states, and preserves the accepting flags and the transitions. -/
def same_up_to_renumbering (A B : automaton) : Prop :=
  ∃ f : Nat → Nat,
    f A.start_state = B.start_state ∧
    (∀ p, dfa_reachable A p → dfa_reachable B (f p)) ∧
    (∀ p p', dfa_reachable A p → dfa_reachable A p' → f p = f p' → p = p') ∧
    (∀ q, dfa_reachable B q → ∃ p, dfa_reachable A p ∧ f p = q) ∧
    (∀ p, dfa_reachable A p → (B.state_at (f p)).accepting = (A.state_at p).accepting) ∧
    (∀ p t c, dfa_reachable A p → (⟨t, c⟩ : transition) ∈ (A.state_at p).transitions →
      (⟨f t, c⟩ : transition) ∈ (B.state_at (f p)).transitions) ∧
    (∀ p x c, dfa_reachable A p → (⟨x, c⟩ : transition) ∈ (B.state_at (f p)).transitions →
      ∃ t, (⟨t, c⟩ : transition) ∈ (A.state_at p).transitions ∧ f t = x)

/-! ### Sequences of calls on the subset table -/

/-- A sequence of calls of `subset_table_adopt_subset`, as the subset
construction makes them for new subsets: the subsets of the list are passed in
turn, each with its FNV hash, with the candidate ids `id`, `id + 1`, ... -/
def adopt_all : subset_table → List (List Nat) → Nat → Option subset_table
  | table, [], _ => some table
  | table, s :: rest, id =>
    match subset_table_adopt_subset 2 table s (fnv (subset_bytes s)) id with
    | none => none
    | some r => adopt_all r.1 rest (id + 1)

/-- The subsets `[0]`, `[1]`, ..., `[n - 1]`. -/
def singletons (n : Nat) : List (List Nat) := (List.range n).map (fun i => [i])

/-- The call of `subset_table_adopt_subset` that fails when the growth test
holds: the probe loop alone, on a table that the call does not have to grow. -/
def adopt_without_growth (table : subset_table) (subset : List Nat) (hash subset_state : Nat) :
    Option (subset_table × Nat) :=
  if 3 * table.available_size % 2 ^ 32 ≤ 4 * (table.used_size + 1) % 2 ^ 32 then none
  else
    let mask := (table.available_size + 2 ^ 32 - 1) % 2 ^ 32
    probe subset hash subset_state mask table.available_size table (hash &&& mask)

/-- The table after the insertion of the subsets `[0, 1]`, `[2]` and `[0, 2]`
into the empty table, with the ids 0, 1 and 2. -/
def example_table : subset_table :=
  (adopt_all empty_table [[0, 1], [2], [0, 2]] 0).getD empty_table

/-! ### A minimal automaton with a dead state -/

/-- A two-state deterministic automaton over the symbol 0 that accepts the empty
word only: the start state 0 is accepting, and the symbol 0 leads from both
states to state 1, which is not accepting (a dead state).  The closures stored
are those of the glossary, each state alone. -/
def example_dead : automaton :=
  ⟨[⟨[⟨1, 0⟩], true⟩, ⟨[⟨1, 0⟩], false⟩], 0, 1, [[0], [1]]⟩

/-- The automaton that `determinize_minimize` returns for `example_dead`, which
is also the intermediate automaton of the run: one accepting state without
transitions. -/
def example_dead_minimized : automaton := ⟨[⟨[], true⟩], 0, 0, []⟩

/-! ## Lists and canonical subsets -/

theorem getD_set_eq {α : Type} (l : List α) (i j : Nat) (v d : α) :
    (l.set i v).getD j d = if i = j ∧ i < l.length then v else l.getD j d := by
  simp only [List.getD_eq_getElem?_getD, List.getElem?_set]
  by_cases h : i = j
  · by_cases h2 : i < l.length
    · subst h; simp [h2]
    · subst h
      have : l[i]? = none := List.getElem?_eq_none (by omega)
      simp [h2, this]
  · simp [h]

theorem getD_take_eq {α : Type} (l : List α) (m j : Nat) (d : α) :
    (l.take m).getD j d = if j < m then l.getD j d else d := by
  simp only [List.getD_eq_getElem?_getD, List.getElem?_take]
  by_cases h : j < m <;> simp [h]

theorem mem_iff_getD {α : Type} (l : List α) (x d : α) :
    x ∈ l ↔ ∃ j, j < l.length ∧ l.getD j d = x := by
  rw [List.mem_iff_getElem]
  constructor
  · rintro ⟨n, h, rfl⟩
    exact ⟨n, h, List.getD_eq_getElem l d h⟩
  · rintro ⟨j, h, rfl⟩
    exact ⟨j, h, (List.getD_eq_getElem l d h).symm⟩

theorem sorted_lt_of_getD (l : List Nat)
    (h : ∀ i j, i < j → j < l.length → l.getD i 0 < l.getD j 0) : l.Sorted (· < ·) := by
  unfold List.Sorted
  rw [List.pairwise_iff_getElem]
  intro i j hi hj hij
  have := h i j hij hj
  rwa [List.getD_eq_getElem l 0 hi, List.getD_eq_getElem l 0 hj] at this

theorem sorted_le_getD (l : List Nat) (hs : l.Sorted (· ≤ ·)) (i j : Nat) (hij : i ≤ j)
    (hj : j < l.length) : l.getD i 0 ≤ l.getD j 0 := by
  rcases Nat.eq_or_lt_of_le hij with h | h
  · subst h; exact le_refl _
  · have hi : i < l.length := by omega
    rw [List.getD_eq_getElem l 0 hi, List.getD_eq_getElem l 0 hj]
    exact (List.pairwise_iff_getElem.mp hs) i j hi hj h

theorem qsort_perm (l : List Nat) : (qsort compare_state_ids l).Perm l :=
  List.perm_insertionSort _ l

theorem compare_state_ids_le (x y : Nat) : compare_state_ids x y ≤ 0 ↔ x ≤ y := by
  unfold compare_state_ids
  by_cases h1 : x < y
  · simp [h1]; omega
  · by_cases h2 : x > y
    · simp [h1, h2]
    · simp [h1, h2]; omega

theorem qsort_sorted (l : List Nat) : (qsort compare_state_ids l).Sorted (· ≤ ·) := by
  haveI : IsTotal Nat (fun x y => compare_state_ids x y ≤ 0) :=
    ⟨fun x y => by simp only [compare_state_ids_le]; exact Nat.le_total x y⟩
  haveI : IsTrans Nat (fun x y => compare_state_ids x y ≤ 0) :=
    ⟨fun x y z => by simp only [compare_state_ids_le]; exact Nat.le_trans⟩
  have h := List.sorted_insertionSort (fun x y => compare_state_ids x y ≤ 0) l
  exact List.Pairwise.imp (fun {x y} hxy => (compare_state_ids_le x y).mp hxy) h

/-- The invariant of the loop that removes duplicates. -/
theorem remove_duplicates_spec (s : List Nat) (hs : s.Sorted (· ≤ ·)) :
    ∀ (k : Nat) (arr : List Nat) (i removed : Nat),
      1 ≤ i → i + k = s.length → arr.length = s.length → removed < i →
      (∀ j, i - 1 ≤ j → arr.getD j 0 = s.getD j 0) →
      (∀ j1 j2, j1 < j2 → j2 < i - removed → arr.getD j1 0 < arr.getD j2 0) →
      arr.getD (i - removed - 1) 0 = s.getD (i - 1) 0 →
      (∀ x, (∃ j, j < i - removed ∧ arr.getD j 0 = x) ↔ (∃ j, j < i ∧ s.getD j 0 = x)) →
      (remove_duplicates arr i removed k).1.length = s.length ∧
      (remove_duplicates arr i removed k).2 < s.length ∧
      (∀ j1 j2, j1 < j2 → j2 < s.length - (remove_duplicates arr i removed k).2 →
        (remove_duplicates arr i removed k).1.getD j1 0
          < (remove_duplicates arr i removed k).1.getD j2 0) ∧
      (∀ x, (∃ j, j < s.length - (remove_duplicates arr i removed k).2 ∧
          (remove_duplicates arr i removed k).1.getD j 0 = x) ↔ x ∈ s) := by
  intro k
  induction k with
  | zero =>
    intro arr i removed hi hik hlen hr hsuf hmono hlast hmem
    simp only [remove_duplicates]
    have hin : i = s.length := by omega
    subst hin
    refine ⟨hlen, hr, hmono, ?_⟩
    intro x
    rw [hmem x, mem_iff_getD s x 0]
  | succ k ih =>
    intro arr i removed hi hik hlen hr hsuf hmono hlast hmem
    have hil : i < s.length := by omega
    have hai : arr.getD i 0 = s.getD i 0 := hsuf i (by omega)
    have hai1 : arr.getD (i - 1) 0 = s.getD (i - 1) 0 := hsuf (i - 1) (by omega)
    have hle : s.getD (i - 1) 0 ≤ s.getD i 0 := sorted_le_getD s hs (i - 1) i (by omega) hil
    simp only [remove_duplicates]
    by_cases heq : arr.getD i 0 = arr.getD (i - 1) 0
    · rw [if_pos heq]
      apply ih arr (i + 1) (removed + 1) (by omega) (by omega) hlen (by omega)
      · intro j hj; exact hsuf j (by omega)
      · intro j1 j2 h1 h2
        exact hmono j1 j2 h1 (by omega)
      · have : i + 1 - (removed + 1) - 1 = i - removed - 1 := by omega
        rw [this, hlast]
        simp only [Nat.add_sub_cancel]
        rw [← hai, heq, hai1]
      · intro x
        have e : i + 1 - (removed + 1) = i - removed := by omega
        rw [e, hmem x]
        constructor
        · rintro ⟨j, hj, rfl⟩; exact ⟨j, by omega, rfl⟩
        · rintro ⟨j, hj, rfl⟩
          by_cases hji : j < i
          · exact ⟨j, hji, rfl⟩
          · have : j = i := by omega
            subst this
            exact ⟨j - 1, by omega, by rw [← hai1, ← heq, hai]⟩
    · rw [if_neg heq]
      have hlt : s.getD (i - 1) 0 < s.getD i 0 := by
        rcases Nat.eq_or_lt_of_le hle with h | h
        · exfalso; apply heq; rw [hai, hai1, h]
        · exact h
      have key : ∀ (arr2 : List Nat), arr2.length = s.length →
          (∀ j, j ≠ i - removed → arr2.getD j 0 = arr.getD j 0) →
          arr2.getD (i - removed) 0 = s.getD i 0 →
          (remove_duplicates arr2 (i + 1) removed k).1.length = s.length ∧
          (remove_duplicates arr2 (i + 1) removed k).2 < s.length ∧
          (∀ j1 j2, j1 < j2 → j2 < s.length - (remove_duplicates arr2 (i + 1) removed k).2 →
            (remove_duplicates arr2 (i + 1) removed k).1.getD j1 0
              < (remove_duplicates arr2 (i + 1) removed k).1.getD j2 0) ∧
          (∀ x, (∃ j, j < s.length - (remove_duplicates arr2 (i + 1) removed k).2 ∧
              (remove_duplicates arr2 (i + 1) removed k).1.getD j 0 = x) ↔ x ∈ s) := by
        intro arr2 hlen2 hsame hnew
        have hsuf2 : ∀ j, i ≤ j → arr2.getD j 0 = s.getD j 0 := by
          intro j hj
          by_cases hje : j = i - removed
          · have hr0 : removed = 0 := by omega
            subst hr0
            have hji : j = i := by omega
            subst hji
            simpa using hnew
          · rw [hsame j hje]; exact hsuf j (by omega)
        apply ih arr2 (i + 1) removed (by omega) (by omega) hlen2 (by omega)
        · intro j hj; exact hsuf2 j (by omega)
        · intro j1 j2 h1 h2
          by_cases h3 : j2 = i - removed
          · subst h3
            rw [hnew, hsame j1 (by omega)]
            have hb : arr.getD j1 0 ≤ arr.getD (i - removed - 1) 0 := by
              by_cases h4 : j1 = i - removed - 1
              · rw [h4]
              · exact Nat.le_of_lt (hmono j1 (i - removed - 1) (by omega) (by omega))
            rw [hlast] at hb
            omega
          · rw [hsame j1 (by omega), hsame j2 h3]
            exact hmono j1 j2 h1 (by omega)
        · have : i + 1 - removed - 1 = i - removed := by omega
          rw [this, hnew]; simp
        · intro x
          constructor
          · rintro ⟨j, hj, rfl⟩
            by_cases h3 : j = i - removed
            · subst h3; exact ⟨i, by omega, hnew.symm⟩
            · rw [hsame j h3]
              obtain ⟨j', hj', e⟩ := (hmem _).mp ⟨j, by omega, rfl⟩
              exact ⟨j', by omega, e⟩
          · rintro ⟨j, hj, rfl⟩
            by_cases hji : j < i
            · obtain ⟨j', hj', e⟩ := (hmem _).mpr ⟨j, hji, rfl⟩
              exact ⟨j', by omega, by rw [hsame j' (by omega), e]⟩
            · have : j = i := by omega
              subst this
              exact ⟨j - removed, by omega, hnew⟩
      by_cases hrem : removed > 0
      · rw [if_pos hrem]
        apply key
        · rw [List.length_set]; exact hlen
        · intro j hj
          rw [getD_set_eq]
          rw [if_neg]
          intro h; exact hj h.1.symm
        · rw [getD_set_eq, if_pos ⟨rfl, by omega⟩]; exact hai
      · rw [if_neg hrem]
        have : removed = 0 := by omega
        subst this
        apply key arr hlen (fun _ _ => rfl)
        simpa using hai

theorem qsort_length (l : List Nat) : (qsort compare_state_ids l).length = l.length :=
  (qsort_perm l).length_eq

theorem remove_duplicates_qsort (l : List Nat) (hl : l ≠ []) :
    (remove_duplicates (qsort compare_state_ids l) 1 0 (l.length - 1)).1.length = l.length ∧
    (remove_duplicates (qsort compare_state_ids l) 1 0 (l.length - 1)).2 < l.length ∧
    (∀ j1 j2, j1 < j2 →
      j2 < l.length - (remove_duplicates (qsort compare_state_ids l) 1 0 (l.length - 1)).2 →
      (remove_duplicates (qsort compare_state_ids l) 1 0 (l.length - 1)).1.getD j1 0
        < (remove_duplicates (qsort compare_state_ids l) 1 0 (l.length - 1)).1.getD j2 0) ∧
    (∀ x, (∃ j, j < l.length - (remove_duplicates (qsort compare_state_ids l) 1 0 (l.length - 1)).2 ∧
        (remove_duplicates (qsort compare_state_ids l) 1 0 (l.length - 1)).1.getD j 0 = x)
      ↔ x ∈ l) := by
  have hpos : 0 < l.length := List.length_pos.mpr hl
  have hlen := qsort_length l
  have h := remove_duplicates_spec (qsort compare_state_ids l) (qsort_sorted l) (l.length - 1)
    (qsort compare_state_ids l) 1 0 (le_refl 1) (by omega) rfl (by omega)
    (fun _ _ => rfl) (fun j1 j2 h1 h2 => by omega) rfl (fun x => by simp)
  rw [hlen] at h
  obtain ⟨h1, h2, h3, h4⟩ := h
  refine ⟨h1, h2, h3, fun x => ?_⟩
  rw [h4 x]
  exact (qsort_perm l).mem_iff

theorem canonicalize_nil : canonicalize [] = [] := rfl

theorem canonicalize_length (l : List Nat) :
    (canonicalize l).length
      = l.length - (remove_duplicates (qsort compare_state_ids l) 1 0 (l.length - 1)).2 := by
  by_cases hl : l = []
  · subst hl; rfl
  · obtain ⟨h1, h2, _, _⟩ := remove_duplicates_qsort l hl
    unfold canonicalize
    simp only [List.length_take]
    omega

theorem canonicalize_sorted (l : List Nat) : (canonicalize l).Sorted (· < ·) := by
  by_cases hl : l = []
  · subst hl; exact List.sorted_nil
  · obtain ⟨h1, h2, h3, _⟩ := remove_duplicates_qsort l hl
    apply sorted_lt_of_getD
    intro i j hij hj
    rw [canonicalize_length] at hj
    unfold canonicalize
    simp only [getD_take_eq]
    rw [if_pos (by omega), if_pos hj]
    exact h3 i j hij hj

theorem mem_canonicalize (l : List Nat) (x : Nat) : x ∈ canonicalize l ↔ x ∈ l := by
  by_cases hl : l = []
  · subst hl; rfl
  · obtain ⟨h1, h2, _, h4⟩ := remove_duplicates_qsort l hl
    rw [mem_iff_getD (canonicalize l) x 0, canonicalize_length, ← h4 x]
    unfold canonicalize
    simp only [getD_take_eq]
    constructor
    · rintro ⟨j, hj, e⟩; rw [if_pos hj] at e; exact ⟨j, hj, e⟩
    · rintro ⟨j, hj, e⟩; exact ⟨j, hj, by rw [if_pos hj]; exact e⟩

theorem sorted_lt_ext (l1 l2 : List Nat) (h1 : l1.Sorted (· < ·)) (h2 : l2.Sorted (· < ·))
    (h : ∀ x, x ∈ l1 ↔ x ∈ l2) : l1 = l2 :=
  List.eq_of_perm_of_sorted ((List.perm_ext_iff_of_nodup h1.nodup h2.nodup).mpr h) h1 h2

theorem canonicalize_congr (l1 l2 : List Nat) (h : ∀ x, x ∈ l1 ↔ x ∈ l2) :
    canonicalize l1 = canonicalize l2 :=
  sorted_lt_ext _ _ (canonicalize_sorted l1) (canonicalize_sorted l2)
    (fun x => by rw [mem_canonicalize, mem_canonicalize, h x])

theorem canonicalize_of_sorted (l : List Nat) (h : l.Sorted (· < ·)) : canonicalize l = l :=
  sorted_lt_ext _ _ (canonicalize_sorted l) h (mem_canonicalize l)

theorem canonicalize_eq_nil (l : List Nat) : canonicalize l = [] ↔ l = [] := by
  constructor
  · intro h
    by_contra hl
    obtain ⟨x, hx⟩ := List.exists_mem_of_ne_nil l hl
    have := (mem_canonicalize l x).mpr hx
    rw [h] at this
    exact List.not_mem_nil _ this
  · rintro rfl; rfl

/-! ## The subset table -/

theorem mod_add_cases (a e c : Nat) (ha : a < c) (he : e < c) :
    (a + e) % c = if a + e < c then a + e else a + e - c := by
  by_cases h : a + e < c
  · rw [if_pos h, Nat.mod_eq_of_lt h]
  · rw [if_neg h]
    have h2 : a + e = (a + e - c) + c := by omega
    rw [h2, Nat.add_mod_right, Nat.mod_eq_of_lt (by omega)]
    omega

theorem mod_add_ne (a e c : Nat) (ha : a < c) (he : e < c) (h0 : 0 < e) : (a + e) % c ≠ a := by
  rw [mod_add_cases a e c ha he]
  split <;> omega

theorem mod_add_inj (a e1 e2 c : Nat) (ha : a < c) (h1 : e1 < c) (h2 : e2 < c)
    (h : (a + e1) % c = (a + e2) % c) : e1 = e2 := by
  rw [mod_add_cases a e1 c ha h1, mod_add_cases a e2 c ha h2] at h
  split at h <;> split at h <;> omega

theorem mod_add_surj (a j c : Nat) (ha : a < c) (hj : j < c) :
    ∃ e, e < c ∧ (a + e) % c = j := by
  by_cases h : a ≤ j
  · exact ⟨j - a, by omega, by rw [mod_add_cases a (j - a) c ha (by omega)]; split <;> omega⟩
  · exact ⟨j + c - a, by omega, by rw [mod_add_cases a (j + c - a) c ha (by omega)]; split <;> omega⟩

theorem mod_add_succ (a d c : Nat) (hc : 1 < c) : ((a + d) % c + 1) % c = (a + (d + 1)) % c := by
  rw [← Nat.add_assoc, Nat.add_mod (a + d) 1 c, Nat.mod_eq_of_lt hc]

theorem mask_eq (c : Nat) (h1 : 0 < c) (h2 : c ≤ 2 ^ 32) : (c + 2 ^ 32 - 1) % 2 ^ 32 = c - 1 := by
  have : c + 2 ^ 32 - 1 = (c - 1) + 2 ^ 32 := by omega
  rw [this, Nat.add_mod_right, Nat.mod_eq_of_lt (by omega)]

theorem probe_spec (t : subset_table) (k : Nat) (hk1 : 1 ≤ k) (hk : k ≤ 30) (s : List Nat) (h id : Nat)
    (hempty : ∃ j, j < 2 ^ k ∧ t.subsets.getD j none = none) :
    ∀ n d, n + d = 2 ^ k → 0 < n →
      (∀ e, e < d → skipped t s h ((h % 2 ^ k + e) % 2 ^ k)) →
      ∃ r, probe s h id (2 ^ k - 1) n t ((h % 2 ^ k + d) % 2 ^ k) = some r ∧
        ((r.1 = t ∧ t.subsets.getD r.2 none = some s ∧ t.subset_hashes.getD r.2 0 = h
            ∧ r.2 < 2 ^ k) ∨
         (∃ d', d' < 2 ^ k ∧ r.2 = (h % 2 ^ k + d') % 2 ^ k ∧ t.subsets.getD r.2 none = none ∧
            (∀ e, e < d' → skipped t s h ((h % 2 ^ k + e) % 2 ^ k)) ∧
            r.1 = filled t r.2 s h id)) := by
  have hpos : 0 < 2 ^ k := Nat.two_pow_pos k
  have hc2 : 1 < 2 ^ k := Nat.one_lt_two_pow (by omega)
  have hle : 2 ^ k ≤ 2 ^ 30 := Nat.pow_le_pow_right (by norm_num) hk
  have hhome : h % 2 ^ k < 2 ^ k := Nat.mod_lt _ hpos
  intro n
  induction n with
  | zero => intro d _ h0; omega
  | succ n ih =>
    intro d hnd _ hprev
    have hidx : (h % 2 ^ k + d) % 2 ^ k < 2 ^ k := Nat.mod_lt _ hpos
    rw [probe]
    cases hslot : t.subsets.getD ((h % 2 ^ k + d) % 2 ^ k) none with
    | none =>
      refine ⟨_, rfl, Or.inr ⟨d, by omega, rfl, hslot, hprev, rfl⟩⟩
    | some key =>
      by_cases hm : t.subset_hashes.getD ((h % 2 ^ k + d) % 2 ^ k) 0 = h ∧ s = key
      · simp only [if_pos hm]
        refine ⟨_, rfl, Or.inl ⟨rfl, ?_, hm.1, hidx⟩⟩
        rw [hslot, hm.2]
      · simp only [if_neg hm]
        have hall : ∀ e, e < d + 1 → skipped t s h ((h % 2 ^ k + e) % 2 ^ k) := by
          intro e he
          by_cases hed : e < d
          · exact hprev e hed
          · have : e = d := by omega
            subst this
            exact ⟨key, hslot, hm⟩
        have hd1 : d + 1 < 2 ^ k := by
          by_contra hcon
          have hd : d + 1 = 2 ^ k := by omega
          obtain ⟨j, hj, hjn⟩ := hempty
          obtain ⟨e, he, hej⟩ := mod_add_surj (h % 2 ^ k) j (2 ^ k) hhome hj
          obtain ⟨key', hk', _⟩ := hall e (by omega)
          rw [hej, hjn] at hk'
          exact Option.noConfusion hk'
        have hnext : ((h % 2 ^ k + d) % 2 ^ k + 1) % 2 ^ 32 &&& (2 ^ k - 1)
            = (h % 2 ^ k + (d + 1)) % 2 ^ k := by
          rw [Nat.mod_eq_of_lt (a := (h % 2 ^ k + d) % 2 ^ k + 1) (by omega),
            Nat.and_pow_two_sub_one_eq_mod, mod_add_succ _ _ _ hc2]
        have hne : (h % 2 ^ k + (d + 1)) % 2 ^ k ≠ h &&& (2 ^ k - 1) := by
          rw [Nat.and_pow_two_sub_one_eq_mod]
          exact mod_add_ne _ _ _ hhome hd1 (by omega)
        simp only [hnext, if_neg hne]
        obtain ⟨r, hr, hcases⟩ := ih (d + 1) (by omega) (by omega) hall
        exact ⟨r, hr, hcases⟩

theorem getD_some_lt {α : Type} (l : List (Option α)) (i : Nat) (x : α)
    (h : l.getD i none = some x) : i < l.length := by
  by_contra hc
  rw [List.getD_eq_default l none (by omega)] at h
  exact Option.noConfusion h

theorem exists_empty_slot (t : subset_table) (hinv : TableInv t)
    (h : t.used_size < t.available_size) :
    ∃ j, j < t.available_size ∧ t.subsets.getD j none = none := by
  by_contra hc
  have hall : ∀ j, j < t.available_size → t.subsets.getD j none ≠ none := by
    intro j hj hn
    exact hc ⟨j, hj, hn⟩
  have hu := hinv.used
  unfold occupied_slots at hu
  have : (Finset.range t.available_size).filter (fun i => t.subsets.getD i none ≠ none)
      = Finset.range t.available_size := by
    apply Finset.filter_true_of_mem
    intro j hj
    exact hall j (Finset.mem_range.mp hj)
  rw [this, Finset.card_range] at hu
  omega

theorem occupied_slots_filled (t : subset_table) (idx : Nat) (s : List Nat) (h id : Nat)
    (hlen : t.subsets.length = t.available_size)
    (hidx : idx < t.available_size) (hnone : t.subsets.getD idx none = none) :
    occupied_slots (filled t idx s h id) = occupied_slots t + 1 := by
  unfold occupied_slots filled
  simp only
  have : (Finset.range t.available_size).filter
        (fun i => (t.subsets.set idx (some s)).getD i none ≠ none)
      = insert idx ((Finset.range t.available_size).filter
          (fun i => t.subsets.getD i none ≠ none)) := by
    ext j
    simp only [Finset.mem_filter, Finset.mem_range, Finset.mem_insert, getD_set_eq]
    by_cases hj : idx = j
    · subst hj
      simp [hidx, hlen]
    · rw [if_neg (fun hh => hj hh.1)]
      constructor
      · intro hh; exact Or.inr hh
      · rintro (hh | hh)
        · exact absurd hh.symm hj
        · exact hh
  rw [this, Finset.card_insert_of_not_mem]
  intro hmem
  exact (Finset.mem_filter.mp hmem).2 hnone

theorem stored_filled (t : subset_table) (idx : Nat) (s : List Nat) (h id : Nat)
    (hinv : TableInv t) (hidx : idx < t.available_size)
    (hnone : t.subsets.getD idx none = none) (s' : List Nat) (id' : Nat) :
    stored (filled t idx s h id) s' id' ↔ stored t s' id' ∨ (s' = s ∧ id' = id) := by
  unfold stored filled
  simp only [getD_set_eq, hinv.len_subsets, hinv.len_states]
  constructor
  · rintro ⟨i, h1, h2⟩
    by_cases hi : idx = i
    · subst hi
      rw [if_pos ⟨rfl, hidx⟩] at h1 h2
      exact Or.inr ⟨(Option.some.inj h1).symm, h2.symm⟩
    · rw [if_neg (fun hh => hi hh.1)] at h1 h2
      exact Or.inl ⟨i, h1, h2⟩
  · rintro (⟨i, h1, h2⟩ | ⟨rfl, rfl⟩)
    · have hi : idx ≠ i := by
        intro hh; subst hh; rw [hnone] at h1; exact Option.noConfusion h1
      exact ⟨i, by rw [if_neg (fun hh => hi hh.1)]; exact h1,
        by rw [if_neg (fun hh => hi hh.1)]; exact h2⟩
    · exact ⟨idx, by rw [if_pos ⟨rfl, hidx⟩], by rw [if_pos ⟨rfl, hidx⟩]⟩

theorem TableInv_filled (t : subset_table) (hinv : TableInv t) (k : Nat) (hk8 : 8 ≤ k)
    (hk : k ≤ 30) (hcap : t.available_size = 2 ^ k)
    (hload : 4 * (t.used_size + 1) < 3 * t.available_size)
    (s : List Nat) (id d : Nat) (hd : d < 2 ^ k)
    (hnone : t.subsets.getD ((fnv (subset_bytes s) % 2 ^ k + d) % 2 ^ k) none = none)
    (hprev : ∀ e, e < d →
      skipped t s (fnv (subset_bytes s)) ((fnv (subset_bytes s) % 2 ^ k + e) % 2 ^ k))
    (habs : ∀ i, t.subsets.getD i none ≠ some s) :
    TableInv (filled t ((fnv (subset_bytes s) % 2 ^ k + d) % 2 ^ k) s (fnv (subset_bytes s)) id) := by
  have hpos : 0 < 2 ^ k := Nat.two_pow_pos k
  have hle : 2 ^ k ≤ 2 ^ 30 := Nat.pow_le_pow_right (by norm_num) hk
  have hhome : fnv (subset_bytes s) % 2 ^ k < 2 ^ k := Nat.mod_lt _ hpos
  have hidx : (fnv (subset_bytes s) % 2 ^ k + d) % 2 ^ k < t.available_size := by
    rw [hcap]; exact Nat.mod_lt _ hpos
  have hused : (t.used_size + 1) % 2 ^ 32 = t.used_size + 1 := Nat.mod_eq_of_lt (by omega)
  refine ⟨?_, ?_, ?_, ?_, ?_, ?_, ?_, ?_⟩
  · simp [filled, hinv.len_subsets]
  · simp [filled, hinv.len_hashes]
  · simp [filled, hinv.len_states]
  · right
    refine ⟨⟨k, hk8, hk, hcap⟩, ?_⟩
    show 4 * ((t.used_size + 1) % 2 ^ 32) < 3 * t.available_size
    rw [hused]; exact hload
  · rw [occupied_slots_filled t _ s _ id hinv.len_subsets hidx hnone, ← hinv.used]
    exact hused
  · intro i s' hi
    simp only [filled, getD_set_eq, hinv.len_subsets, hinv.len_hashes] at hi ⊢
    by_cases hii : (fnv (subset_bytes s) % 2 ^ k + d) % 2 ^ k = i
    · rw [if_pos ⟨hii, hidx⟩] at hi ⊢
      rw [← Option.some.inj hi]
    · rw [if_neg (fun hh => hii hh.1)] at hi ⊢
      exact hinv.hash_ok i s' hi
  · intro i s' hi d' hd' hdi e he
    simp only [filled, getD_set_eq, hinv.len_subsets] at hi hd' hdi ⊢
    have hocc : t.subsets.getD ((fnv (subset_bytes s') % t.available_size + e)
        % t.available_size) none ≠ none := by
      by_cases hii : (fnv (subset_bytes s) % 2 ^ k + d) % 2 ^ k = i
      · rw [if_pos ⟨hii, hidx⟩] at hi
        have hs : s' = s := (Option.some.inj hi).symm
        subst hs
        rw [hcap] at hdi hd' ⊢
        have hdd : d' = d := mod_add_inj _ _ _ _ hhome hd' hd (by rw [hdi, hii])
        subst hdd
        obtain ⟨key, hkey, _⟩ := hprev e he
        rw [hkey]; exact Option.some_ne_none key
      · rw [if_neg (fun hh => hii hh.1)] at hi
        exact hinv.probe_ok i s' hi d' hd' hdi e he
    split
    · exact Option.some_ne_none s
    · exact hocc
  · intro i j s' hi hj
    simp only [filled, getD_set_eq, hinv.len_subsets] at hi hj
    by_cases hii : (fnv (subset_bytes s) % 2 ^ k + d) % 2 ^ k = i
    · rw [if_pos ⟨hii, hidx⟩] at hi
      by_cases hjj : (fnv (subset_bytes s) % 2 ^ k + d) % 2 ^ k = j
      · rw [← hii, ← hjj]
      · rw [if_neg (fun hh => hjj hh.1)] at hj
        rw [← Option.some.inj hi] at hj
        exact absurd hj (habs j)
    · rw [if_neg (fun hh => hii hh.1)] at hi
      by_cases hjj : (fnv (subset_bytes s) % 2 ^ k + d) % 2 ^ k = j
      · rw [if_pos ⟨hjj, hidx⟩] at hj
        rw [← Option.some.inj hj] at hi
        exact absurd hi (habs i)
      · rw [if_neg (fun hh => hjj hh.1)] at hj
        exact hinv.nodup i j s' hi hj

theorem search_spec (t : subset_table) (hinv : TableInv t) (k : Nat) (hk8 : 8 ≤ k)
    (hk : k ≤ 30) (hcap : t.available_size = 2 ^ k)
    (hload : 4 * (t.used_size + 1) < 3 * t.available_size) (s : List Nat) (id : Nat) :
    ∃ r, probe s (fnv (subset_bytes s)) id ((t.available_size + 2 ^ 32 - 1) % 2 ^ 32)
          t.available_size t
          (fnv (subset_bytes s) &&& ((t.available_size + 2 ^ 32 - 1) % 2 ^ 32)) = some r ∧
      r.2 < t.available_size ∧
      ((∃ i, t.subsets.getD i none = some s) →
        r.1 = t ∧ t.subsets.getD r.2 none = some s) ∧
      ((∀ i, t.subsets.getD i none ≠ some s) →
        r.1 = filled t r.2 s (fnv (subset_bytes s)) id ∧ t.subsets.getD r.2 none = none ∧
        TableInv r.1) := by
  have hpos : 0 < 2 ^ k := Nat.two_pow_pos k
  have hle : 2 ^ k ≤ 2 ^ 30 := Nat.pow_le_pow_right (by norm_num) hk
  have hhome : fnv (subset_bytes s) % 2 ^ k < 2 ^ k := Nat.mod_lt _ hpos
  have hmask : (t.available_size + 2 ^ 32 - 1) % 2 ^ 32 = 2 ^ k - 1 := by
    rw [hcap]; exact mask_eq _ hpos (by omega)
  have hempty : ∃ j, j < 2 ^ k ∧ t.subsets.getD j none = none := by
    have := exists_empty_slot t hinv (by omega)
    rwa [hcap] at this
  obtain ⟨r, hr, hcases⟩ := probe_spec t k (by omega) hk s (fnv (subset_bytes s)) id hempty
    (2 ^ k) 0 rfl hpos (fun e he => by omega)
  rw [hmask, Nat.and_pow_two_sub_one_eq_mod, hcap]
  rw [Nat.add_zero, Nat.mod_mod] at hr
  refine ⟨r, hr, ?_, ?_, ?_⟩
  · rcases hcases with ⟨_, _, _, h4⟩ | ⟨d', hd', hidx, _⟩
    · exact h4
    · rw [hidx]; exact Nat.mod_lt _ hpos
  · rintro ⟨i, hi⟩
    rcases hcases with ⟨h1, h2, _, _⟩ | ⟨d', hd', hidx, hnone, hprev, _⟩
    · exact ⟨h1, h2⟩
    · exfalso
      have hil : i < 2 ^ k := by
        have := getD_some_lt _ _ _ hi
        rw [hinv.len_subsets, hcap] at this; exact this
      obtain ⟨di, hdi, hdie⟩ := mod_add_surj _ i _ hhome hil
      rcases Nat.lt_trichotomy d' di with hlt | heq | hgt
      · have := hinv.probe_ok i s hi di (by rw [hcap]; exact hdi) (by rw [hcap]; exact hdie)
          d' hlt
        rw [hcap, ← hidx] at this
        exact this hnone
      · subst heq
        rw [hidx, hdie, hi] at hnone
        exact Option.noConfusion hnone
      · obtain ⟨key, hkey, hnm⟩ := hprev di hgt
        rw [hdie] at hkey hnm
        rw [hi] at hkey
        apply hnm
        exact ⟨hinv.hash_ok i s hi, (Option.some.inj hkey)⟩
  · intro habs
    rcases hcases with ⟨_, h2, _, _⟩ | ⟨d', hd', hidx, hnone, hprev, hfill⟩
    · exact absurd h2 (habs _)
    · refine ⟨hfill, hnone, ?_⟩
      rw [hfill, hidx]
      rw [hidx] at hnone
      exact TableInv_filled t hinv k hk8 hk hcap hload s id d' hd' hnone hprev habs

theorem adopt_no_growth (t : subset_table) (hinv : TableInv t) (k : Nat) (hk8 : 8 ≤ k)
    (hk : k ≤ 30) (hcap : t.available_size = 2 ^ k)
    (hload : 4 * (t.used_size + 1) < 3 * t.available_size) (s : List Nat) (id depth : Nat) :
    ∃ r, subset_table_adopt_subset (depth + 1) t s (fnv (subset_bytes s)) id = some r ∧
      TableInv r.1 ∧ adopt_outcome t s id r := by
  have hle : 2 ^ k ≤ 2 ^ 30 := Nat.pow_le_pow_right (by norm_num) hk
  obtain ⟨r, hr, h1, h2, h3⟩ := search_spec t hinv k hk8 hk hcap hload s id
  have hcond : ¬ (3 * t.available_size % 2 ^ 32 ≤ 4 * (t.used_size + 1) % 2 ^ 32) := by
    rw [Nat.mod_eq_of_lt (by omega), Nat.mod_eq_of_lt (by omega)]
    omega
  refine ⟨r, ?_, ?_, h1, h2, fun habs => ⟨(h3 habs).1, (h3 habs).2.1⟩⟩
  · rw [subset_table_adopt_subset]
    simp only [if_neg hcond]
    exact hr
  · by_cases hex : ∃ i, t.subsets.getD i none = some s
    · rw [(h2 hex).1]; exact hinv
    · exact (h3 (fun i hi => hex ⟨i, hi⟩)).2.2

theorem stored_entry_filled (t : subset_table) (idx : Nat) (s : List Nat) (h id : Nat)
    (hinv : TableInv t) (hidx : idx < t.available_size)
    (hnone : t.subsets.getD idx none = none) (s' : List Nat) (h' id' : Nat) :
    stored_entry (filled t idx s h id) s' h' id' ↔
      stored_entry t s' h' id' ∨ (s' = s ∧ h' = h ∧ id' = id) := by
  unfold stored_entry filled
  simp only [getD_set_eq, hinv.len_subsets, hinv.len_states, hinv.len_hashes]
  constructor
  · rintro ⟨i, h1, h2, h3⟩
    by_cases hi : idx = i
    · subst hi
      rw [if_pos ⟨rfl, hidx⟩] at h1 h2 h3
      exact Or.inr ⟨(Option.some.inj h1).symm, h2.symm, h3.symm⟩
    · rw [if_neg (fun hh => hi hh.1)] at h1 h2 h3
      exact Or.inl ⟨i, h1, h2, h3⟩
  · rintro (⟨i, h1, h2, h3⟩ | ⟨rfl, rfl, rfl⟩)
    · have hi : idx ≠ i := by
        intro hh; subst hh; rw [hnone] at h1; exact Option.noConfusion h1
      exact ⟨i, by rw [if_neg (fun hh => hi hh.1)]; exact h1,
        by rw [if_neg (fun hh => hi hh.1)]; exact h2,
        by rw [if_neg (fun hh => hi hh.1)]; exact h3⟩
    · exact ⟨idx, by rw [if_pos ⟨rfl, hidx⟩], by rw [if_pos ⟨rfl, hidx⟩],
        by rw [if_pos ⟨rfl, hidx⟩]⟩

theorem stored_iff_entry (t : subset_table) (s : List Nat) (id : Nat) :
    stored t s id ↔ ∃ h, stored_entry t s h id := by
  constructor
  · rintro ⟨i, h1, h2⟩; exact ⟨_, i, h1, rfl, h2⟩
  · rintro ⟨_, i, h1, _, h2⟩; exact ⟨i, h1, h2⟩

theorem holds_iff_entry (t : subset_table) (s : List Nat) :
    (∃ i, t.subsets.getD i none = some s) ↔ ∃ h id, stored_entry t s h id := by
  constructor
  · rintro ⟨i, h1⟩; exact ⟨_, _, i, h1, rfl, rfl⟩
  · rintro ⟨_, _, i, h1, _, _⟩; exact ⟨i, h1⟩

theorem getD_replicate_eq {α : Type} (n i : Nat) (x d : α) (h : d = x) :
    (List.replicate n x).getD i d = x := by
  subst h
  rw [List.getD_eq_getElem?_getD, List.getElem?_replicate]
  split <;> rfl

theorem TableInv_fresh (k : Nat) (hk8 : 8 ≤ k) (hk : k ≤ 30) : TableInv (fresh_table (2 ^ k)) := by
  have hnone : ∀ i, (fresh_table (2 ^ k)).subsets.getD i none = none := by
    intro i; exact getD_replicate_eq _ _ _ _ rfl
  refine ⟨by simp [fresh_table], by simp [fresh_table], by simp [fresh_table], ?_, ?_, ?_, ?_, ?_⟩
  · right
    refine ⟨⟨k, hk8, hk, rfl⟩, ?_⟩
    have : 0 < 2 ^ k := Nat.two_pow_pos k
    show 4 * 0 < 3 * 2 ^ k
    omega
  · show 0 = occupied_slots (fresh_table (2 ^ k))
    unfold occupied_slots
    rw [Finset.filter_false_of_mem]
    · rfl
    · intro i _ hh; exact hh (hnone i)
  · intro i s hi; rw [hnone i] at hi; exact Option.noConfusion hi
  · intro i s hi; rw [hnone i] at hi; exact Option.noConfusion hi
  · intro i j s hi; rw [hnone i] at hi; exact Option.noConfusion hi

theorem reinsert_spec (old : subset_table) (hold : TableInv old) (k : Nat) (hk8 : 8 ≤ k)
    (hk : k ≤ 30) (depth : Nat) :
    ∀ (l : List Nat) (cur : subset_table), l.Nodup → TableInv cur →
      cur.available_size = 2 ^ k →
      (∀ s, (∃ i, cur.subsets.getD i none = some s) →
        ∀ j, j ∈ l → old.subsets.getD j none ≠ some s) →
      4 * (cur.used_size + (l.filter (fun j => decide (old.subsets.getD j none ≠ none))).length)
        < 3 * 2 ^ k →
      ∃ t', reinsert (subset_table_adopt_subset (depth + 1)) old l cur = some t' ∧
        TableInv t' ∧ t'.available_size = 2 ^ k ∧
        t'.used_size
          = cur.used_size + (l.filter (fun j => decide (old.subsets.getD j none ≠ none))).length ∧
        (∀ s h id, stored_entry t' s h id ↔
          stored_entry cur s h id ∨
          ∃ j, j ∈ l ∧ old.subsets.getD j none = some s ∧ old.subset_hashes.getD j 0 = h ∧
            old.subset_states.getD j 0 = id) := by
  intro l
  induction l with
  | nil =>
    intro cur _ hcur hcap _ _
    refine ⟨cur, rfl, hcur, hcap, by simp, ?_⟩
    intro s h id
    simp
  | cons j rest ih =>
    intro cur hnd hcur hcap hdisj hcount
    have hnd' := List.nodup_cons.mp hnd
    rw [reinsert]
    cases hslot : old.subsets.getD j none with
    | none =>
      have hf : (List.filter (fun j => decide (old.subsets.getD j none ≠ none)) (j :: rest))
          = List.filter (fun j => decide (old.subsets.getD j none ≠ none)) rest := by
        rw [List.filter_cons_of_neg]; rw [hslot]; simp
      rw [hf] at hcount ⊢
      obtain ⟨t', h1, h2, h3, h4, h5⟩ := ih cur hnd'.2 hcur hcap
        (fun s hs i hi => hdisj s hs i (List.mem_cons_of_mem _ hi)) hcount
      refine ⟨t', h1, h2, h3, h4, ?_⟩
      intro s h id
      rw [h5 s h id]
      constructor
      · rintro (hh | ⟨i, hi, hrest⟩)
        · exact Or.inl hh
        · exact Or.inr ⟨i, List.mem_cons_of_mem _ hi, hrest⟩
      · rintro (hh | ⟨i, hi, h6, hrest⟩)
        · exact Or.inl hh
        · rcases List.mem_cons.mp hi with rfl | hi'
          · rw [hslot] at h6; exact Option.noConfusion h6
          · exact Or.inr ⟨i, hi', h6, hrest⟩
    | some s =>
      have hf : (List.filter (fun j => decide (old.subsets.getD j none ≠ none)) (j :: rest))
          = j :: List.filter (fun j => decide (old.subsets.getD j none ≠ none)) rest := by
        rw [List.filter_cons_of_pos]; rw [hslot]; simp
      rw [hf] at hcount ⊢
      simp only [List.length_cons] at hcount ⊢
      have hload : 4 * (cur.used_size + 1) < 3 * cur.available_size := by
        rw [hcap]; omega
      have habs : ∀ i, cur.subsets.getD i none ≠ some s := by
        intro i hi
        exact hdisj s ⟨i, hi⟩ j (List.mem_cons_self _ _) hslot
      obtain ⟨r, hr, hrinv, hr1, _, hr3⟩ := adopt_no_growth cur hcur k hk8 hk hcap hload s
        (old.subset_states.getD j 0) depth
      obtain ⟨hfill, hnone⟩ := hr3 habs
      simp only [hold.hash_ok j s hslot, hr]
      have hr_entry : ∀ s' h' id', stored_entry r.1 s' h' id' ↔
          stored_entry cur s' h' id' ∨
            (s' = s ∧ h' = fnv (subset_bytes s) ∧ id' = old.subset_states.getD j 0) := by
        intro s' h' id'
        rw [hfill]
        exact stored_entry_filled cur r.2 s _ _ hcur hr1 hnone s' h' id'
      have hused : r.1.used_size = cur.used_size + 1 := by
        rw [hfill]
        show (cur.used_size + 1) % 2 ^ 32 = cur.used_size + 1
        have : 2 ^ k ≤ 2 ^ 30 := Nat.pow_le_pow_right (by norm_num) hk
        exact Nat.mod_eq_of_lt (by omega)
      have hrcap : r.1.available_size = 2 ^ k := by rw [hfill]; exact hcap
      obtain ⟨t', h1, h2, h3, h4, h5⟩ := ih r.1 hnd'.2 hrinv hrcap
        (by
          intro s' hs' i hi hh
          obtain ⟨h', id', he⟩ := (holds_iff_entry r.1 s').mp hs'
          rcases (hr_entry s' h' id').mp he with hc | ⟨rfl, _, _⟩
          · exact hdisj s' ((holds_iff_entry cur s').mpr ⟨h', id', hc⟩) i
              (List.mem_cons_of_mem _ hi) hh
          · have := hold.nodup i j s' hh hslot
            subst this
            exact hnd'.1 hi)
        (by rw [hused]; omega)
      refine ⟨t', h1, h2, h3, by rw [h4, hused]; omega, ?_⟩
      intro s' h' id'
      rw [h5 s' h' id', hr_entry s' h' id']
      constructor
      · rintro ((hh | ⟨rfl, rfl, rfl⟩) | ⟨i, hi, hrest⟩)
        · exact Or.inl hh
        · exact Or.inr ⟨j, List.mem_cons_self _ _, hslot, hold.hash_ok j _ hslot, rfl⟩
        · exact Or.inr ⟨i, List.mem_cons_of_mem _ hi, hrest⟩
      · rintro (hh | ⟨i, hi, h6, h7, h8⟩)
        · exact Or.inl (Or.inl hh)
        · rcases List.mem_cons.mp hi with rfl | hi'
          · rw [hslot] at h6
            have := Option.some.inj h6
            subst this
            exact Or.inl (Or.inr ⟨rfl, by rw [← h7, hold.hash_ok i _ hslot], h8.symm⟩)
          · exact Or.inr ⟨i, hi', h6, h7, h8⟩

theorem filter_range_length (t : subset_table) :
    ((List.range t.available_size).filter
      (fun j => decide (t.subsets.getD j none ≠ none))).length = occupied_slots t := by
  unfold occupied_slots
  rw [Finset.card_def, Finset.filter_val, Finset.range_val, Multiset.range,
    Multiset.filter_coe, Multiset.coe_card]

theorem AdoptSpec_of_outcome (t t1 : subset_table) (s : List Nat) (id : Nat)
    (r : subset_table × Nat) (hinv1 : TableInv t1) (hsmall : t1.used_size + 1 < 2 ^ 32)
    (hrinv : TableInv r.1) (ho : adopt_outcome t1 s id r)
    (hcapacity : t1.available_size =
      if 3 * t.available_size ≤ 4 * (t.used_size + 1) then
        (if t.available_size = 0 then 256 else 2 * t.available_size)
      else t.available_size)
    (hused : t1.used_size = t.used_size)
    (hentries : ∀ s' h' id', stored_entry t1 s' h' id' ↔ stored_entry t s' h' id') :
    AdoptSpec t s id r := by
  obtain ⟨ho1, ho2, ho3⟩ := ho
  have hholds : (∃ i, t.subsets.getD i none = some s) ↔ (∃ i, t1.subsets.getD i none = some s) := by
    rw [holds_iff_entry, holds_iff_entry]
    constructor
    · rintro ⟨h, i, hh⟩; exact ⟨h, i, (hentries _ _ _).mpr hh⟩
    · rintro ⟨h, i, hh⟩; exact ⟨h, i, (hentries _ _ _).mp hh⟩
  by_cases hex : ∃ i, t1.subsets.getD i none = some s
  · obtain ⟨e1, e2⟩ := ho2 hex
    refine ⟨hrinv, by rw [e1]; exact ho1, by rw [e1]; exact e2, by rw [e1]; exact hcapacity,
      fun _ => ⟨by rw [e1]; exact hused, fun s' h' id' => by rw [e1]; exact hentries s' h' id'⟩,
      fun habs => ?_⟩
    exfalso
    obtain ⟨i, hi⟩ := hholds.mpr hex
    exact habs i hi
  · have habs1 : ∀ i, t1.subsets.getD i none ≠ some s := fun i hi => hex ⟨i, hi⟩
    obtain ⟨e1, e2⟩ := ho3 habs1
    have hcap : r.1.available_size = t1.available_size := by rw [e1]; rfl
    have hu : r.1.used_size = t.used_size + 1 := by
      rw [e1, ← hused]
      show (t1.used_size + 1) % 2 ^ 32 = t1.used_size + 1
      exact Nat.mod_eq_of_lt hsmall
    have hs1 : r.1.subsets.getD r.2 none = some s := by
      rw [e1]
      show (t1.subsets.set r.2 (some s)).getD r.2 none = some s
      rw [getD_set_eq, if_pos ⟨rfl, by rw [hinv1.len_subsets]; exact ho1⟩]
    have hs2 : r.1.subset_hashes.getD r.2 0 = fnv (subset_bytes s) := by
      rw [e1]
      show (t1.subset_hashes.set r.2 _).getD r.2 0 = _
      rw [getD_set_eq, if_pos ⟨rfl, by rw [hinv1.len_hashes]; exact ho1⟩]
    have hs3 : r.1.subset_states.getD r.2 0 = id := by
      rw [e1]
      show (t1.subset_states.set r.2 _).getD r.2 0 = _
      rw [getD_set_eq, if_pos ⟨rfl, by rw [hinv1.len_states]; exact ho1⟩]
    refine ⟨hrinv, by rw [hcap]; exact ho1, hs1, by rw [hcap]; exact hcapacity,
      fun hpres => absurd (hholds.mp hpres) hex,
      fun _ => ⟨hu, hs2, hs3, fun s' h' id' => ?_⟩⟩
    rw [e1, stored_entry_filled t1 r.2 s _ id hinv1 ho1 e2 s' h' id', hentries s' h' id']

theorem adopt_spec (t : subset_table) (hinv : TableInv t)
    (hbound : 4 * (t.used_size + 1) < 3 * 2 ^ 30) (s : List Nat) (id depth : Nat) :
    ∃ r, subset_table_adopt_subset (depth + 2) t s (fnv (subset_bytes s)) id = some r ∧
      AdoptSpec t s id r := by
  rw [subset_table_adopt_subset]
  rcases hinv.size with ⟨hz, hu0⟩ | ⟨⟨k, hk8, hk, hcap⟩, hload0⟩
  · -- the table `{0}`: it grows to 256 slots
    have hcond : 3 * t.available_size % 2 ^ 32 ≤ 4 * (t.used_size + 1) % 2 ^ 32 := by
      rw [hz, hu0]; decide
    have hn : (if t.available_size * 2 % 2 ^ 32 = 0 then 256
        else t.available_size * 2 % 2 ^ 32) = 2 ^ 8 := by
      rw [hz]; rfl
    simp only [if_pos hcond, hn]
    have hre : reinsert (subset_table_adopt_subset (depth + 1)) t
        (List.range t.available_size) (fresh_table (2 ^ 8)) = some (fresh_table (2 ^ 8)) := by
      rw [hz]; rfl
    rw [hre]
    have hf := TableInv_fresh 8 (le_refl 8) (by norm_num)
    have hnone : ∀ i, t.subsets.getD i none = none := by
      intro i
      apply List.getD_eq_default
      rw [hinv.len_subsets, hz]; omega
    have hfnone : ∀ i, (fresh_table (2 ^ 8)).subsets.getD i none = none := by
      intro i; exact getD_replicate_eq _ _ _ _ rfl
    obtain ⟨r, hr, h1, h2, h3⟩ := search_spec (fresh_table (2 ^ 8)) hf 8 (le_refl 8)
      (by norm_num) rfl (by show 4 * (0 + 1) < 3 * 2 ^ 8; norm_num) s id
    refine ⟨r, hr, ?_⟩
    have habs : ∀ i, (fresh_table (2 ^ 8)).subsets.getD i none ≠ some s := by
      intro i hi; rw [hfnone i] at hi; exact Option.noConfusion hi
    apply AdoptSpec_of_outcome t (fresh_table (2 ^ 8)) s id r hf
      (by show 0 + 1 < 2 ^ 32; norm_num) (h3 habs).2.2
      ⟨h1, h2, fun hh => ⟨(h3 hh).1, (h3 hh).2.1⟩⟩
    · rw [hz, hu0]; rfl
    · rw [hu0]; rfl
    · intro s' h' id'
      constructor
      · rintro ⟨i, hi, _⟩; rw [hfnone i] at hi; exact Option.noConfusion hi
      · rintro ⟨i, hi, _⟩; rw [hnone i] at hi; exact Option.noConfusion hi
  · have hpos : 0 < 2 ^ k := Nat.two_pow_pos k
    have hle : 2 ^ k ≤ 2 ^ 30 := Nat.pow_le_pow_right (by norm_num) hk
    have hk256 : 2 ^ 8 ≤ 2 ^ k := Nat.pow_le_pow_right (by norm_num) hk8
    have hm1 : 3 * t.available_size % 2 ^ 32 = 3 * t.available_size :=
      Nat.mod_eq_of_lt (by omega)
    have hm2 : 4 * (t.used_size + 1) % 2 ^ 32 = 4 * (t.used_size + 1) :=
      Nat.mod_eq_of_lt (by omega)
    rw [hm1, hm2]
    by_cases hcond : 3 * t.available_size ≤ 4 * (t.used_size + 1)
    · -- growth: the capacity doubles and every entry is inserted again
      have hk30 : k + 1 ≤ 30 := by
        by_contra hc
        have : k = 30 := by omega
        subst this
        omega
      have hn : (if t.available_size * 2 % 2 ^ 32 = 0 then 256
          else t.available_size * 2 % 2 ^ 32) = 2 ^ (k + 1) := by
        rw [hcap, Nat.mod_eq_of_lt (by omega), if_neg (by omega), pow_succ]
      simp only [if_pos hcond, hn]
      have hfl := filter_range_length t
      rw [← hinv.used] at hfl
      have hfnone : ∀ i, (fresh_table (2 ^ (k + 1))).subsets.getD i none = none := by
        intro i; exact getD_replicate_eq _ _ _ _ rfl
      obtain ⟨t1, ht1, hinv1, hcap1, hused1, hent1⟩ := reinsert_spec t hinv (k + 1) (by omega)
        hk30 depth (List.range t.available_size) (fresh_table (2 ^ (k + 1)))
        (List.nodup_range _) (TableInv_fresh (k + 1) (by omega) hk30) rfl
        (by
          rintro s' ⟨i, hi⟩
          rw [hfnone i] at hi; exact Option.noConfusion hi)
        (by
          rw [hfl]
          show 4 * (0 + t.used_size) < 3 * 2 ^ (k + 1)
          rw [pow_succ]; omega)
      rw [ht1]
      have hused1' : t1.used_size = t.used_size := by
        rw [hused1, hfl]; show 0 + t.used_size = t.used_size; omega
      obtain ⟨r, hr, h1, h2, h3⟩ := search_spec t1 hinv1 (k + 1) (by omega) hk30 hcap1
        (by rw [hused1', hcap1, pow_succ]; omega) s id
      refine ⟨r, hr, ?_⟩
      have hrinv : TableInv r.1 := by
        by_cases hex : ∃ i, t1.subsets.getD i none = some s
        · rw [(h2 hex).1]; exact hinv1
        · exact (h3 (fun i hi => hex ⟨i, hi⟩)).2.2
      apply AdoptSpec_of_outcome t t1 s id r hinv1 (by rw [hused1']; omega) hrinv
        ⟨h1, h2, fun hh => ⟨(h3 hh).1, (h3 hh).2.1⟩⟩
      · rw [if_pos hcond, if_neg (by omega), hcap1, hcap, pow_succ]; omega
      · exact hused1'
      · intro s' h' id'
        rw [hent1 s' h' id']
        constructor
        · rintro (⟨i, hi, _⟩ | ⟨j, _, hj⟩)
          · rw [hfnone i] at hi; exact Option.noConfusion hi
          · exact ⟨j, hj⟩
        · rintro ⟨j, hj1, hj2⟩
          refine Or.inr ⟨j, ?_, hj1, hj2⟩
          rw [List.mem_range, ← hinv.len_subsets]
          exact getD_some_lt _ _ _ hj1
    · simp only [if_neg hcond]
      obtain ⟨r, hr, h1, h2, h3⟩ := search_spec t hinv k hk8 hk hcap (by omega) s id
      refine ⟨r, hr, ?_⟩
      have hrinv : TableInv r.1 := by
        by_cases hex : ∃ i, t.subsets.getD i none = some s
        · rw [(h2 hex).1]; exact hinv
        · exact (h3 (fun i hi => hex ⟨i, hi⟩)).2.2
      exact AdoptSpec_of_outcome t t s id r hinv (by omega) hrinv
        ⟨h1, h2, fun hh => ⟨(h3 hh).1, (h3 hh).2.1⟩⟩ (by rw [if_neg hcond]) rfl
        (fun _ _ _ => Iff.rfl)

/-! ## Resolving a subset to a deterministic state -/

theorem getElem?_append_singleton {α : Type} (l : List α) (x y : α) (i : Nat) :
    (l ++ [x])[i]? = some y ↔ l[i]? = some y ∨ (i = l.length ∧ x = y) := by
  rw [List.getElem?_append]
  by_cases h : i < l.length
  · rw [if_pos h]
    constructor
    · intro hh; exact Or.inl hh
    · rintro (hh | ⟨hh, _⟩)
      · exact hh
      · omega
  · rw [if_neg h]
    have hn : l[i]? = none := List.getElem?_eq_none (by omega)
    rw [hn]
    by_cases h2 : i = l.length
    · subst h2; simp
    · have : i - l.length ≠ 0 := by omega
      obtain ⟨m, hm⟩ := Nat.exists_eq_succ_of_ne_zero this
      rw [hm]
      simp [h2]

theorem getElem?_some_lt {α : Type} (l : List α) (i : Nat) (x : α) (h : l[i]? = some x) :
    i < l.length := by
  by_contra hc
  rw [List.getElem?_eq_none (by omega)] at h
  exact Option.noConfusion h

theorem Assigned.stored_lt {t : subset_table} {n : Nat} {disc : List (List Nat)}
    (h : Assigned t n disc) {S : List Nat} {id : Nat} (hs : stored t S id) : id < n := by
  rw [h.next]
  exact getElem?_some_lt _ _ _ ((h.ids S id).mp hs)

theorem Assigned.mem_disc {t : subset_table} {n : Nat} {disc : List (List Nat)}
    (h : Assigned t n disc) (S : List Nat) : S ∈ disc ↔ ∃ id, stored t S id := by
  rw [List.mem_iff_getElem?]
  constructor
  · rintro ⟨i, hi⟩; exact ⟨i, (h.ids S i).mpr hi⟩
  · rintro ⟨i, hi⟩; exact ⟨i, (h.ids S i).mp hi⟩

theorem resolve_spec (t : subset_table) (wl : worklist) (states : List Nat)
    (next_state : Nat) (disc : List (List Nat)) (h : Assigned t next_state disc)
    (hb : disc.length + 1 < 805306368) :
    ∃ r, deterministic_state_for_subset t wl states next_state = some r ∧ r.states = [] ∧
      ((canonicalize states ∈ disc ∧ Assigned r.table r.next_state disc ∧ r.worklist = wl ∧
          r.next_state = next_state ∧ disc[r.state]? = some (canonicalize states)) ∨
       (canonicalize states ∉ disc ∧
          Assigned r.table r.next_state (disc ++ [canonicalize states]) ∧
          r.worklist = (canonicalize states, next_state) :: wl ∧
          r.next_state = next_state + 1 ∧ r.state = next_state)) := by
  obtain ⟨r0, hr0, hspec⟩ := adopt_spec t h.inv (by rw [h.used]; omega) (canonicalize states)
    next_state 0
  unfold deterministic_state_for_subset
  simp only [hr0]
  have hstored : stored r0.1 (canonicalize states) (r0.1.subset_states.getD r0.2 0) :=
    ⟨r0.2, hspec.holds, rfl⟩
  by_cases hex : ∃ i, t.subsets.getD i none = some (canonicalize states)
  · obtain ⟨hu, hent⟩ := hspec.present hex
    have hids : ∀ S id, stored r0.1 S id ↔ disc[id]? = some S := by
      intro S id
      rw [← h.ids S id, stored_iff_entry, stored_iff_entry]
      constructor
      · rintro ⟨hh, he⟩; exact ⟨hh, (hent _ _ _).mp he⟩
      · rintro ⟨hh, he⟩; exact ⟨hh, (hent _ _ _).mpr he⟩
    have hd := (hids _ _).mp hstored
    have hlt := getElem?_some_lt _ _ _ hd
    have hne : ¬ (r0.1.subset_states.getD r0.2 0 = next_state) := by rw [h.next]; omega
    rw [if_neg hne]
    refine ⟨_, rfl, rfl, Or.inl ⟨?_, ?_, rfl, rfl, hd⟩⟩
    · exact List.mem_iff_getElem?.mpr ⟨_, hd⟩
    · exact ⟨hspec.inv, by rw [hu]; exact h.used, h.next, h.nodup, hids⟩
  · have habs : ∀ i, t.subsets.getD i none ≠ some (canonicalize states) :=
      fun i hi => hex ⟨i, hi⟩
    obtain ⟨hu, _, hid, hent⟩ := hspec.absent habs
    have hnotin : canonicalize states ∉ disc := by
      intro hm
      obtain ⟨id, i, hi, _⟩ := (h.mem_disc _).mp hm
      exact habs i hi
    have hids : ∀ S id, stored r0.1 S id ↔ (disc ++ [canonicalize states])[id]? = some S := by
      intro S id
      rw [getElem?_append_singleton, ← h.ids S id, stored_iff_entry, stored_iff_entry]
      constructor
      · rintro ⟨hh, he⟩
        rcases (hent _ _ _).mp he with h1 | ⟨h1, _, h3⟩
        · exact Or.inl ⟨hh, h1⟩
        · exact Or.inr ⟨by rw [h3, h.next], h1.symm⟩
      · rintro (⟨hh, he⟩ | ⟨h1, h2⟩)
        · exact ⟨hh, (hent _ _ _).mpr (Or.inl he)⟩
        · exact ⟨_, (hent _ _ _).mpr (Or.inr ⟨h2.symm, rfl, by rw [h1, h.next]⟩)⟩
    rw [if_pos hid]
    have hmod : (next_state + 1) % 2 ^ 32 = next_state + 1 :=
      Nat.mod_eq_of_lt (by rw [h.next]; omega)
    refine ⟨_, rfl, rfl, Or.inr ⟨hnotin, ?_, ?_, hmod, hid⟩⟩
    · refine ⟨hspec.inv, ?_, ?_, ?_, hids⟩
      · rw [hu, h.used]; simp
      · show (next_state + 1) % 2 ^ 32 = _
        rw [hmod, h.next]; simp
      · exact List.Nodup.append h.nodup (List.nodup_singleton _)
          (by
            intro x hx hx'
            rw [List.mem_singleton] at hx'
            subst hx'
            exact hnotin hx)
    · show ((r0.1.subsets.getD r0.2 none).getD [], next_state) :: wl = _
      rw [hspec.holds]; rfl

/-! ## The loops of the subset construction -/

theorem getD_append_replicate {α : Type} (l : List α) (n j : Nat) (d : α) :
    (l ++ List.replicate n d).getD j d = l.getD j d := by
  by_cases h : j < l.length
  · exact List.getD_append l _ d j h
  · rw [List.getD_eq_default l d (by omega)]
    rw [List.getD_eq_getElem?_getD, List.getElem?_append, if_neg h, List.getElem?_replicate]
    split <;> rfl

theorem state_at_grow (a : automaton) (s j : Nat) : (grow_states a s).state_at j = a.state_at j := by
  unfold grow_states automaton.state_at
  exact getD_append_replicate _ _ _ _

theorem length_grow (a : automaton) (s : Nat) : s < (grow_states a s).states.length := by
  unfold grow_states
  simp only [List.length_append, List.length_replicate]
  omega

theorem length_grow_le (a : automaton) (s : Nat) :
    a.states.length ≤ (grow_states a s).states.length := by
  unfold grow_states
  simp only [List.length_append, List.length_replicate]
  omega

theorem length_grow_eq (a : automaton) (s : Nat) :
    (grow_states a s).states.length = max a.states.length (s + 1) := by
  unfold grow_states
  simp only [List.length_append, List.length_replicate]
  omega

theorem length_add_transition (r : automaton) (src tgt c : Nat) :
    (automaton_add_transition r src tgt c).states.length
      = max (max r.states.length (src + 1)) (tgt + 1) := by
  unfold automaton_add_transition
  simp only [List.length_set]
  rw [length_grow_eq, length_grow_eq]

theorem length_mark_accepting (r : automaton) (s : Nat) :
    (automaton_mark_accepting_state r s).states.length = max r.states.length (s + 1) := by
  unfold automaton_mark_accepting_state
  simp only [List.length_set]
  rw [length_grow_eq]

theorem state_at_add_transition (r : automaton) (src tgt c j : Nat) :
    (automaton_add_transition r src tgt c).state_at j
      = if j = src then
          ⟨(r.state_at src).transitions ++ [⟨tgt, c⟩], (r.state_at src).accepting⟩
        else r.state_at j := by
  have hlen : src < (grow_states (grow_states r src) tgt).states.length :=
    Nat.lt_of_lt_of_le (length_grow r src) (length_grow_le _ tgt)
  have hst : ∀ i, (grow_states (grow_states r src) tgt).state_at i = r.state_at i := by
    intro i; rw [state_at_grow, state_at_grow]
  unfold automaton_add_transition
  simp only [automaton.state_at] at hst ⊢
  rw [getD_set_eq]
  by_cases h : j = src
  · subst h
    rw [if_pos ⟨rfl, hlen⟩, if_pos rfl, hst]
  · rw [if_neg (fun hh => h hh.1.symm), if_neg h, hst]

theorem start_state_add_transition (r : automaton) (src tgt c : Nat) :
    (automaton_add_transition r src tgt c).start_state = r.start_state := rfl

theorem state_at_mark_accepting (r : automaton) (s j : Nat) :
    (automaton_mark_accepting_state r s).state_at j
      = if j = s then ⟨(r.state_at s).transitions, true⟩ else r.state_at j := by
  have hlen : s < (grow_states r s).states.length := length_grow r s
  have hst : ∀ i, (grow_states r s).state_at i = r.state_at i := fun i => state_at_grow r s i
  unfold automaton_mark_accepting_state
  simp only [automaton.state_at] at hst ⊢
  rw [getD_set_eq]
  by_cases h : j = s
  · subst h
    rw [if_pos ⟨rfl, hlen⟩, if_pos rfl, hst]
  · rw [if_neg (fun hh => h hh.1.symm), if_neg h, hst]

theorem start_state_mark_accepting (r : automaton) (s : Nat) :
    (automaton_mark_accepting_state r s).start_state = r.start_state := rfl

theorem explored_mono (a : automaton) (t t' : subset_table) (r r' : automaton) (S : List Nat)
    (id : Nat) (syms : List Nat) (hst : ∀ S id, stored t S id → stored t' S id)
    (hr : r'.state_at id = r.state_at id) (h : explored a t r S id syms) :
    explored a t' r' S id syms := by
  refine ⟨by rw [hr]; exact h.accepting, by rw [hr]; exact h.symbols, ?_⟩
  intro tr htr
  rw [hr] at htr
  exact hst _ _ (h.targets tr htr)

theorem blank_congr (r r' : automaton) (id : Nat) (hr : r'.state_at id = r.state_at id)
    (h : blank r id) : blank r' id := by
  unfold blank at *
  rw [hr]; exact h

theorem few_subsets_bound (a : automaton) (options : start_state_options)
    (hfew : few_subsets a options) (s : determinize_state)
    (cur : Option (List Nat × Nat × List Nat)) (disc : List (List Nat))
    (h : DetInv a options s cur disc) : disc.length < 805306367 :=
  hfew disc h.assigned.nodup h.reach

theorem DetInv_skip (a : automaton) (options : start_state_options) (s : determinize_state)
    (S : List Nat) (id c : Nat) (done : List Nat) (disc : List (List Nat))
    (h : DetInv a options s (some (S, id, done)) disc)
    (hc : push_successors a c S [] = []) :
    DetInv a options s (some (S, id, done ++ [c])) disc := by
  refine ⟨h.assigned, h.reach, h.start, h.wl_stored, h.wl_nodup, ?_, h.pending, h.unused, ?_, ?_,
    h.scratch, h.size⟩
  · intro S' id' syms' he
    cases he
    exact h.cur_stored S id done rfl
  · intro S' id' syms' he
    cases he
    have hx := h.current S id done rfl
    refine ⟨hx.accepting, ?_, hx.targets⟩
    rw [hx.symbols, List.filter_append]
    have : List.filter (fun c => decide (push_successors a c S [] ≠ [])) [c] = [] := by
      rw [List.filter_cons_of_neg]
      · rfl
      · rw [hc]; simp
    rw [this, List.append_nil]
  · intro S' id' hs hn hcur
    apply h.finished S' id' hs hn
    intro S'' syms'' he
    cases he
    exact hcur S (done ++ [c]) rfl

theorem DetInv_transition (a : automaton) (options : start_state_options)
    (s : determinize_state) (r : resolution) (S : List Nat) (id c : Nat) (done : List Nat)
    (disc disc2 : List (List Nat))
    (h : DetInv a options s (some (S, id, done)) disc)
    (hc : push_successors a c S [] ≠ [])
    (h1 : Assigned r.table r.next_state disc2)
    (h2 : ∀ S id, stored s.subsets S id → stored r.table S id)
    (h3 : ∀ S, S ∈ disc2 → reachable_subset a options S)
    (h4 : disc2[0]? = some (canonicalize (initial_subset a options)))
    (h5 : ∀ p, p ∈ r.worklist →
      stored r.table p.1 p.2 ∧ (p ∈ s.worklist ∨ p.2 = s.next_state))
    (h6 : (r.worklist.map Prod.snd).Nodup)
    (h7 : ∀ p, p ∈ s.worklist → p ∈ r.worklist)
    (h8 : s.next_state ≤ r.next_state)
    (h9 : stored r.table (canonicalize (push_successors a c S [])) r.state)
    (h10 : ∀ S' id', stored r.table S' id' →
      stored s.subsets S' id' ∨ id' ∈ r.worklist.map Prod.snd)
    (h11 : r.states = []) :
    DetInv a options
      { subsets := r.table, worklist := r.worklist, next_state := r.next_state,
        next_subset := r.states,
        result := automaton_add_transition s.result id r.state c }
      (some (S, id, done ++ [c])) disc2 := by
  obtain ⟨hSid, hidwl⟩ := h.cur_stored S id done rfl
  have hidlt : id < s.next_state := h.assigned.stored_lt hSid
  have hnotwl : id ∉ r.worklist.map Prod.snd := by
    intro hm
    obtain ⟨p, hp, hpe⟩ := List.mem_map.mp hm
    rcases (h5 p hp).2 with hold | hnew
    · exact hidwl (List.mem_map.mpr ⟨p, hold, hpe⟩)
    · omega
  have hother : ∀ j, j ≠ id →
      (automaton_add_transition s.result id r.state c).state_at j = s.result.state_at j := by
    intro j hj
    rw [state_at_add_transition, if_neg hj]
  have hsize : (automaton_add_transition s.result id r.state c).states.length ≤ r.next_state := by
    rw [length_add_transition]
    have h12 := h.size
    have h13 := h1.stored_lt h9
    omega
  refine ⟨h1, h3, ⟨h4, ?_⟩, fun p hp => (h5 p hp).1, h6, ?_, ?_, ?_, ?_, ?_, h11, hsize⟩
  · show (automaton_add_transition s.result id r.state c).start_state = 0
    rw [start_state_add_transition]; exact h.start.2
  · intro S' id' syms' he
    cases he
    exact ⟨h2 _ _ hSid, hnotwl⟩
  · intro p hp
    have hpid : p.2 ≠ id := by
      intro he
      exact hnotwl (List.mem_map.mpr ⟨p, hp, he⟩)
    apply blank_congr s.result _ p.2 (hother p.2 hpid)
    rcases (h5 p hp).2 with hold | hnew
    · exact h.pending p hold
    · exact h.unused p.2 (by omega)
  · intro id' hid'
    have hle : s.next_state ≤ id' := Nat.le_trans h8 hid'
    exact blank_congr s.result _ id' (hother id' (by omega)) (h.unused id' hle)
  · intro S' id' syms' he
    cases he
    have hx := h.current S id done rfl
    have hst : (automaton_add_transition s.result id r.state c).state_at id
        = ⟨(s.result.state_at id).transitions ++ [⟨r.state, c⟩],
            (s.result.state_at id).accepting⟩ := by
      rw [state_at_add_transition, if_pos rfl]
    refine ⟨?_, ?_, ?_⟩
    · show ((automaton_add_transition s.result id r.state c).state_at id).accepting = _
      rw [hst]; exact hx.accepting
    · show ((automaton_add_transition s.result id r.state c).state_at id).transitions.map _ = _
      rw [hst]
      simp only [List.map_append, List.map_cons, List.map_nil]
      rw [hx.symbols, List.filter_append]
      have : List.filter (fun c => decide (push_successors a c S [] ≠ [])) [c] = [c] := by
        rw [List.filter_cons_of_pos]
        · rfl
        · exact decide_eq_true hc
      rw [this]
    · intro tr htr
      change tr ∈ ((automaton_add_transition s.result id r.state c).state_at id).transitions at htr
      rw [hst] at htr
      rcases List.mem_append.mp htr with hold | hnew
      · exact h2 _ _ (hx.targets tr hold)
      · rw [List.mem_singleton] at hnew
        subst hnew
        exact h9
  · intro S' id' hs hn hcur
    have hne : id' ≠ id := by
      intro he; subst he
      exact hcur S (done ++ [c]) rfl
    rcases h10 S' id' hs with hold | hnew
    · have hn' : id' ∉ s.worklist.map Prod.snd := by
        intro hm
        obtain ⟨p, hp, hpe⟩ := List.mem_map.mp hm
        exact hn (List.mem_map.mpr ⟨p, h7 p hp, hpe⟩)
      have := h.finished S' id' hold hn' (by
        intro S'' syms'' he
        cases he
        exact hne rfl)
      exact explored_mono a s.subsets r.table s.result _ S' id' _ h2 (hother id' hne) this
    · exact absurd hnew hn

theorem explore_spec (a : automaton) (options : start_state_options)
    (hfew : few_subsets a options) (S : List Nat) (id : Nat) :
    ∀ (rest done : List Nat) (s : determinize_state) (disc : List (List Nat)),
      done ++ rest = List.range a.number_of_symbols →
      DetInv a options s (some (S, id, done)) disc →
      ∃ s' extra, explore_symbols a S id rest s = some s' ∧
        DetInv a options s' (some (S, id, List.range a.number_of_symbols)) (disc ++ extra) ∧
        s'.worklist.length = s.worklist.length + extra.length := by
  intro rest
  induction rest with
  | nil =>
    intro done s disc hd h
    rw [List.append_nil] at hd
    subst hd
    exact ⟨s, [], rfl, by rw [List.append_nil]; exact h, rfl⟩
  | cons c rest ih =>
    intro done s disc hd h
    have hd' : (done ++ [c]) ++ rest = List.range a.number_of_symbols := by
      rw [List.append_assoc]; exact hd
    have hcmem : c ∈ List.range a.number_of_symbols := by
      rw [← hd]; simp
    have hclt : c < a.number_of_symbols := List.mem_range.mp hcmem
    obtain ⟨hSid, hidwl⟩ := h.cur_stored S id done rfl
    rw [explore_symbols]
    simp only [h.scratch]
    by_cases hc : push_successors a c S [] = []
    · have hlen : (push_successors a c S []).length = 0 := by rw [hc]; rfl
      rw [if_pos hlen, hc]
      have hs : { s with next_subset := [] } = s := by
        have := h.scratch
        cases s
        simp only at this
        subst this
        rfl
      rw [hs]
      exact ih (done ++ [c]) s disc hd' (DetInv_skip a options s S id c done disc h hc)
    · have hlen : ¬ ((push_successors a c S []).length = 0) := by
        intro hl; exact hc (List.length_eq_zero.mp hl)
      rw [if_neg hlen]
      have hbound := few_subsets_bound a options hfew s _ disc h
      obtain ⟨r, hr, hrs, hcases⟩ := resolve_spec s.subsets s.worklist (push_successors a c S [])
        s.next_state disc h.assigned (by omega)
      simp only [hr]
      have hSreach : reachable_subset a options S :=
        h.reach S ((h.assigned.mem_disc S).mpr ⟨id, hSid⟩)
      have hTreach : reachable_subset a options (canonicalize (push_successors a c S [])) :=
        reachable_subset.step S c hSreach hclt hc
      have hstart0 : ∀ extra : List (List Nat),
          (disc ++ extra)[0]? = some (canonicalize (initial_subset a options)) := by
        intro extra
        have h0 := h.start.1
        have hl := getElem?_some_lt _ _ _ h0
        rw [List.getElem?_append, if_pos hl]; exact h0
      rcases hcases with ⟨hmem, hA, hwl, hnext, hstate⟩ | ⟨hnot, hA, hwl, hnext, hstate⟩
      · -- the successor subset is known already
        have hmono : ∀ S id, stored s.subsets S id → stored r.table S id := by
          intro S' id' hs'
          exact (hA.ids S' id').mpr ((h.assigned.ids S' id').mp hs')
        have hback : ∀ S id, stored r.table S id → stored s.subsets S id := by
          intro S' id' hs'
          exact (h.assigned.ids S' id').mpr ((hA.ids S' id').mp hs')
        have hinv2 := DetInv_transition a options s r S id c done disc disc h hc hA hmono
          h.reach h.start.1
          (by
            intro p hp
            rw [hwl] at hp
            exact ⟨hmono _ _ (h.wl_stored p hp), Or.inl hp⟩)
          (by rw [hwl]; exact h.wl_nodup)
          (by intro p hp; rw [hwl]; exact hp)
          (by rw [hnext])
          ((hA.ids _ _).mpr hstate)
          (fun S' id' hs' => Or.inl (hback S' id' hs'))
          hrs
        obtain ⟨s', extra, he, hinv', hl⟩ := ih (done ++ [c]) _ disc hd' hinv2
        refine ⟨s', extra, he, hinv', ?_⟩
        rw [hl]
        show r.worklist.length + extra.length = _
        rw [hwl]
      · -- a new deterministic state is created
        have hmono : ∀ S id, stored s.subsets S id → stored r.table S id := by
          intro S' id' hs'
          apply (hA.ids S' id').mpr
          rw [getElem?_append_singleton]
          exact Or.inl ((h.assigned.ids S' id').mp hs')
        have hnew : stored r.table (canonicalize (push_successors a c S [])) s.next_state := by
          apply (hA.ids _ _).mpr
          rw [getElem?_append_singleton]
          exact Or.inr ⟨h.assigned.next, rfl⟩
        have hinv2 := DetInv_transition a options s r S id c done disc
          (disc ++ [canonicalize (push_successors a c S [])]) h hc hA hmono
          (by
            intro S' hS'
            rcases List.mem_append.mp hS' with h1 | h1
            · exact h.reach S' h1
            · rw [List.mem_singleton] at h1
              subst h1
              exact hTreach)
          (hstart0 _)
          (by
            intro p hp
            rw [hwl] at hp
            rcases List.mem_cons.mp hp with h1 | h1
            · subst h1
              exact ⟨hnew, Or.inr rfl⟩
            · exact ⟨hmono _ _ (h.wl_stored p h1), Or.inl h1⟩)
          (by
            rw [hwl, List.map_cons, List.nodup_cons]
            refine ⟨?_, h.wl_nodup⟩
            intro hm
            obtain ⟨p, hp, hpe⟩ := List.mem_map.mp hm
            have := h.assigned.stored_lt (h.wl_stored p hp)
            simp only at hpe
            omega)
          (by intro p hp; rw [hwl]; exact List.mem_cons_of_mem _ hp)
          (by rw [hnext]; omega)
          (by rw [hstate]; exact hnew)
          (by
            intro S' id' hs'
            have := (hA.ids S' id').mp hs'
            rw [getElem?_append_singleton] at this
            rcases this with h1 | ⟨h1, _⟩
            · exact Or.inl ((h.assigned.ids S' id').mpr h1)
            · right
              rw [hwl, List.map_cons]
              rw [h1, ← h.assigned.next]
              exact List.mem_cons_self _ _)
          hrs
        obtain ⟨s', extra, he, hinv', hl⟩ := ih (done ++ [c]) _ _ hd' hinv2
        refine ⟨s', canonicalize (push_successors a c S []) :: extra, he, ?_, ?_⟩
        · rw [List.append_assoc] at hinv'
          exact hinv'
        · rw [hl]
          show r.worklist.length + extra.length = _
          rw [hwl]
          simp only [List.length_cons]
          omega

theorem DetInv_pop (a : automaton) (options : start_state_options) (s : determinize_state)
    (S : List Nat) (id : Nat) (rest : worklist) (disc : List (List Nat))
    (h : DetInv a options s none disc) (hwl : s.worklist = (S, id) :: rest) :
    DetInv a options
      { s with
        worklist := rest,
        result :=
          if S.any (fun q => (a.state_at q).accepting) then
            automaton_mark_accepting_state s.result id
          else s.result }
      (some (S, id, [])) disc := by
  have hnd := h.wl_nodup
  rw [hwl, List.map_cons, List.nodup_cons] at hnd
  have hhead : (S, id) ∈ s.worklist := by rw [hwl]; exact List.mem_cons_self _ _
  have hSid : stored s.subsets S id := h.wl_stored _ hhead
  have hblank : blank s.result id := h.pending _ hhead
  have hidlt : id < s.next_state := h.assigned.stored_lt hSid
  have hother : ∀ j, j ≠ id →
      (if S.any (fun q => (a.state_at q).accepting) then
          automaton_mark_accepting_state s.result id
        else s.result).state_at j = s.result.state_at j := by
    intro j hj
    split
    · rw [state_at_mark_accepting, if_neg hj]
    · rfl
  have hsub : ∀ p, p ∈ rest → p ∈ s.worklist := by
    intro p hp; rw [hwl]; exact List.mem_cons_of_mem _ hp
  refine ⟨h.assigned, h.reach, ⟨h.start.1, ?_⟩, fun p hp => h.wl_stored p (hsub p hp), hnd.2,
    ?_, ?_, ?_, ?_, ?_, h.scratch, ?_⟩
  · show (if S.any (fun q => (a.state_at q).accepting) then
        automaton_mark_accepting_state s.result id else s.result).start_state = 0
    split
    · rw [start_state_mark_accepting]; exact h.start.2
    · exact h.start.2
  · intro S' id' syms' he
    cases he
    exact ⟨hSid, hnd.1⟩
  · intro p hp
    have hne : p.2 ≠ id := by
      intro he
      exact hnd.1 (List.mem_map.mpr ⟨p, hp, he⟩)
    exact blank_congr s.result _ p.2 (hother p.2 hne) (h.pending p (hsub p hp))
  · intro id' hid'
    have hid2 : s.next_state ≤ id' := hid'
    exact blank_congr s.result _ id' (hother id' (by omega)) (h.unused id' hid2)
  · intro S' id' syms' he
    cases he
    unfold blank at hblank
    refine ⟨?_, ?_, ?_⟩
    · show ((if S.any (fun q => (a.state_at q).accepting) then
          automaton_mark_accepting_state s.result id else s.result).state_at id).accepting = _
      by_cases hany : S.any (fun q => (a.state_at q).accepting) = true
      · rw [if_pos hany, state_at_mark_accepting, if_pos rfl, hany]
      · rw [if_neg hany, hblank]
        simp only [Bool.not_eq_true] at hany
        rw [hany]
    · show ((if S.any (fun q => (a.state_at q).accepting) then
          automaton_mark_accepting_state s.result id else s.result).state_at id).transitions.map
            _ = _
      split
      · rw [state_at_mark_accepting, if_pos rfl, hblank]; rfl
      · rw [hblank]; rfl
    · intro tr htr
      exfalso
      change tr ∈ ((if S.any (fun q => (a.state_at q).accepting) then
          automaton_mark_accepting_state s.result id else s.result).state_at id).transitions at htr
      split at htr
      · rw [state_at_mark_accepting, if_pos rfl, hblank] at htr
        exact List.not_mem_nil _ htr
      · rw [hblank] at htr
        exact List.not_mem_nil _ htr
  · intro S' id' hs hn hcur
    have hne : id' ≠ id := by
      intro he; subst he
      exact hcur S [] rfl
    have hn' : id' ∉ s.worklist.map Prod.snd := by
      rw [hwl, List.map_cons]
      intro hm
      rcases List.mem_cons.mp hm with h1 | h1
      · exact hne h1
      · exact hn h1
    have := h.finished S' id' hs hn' (fun _ _ he => Option.noConfusion he)
    exact explored_mono a s.subsets s.subsets s.result _ S' id' _ (fun _ _ hh => hh)
      (hother id' hne) this
  · show (if S.any (fun q => (a.state_at q).accepting) then
        automaton_mark_accepting_state s.result id else s.result).states.length ≤ s.next_state
    have h12 := h.size
    split
    · rw [length_mark_accepting]; omega
    · exact h12

theorem DetInv_close (a : automaton) (options : start_state_options) (s : determinize_state)
    (S : List Nat) (id : Nat) (disc : List (List Nat))
    (h : DetInv a options s (some (S, id, List.range a.number_of_symbols)) disc) :
    DetInv a options s none disc := by
  refine ⟨h.assigned, h.reach, h.start, h.wl_stored, h.wl_nodup,
    fun _ _ _ he => Option.noConfusion he, h.pending, h.unused,
    fun _ _ _ he => Option.noConfusion he, ?_, h.scratch, h.size⟩
  intro S' id' hs hn _
  by_cases he : id' = id
  · subst he
    have hS := (h.cur_stored S id' _ rfl).1
    have hSS : S' = S := by
      have h1 := (h.assigned.ids S' id').mp hs
      have h2 := (h.assigned.ids S id').mp hS
      rw [h1] at h2
      exact Option.some.inj h2
    subst hSS
    exact h.current S' id' _ rfl
  · apply h.finished S' id' hs hn
    intro S'' syms'' hc
    cases hc
    exact he rfl

theorem loop_spec (a : automaton) (options : start_state_options)
    (hfew : few_subsets a options) :
    ∀ (fuel : Nat) (s : determinize_state) (disc : List (List Nat)),
      2 * (805306367 - disc.length) + s.worklist.length < fuel →
      DetInv a options s none disc →
      ∃ s' extra, determinize_loop a fuel s = some s' ∧
        DetInv a options s' none (disc ++ extra) ∧ s'.worklist = [] := by
  intro fuel
  induction fuel with
  | zero => intro s disc hm _; omega
  | succ fuel ih =>
    intro s disc hm h
    rw [determinize_loop]
    cases hwl : s.worklist with
    | nil =>
      exact ⟨s, [], rfl, by rw [List.append_nil]; exact h, hwl⟩
    | cons p rest =>
      obtain ⟨S, id⟩ := p
      simp only
      have h1 := DetInv_pop a options s S id rest disc h hwl
      obtain ⟨s2, extra, he, h2, hl⟩ := explore_spec a options hfew S id
        (List.range a.number_of_symbols) [] _ disc (List.nil_append _) h1
      simp only [he]
      have h3 := DetInv_close a options s2 S id _ h2
      have hb := few_subsets_bound a options hfew s2 _ _ h3
      rw [List.length_append] at hb
      simp only at hl
      rw [hwl, List.length_cons] at hm
      obtain ⟨s', extra', he', h4, h5⟩ := ih s2 (disc ++ extra)
        (by rw [List.length_append, hl]; omega) h3
      exact ⟨s', extra ++ extra', he', by rw [← List.append_assoc]; exact h4, h5⟩

theorem determinize_loop_mono (a : automaton) :
    ∀ (fuel : Nat) (s s' : determinize_state), determinize_loop a fuel s = some s' →
      determinize_loop a (fuel + 1) s = some s' := by
  intro fuel
  induction fuel with
  | zero => intro s s' h; rw [determinize_loop] at h; exact Option.noConfusion h
  | succ fuel ih =>
    intro s s' h
    rw [determinize_loop] at h ⊢
    cases hwl : s.worklist with
    | nil => rw [hwl] at h; exact h
    | cons p rest =>
      rw [hwl] at h
      obtain ⟨S, id⟩ := p
      simp only at h ⊢
      cases he : explore_symbols a S id (List.range a.number_of_symbols)
          { s with
            worklist := rest,
            result :=
              if S.any (fun q => (a.state_at q).accepting) then
                automaton_mark_accepting_state s.result id
              else s.result } with
      | none => rw [he] at h; exact Option.noConfusion h
      | some s2 =>
        rw [he] at h
        simp only at h ⊢
        exact ih s2 s' h

theorem determinize_loop_mono_le (a : automaton) (fuel fuel' : Nat) (hle : fuel ≤ fuel')
    (s s' : determinize_state) (h : determinize_loop a fuel s = some s') :
    determinize_loop a fuel' s = some s' := by
  induction hle with
  | refl => exact h
  | step _ ih => exact determinize_loop_mono a _ s s' ih

theorem TableInv_empty : TableInv empty_table := by
  have hnone : ∀ i, empty_table.subsets.getD i none = none := fun i => rfl
  refine ⟨rfl, rfl, rfl, Or.inl ⟨rfl, rfl⟩, rfl, ?_, ?_, ?_⟩
  · intro i s hi; rw [hnone i] at hi; exact Option.noConfusion hi
  · intro i s hi; rw [hnone i] at hi; exact Option.noConfusion hi
  · intro i j s hi; rw [hnone i] at hi; exact Option.noConfusion hi

theorem Assigned_empty : Assigned empty_table 0 [] := by
  refine ⟨TableInv_empty, rfl, rfl, List.nodup_nil, ?_⟩
  intro S id
  constructor
  · rintro ⟨i, hi, _⟩
    exact Option.noConfusion (show (none : Option (List Nat)) = some S from hi)
  · intro h
    exact Option.noConfusion (show (none : Option (List Nat)) = some S from h)

theorem run_spec (cl : automaton → automaton) (a : automaton) (options : start_state_options)
    (hfew : few_subsets (cl a) options) :
    ∃ n s disc,
      (∀ fuel, n ≤ fuel → determinize_run cl fuel a empty_automaton options = some s) ∧
      DetInv (cl a) options s none disc ∧ s.worklist = [] := by
  obtain ⟨r, hr, hrs, hcases⟩ := resolve_spec empty_table [] (initial_subset (cl a) options) 0 []
    Assigned_empty (by simp)
  rcases hcases with ⟨hmem, _⟩ | ⟨_, hA, hwl, hnext, hstate⟩
  · exact absurd hmem (List.not_mem_nil _)
  · rw [List.nil_append] at hA
    have hinit : DetInv (cl a) options
        { subsets := r.table, worklist := r.worklist, next_state := r.next_state,
          next_subset := r.states,
          result := { empty_automaton with start_state := r.state } }
        none [canonicalize (initial_subset (cl a) options)] := by
      have hblank : ∀ id, blank { empty_automaton with start_state := r.state } id :=
        fun id => rfl
      refine ⟨hA, ?_, ⟨rfl, hstate⟩, ?_, ?_, fun _ _ _ he => Option.noConfusion he,
        fun p _ => hblank p.2, fun id _ => hblank id, fun _ _ _ he => Option.noConfusion he,
        ?_, hrs, Nat.zero_le _⟩
      · intro S hS
        rw [List.mem_singleton] at hS
        subst hS
        exact reachable_subset.start
      · intro p hp
        change p ∈ r.worklist at hp
        rw [hwl, List.mem_singleton] at hp
        subst hp
        exact (hA.ids _ _).mpr rfl
      · show (r.worklist.map Prod.snd).Nodup
        rw [hwl]; simp
      · intro S' id' hs hn _
        exfalso
        have h1 := (hA.ids S' id').mp hs
        have hlt := getElem?_some_lt _ _ _ h1
        simp only [List.length_singleton] at hlt
        apply hn
        show id' ∈ r.worklist.map Prod.snd
        rw [hwl]
        have : id' = 0 := by omega
        subst this
        simp
    obtain ⟨s', extra, he, hinv, hempty⟩ := loop_spec (cl a) options hfew
      (2 * 805306367 + 2) _ _ (by
        show 2 * (805306367 - 1) + r.worklist.length < _
        rw [hwl]; simp) hinit
    refine ⟨2 * 805306367 + 2, s', _, ?_, hinv, hempty⟩
    intro fuel hfuel
    unfold determinize_run
    simp only [hr]
    exact determinize_loop_mono_le (cl a) _ fuel hfuel _ _ he

/-! ## Successor subsets and languages -/

theorem mem_push_transitions (a : automaton) (c : Nat) (x : Nat) :
    ∀ (trs : List transition) (acc : List Nat),
      x ∈ push_transitions a c trs acc ↔
        x ∈ acc ∨ ∃ tr, tr ∈ trs ∧ tr.symbol = c ∧ (x = tr.target ∨ x ∈ a.closure_at tr.target) := by
  intro trs
  induction trs with
  | nil => intro acc; simp [push_transitions]
  | cons t rest ih =>
    intro acc
    unfold push_transitions at ih ⊢
    rw [List.foldl_cons, ih]
    by_cases hs : t.symbol ≠ c
    · rw [if_pos hs]
      constructor
      · rintro (h | ⟨tr, h1, h2⟩)
        · exact Or.inl h
        · exact Or.inr ⟨tr, List.mem_cons_of_mem _ h1, h2⟩
      · rintro (h | ⟨tr, h1, h2⟩)
        · exact Or.inl h
        · rcases List.mem_cons.mp h1 with rfl | h1'
          · exact absurd h2.1 hs
          · exact Or.inr ⟨tr, h1', h2⟩
    · rw [if_neg hs]
      have hs' : t.symbol = c := not_not.mp hs
      simp only [List.mem_append, List.mem_singleton]
      constructor
      · rintro (((h | h) | h) | ⟨tr, h1, h2⟩)
        · exact Or.inl h
        · exact Or.inr ⟨t, List.mem_cons_self _ _, hs', Or.inl h⟩
        · exact Or.inr ⟨t, List.mem_cons_self _ _, hs', Or.inr h⟩
        · exact Or.inr ⟨tr, List.mem_cons_of_mem _ h1, h2⟩
      · rintro (h | ⟨tr, h1, h2, h3⟩)
        · exact Or.inl (Or.inl (Or.inl h))
        · rcases List.mem_cons.mp h1 with rfl | h1'
          · rcases h3 with h3 | h3
            · exact Or.inl (Or.inl (Or.inr h3))
            · exact Or.inl (Or.inr h3)
          · exact Or.inr ⟨tr, h1', h2, h3⟩

theorem mem_push_successors (a : automaton) (c : Nat) (x : Nat) :
    ∀ (S : List Nat) (acc : List Nat),
      x ∈ push_successors a c S acc ↔ x ∈ acc ∨ in_successors a S c x := by
  intro S
  induction S with
  | nil => intro acc; simp [push_successors, in_successors]
  | cons q rest ih =>
    intro acc
    unfold push_successors at ih ⊢
    rw [List.foldl_cons, ih, mem_push_transitions]
    unfold in_successors
    constructor
    · rintro ((h | ⟨tr, h1, h2⟩) | ⟨q', h1, h2⟩)
      · exact Or.inl h
      · exact Or.inr ⟨q, List.mem_cons_self _ _, tr, h1, h2⟩
      · exact Or.inr ⟨q', List.mem_cons_of_mem _ h1, h2⟩
    · rintro (h | ⟨q', h1, h2⟩)
      · exact Or.inl (Or.inl h)
      · rcases List.mem_cons.mp h1 with rfl | h1'
        · obtain ⟨tr, h3, h4⟩ := h2
          exact Or.inl (Or.inr ⟨tr, h3, h4⟩)
        · exact Or.inr ⟨q', h1', h2⟩

theorem mem_successors (a : automaton) (c : Nat) (S : List Nat) (x : Nat) :
    x ∈ push_successors a c S [] ↔ in_successors a S c x := by
  rw [mem_push_successors]
  constructor
  · rintro (h | h)
    · exact absurd h (List.not_mem_nil _)
    · exact h
  · intro h; exact Or.inr h

theorem successors_eq_nil (a : automaton) (c : Nat) (S : List Nat) :
    push_successors a c S [] = [] ↔
      ∀ q, q ∈ S → ∀ tr, tr ∈ (a.state_at q).transitions → tr.symbol ≠ c := by
  constructor
  · intro h q hq tr htr hc
    have : tr.target ∈ push_successors a c S [] :=
      (mem_successors a c S _).mpr ⟨q, hq, tr, htr, hc, Or.inl rfl⟩
    rw [h] at this
    exact List.not_mem_nil _ this
  · intro h
    apply List.eq_nil_iff_forall_not_mem.mpr
    intro x hx
    obtain ⟨q, hq, tr, htr, hc, _⟩ := (mem_successors a c S x).mp hx
    exact h q hq tr htr hc

/-! ### Words read by an automaton -/

theorem epsilon_reachable_valid (a : automaton) (hwf : WellFormed a) (q q' : Nat)
    (h : epsilon_reachable a q q') (hq : q < a.states.length) : q' < a.states.length := by
  induction h with
  | refl => exact hq
  | tail _ hstep _ => exact hwf.targets_valid _ _ hstep

theorem reads_of_epsilon (a : automaton) (q p : Nat) (h : epsilon_reachable a q p)
    (w : List Nat) (q' : Nat) (hr : reads a p w q') : reads a q w q' := by
  induction h using Relation.ReflTransGen.head_induction_on with
  | refl => exact hr
  | head hstep _ ih => exact reads.epsilon _ _ _ _ hstep ih

theorem reads_nil_iff (a : automaton) (q q' : Nat) :
    reads a q [] q' ↔ epsilon_reachable a q q' := by
  constructor
  · intro h
    generalize hw : ([] : List Nat) = w at h
    induction h with
    | done q => exact Relation.ReflTransGen.refl
    | epsilon q t w q' hstep _ ih => exact Relation.ReflTransGen.head hstep (ih hw)
    | symbol q c t w q' _ _ _ _ => exact List.noConfusion hw
  · intro h
    exact reads_of_epsilon a q q' h [] q' (reads.done q')

theorem reads_cons_iff (a : automaton) (q c : Nat) (w : List Nat) (q' : Nat) :
    reads a q (c :: w) q' ↔
      c ≠ SYMBOL_EPSILON ∧ ∃ p t, epsilon_reachable a q p ∧
        (⟨t, c⟩ : transition) ∈ (a.state_at p).transitions ∧ reads a t w q' := by
  constructor
  · intro h
    generalize hw : c :: w = w0 at h
    induction h with
    | done q => exact List.noConfusion hw
    | epsilon q t w1 q' hstep _ ih =>
      obtain ⟨hc, p, t', h1, h2, h3⟩ := ih hw
      exact ⟨hc, p, t', Relation.ReflTransGen.head hstep h1, h2, h3⟩
    | symbol q c1 t w1 q' hc hstep hrest _ =>
      injection hw with h1 h2
      subst h1; subst h2
      exact ⟨hc, q, t, Relation.ReflTransGen.refl, hstep, hrest⟩
  · rintro ⟨hc, p, t, h1, h2, h3⟩
    exact reads_of_epsilon a q p h1 _ _ (reads.symbol p c t w q' hc h2 h3)

theorem accepts_from_nil_iff (a : automaton) (q : Nat) :
    accepts_from a q [] ↔ ∃ q', epsilon_reachable a q q' ∧ (a.state_at q').accepting = true := by
  unfold accepts_from
  constructor
  · rintro ⟨q', h1, h2⟩; exact ⟨q', (reads_nil_iff a q q').mp h1, h2⟩
  · rintro ⟨q', h1, h2⟩; exact ⟨q', (reads_nil_iff a q q').mpr h1, h2⟩

theorem accepts_from_cons_iff (a : automaton) (q c : Nat) (w : List Nat) :
    accepts_from a q (c :: w) ↔
      c ≠ SYMBOL_EPSILON ∧ ∃ p t, epsilon_reachable a q p ∧
        (⟨t, c⟩ : transition) ∈ (a.state_at p).transitions ∧ accepts_from a t w := by
  unfold accepts_from
  constructor
  · rintro ⟨q', h1, h2⟩
    obtain ⟨hc, p, t, h3, h4, h5⟩ := (reads_cons_iff a q c w q').mp h1
    exact ⟨hc, p, t, h3, h4, q', h5, h2⟩
  · rintro ⟨hc, p, t, h3, h4, q', h5, h2⟩
    exact ⟨q', (reads_cons_iff a q c w q').mpr ⟨hc, p, t, h3, h4, h5⟩, h2⟩

theorem accepts_from_of_epsilon (a : automaton) (q p : Nat) (h : epsilon_reachable a q p)
    (w : List Nat) (hp : accepts_from a p w) : accepts_from a q w := by
  obtain ⟨q', h1, h2⟩ := hp
  exact ⟨q', reads_of_epsilon a q p h w q' h1, h2⟩

/-- In an automaton without epsilon transitions a state reaches only itself. -/
theorem epsilon_reachable_self (r : automaton)
    (hno : ∀ q tr, tr ∈ (r.state_at q).transitions → tr.symbol ≠ SYMBOL_EPSILON)
    (q p : Nat) (h : epsilon_reachable r q p) : p = q := by
  induction h with
  | refl => rfl
  | tail _ hstep ih =>
    subst ih
    exact absurd rfl (hno _ _ hstep)

theorem WellFormed.usable {a : automaton} (hwf : WellFormed a) : closures_usable a :=
  ⟨hwf.start_valid, hwf.targets_valid, hwf.symbols_valid, hwf.alphabet,
    fun q hq t ht => (hwf.closure q hq t).mp ht,
    fun q hq t ht => (hwf.closure q hq t).mpr (Relation.TransGen.to_reflTransGen ht)⟩

theorem mem_initial_subset (a : automaton) (hwf : WellFormed a) (options : start_state_options)
    (x : Nat) : x ∈ initial_subset a options ↔ epsilon_reachable a a.start_state x := by
  unfold initial_subset
  rw [List.mem_append, hwf.closure _ hwf.start_valid]
  constructor
  · rintro (h | h)
    · split at h
      · rw [List.mem_singleton] at h; subst h; exact Relation.ReflTransGen.refl
      · exact absurd h (List.not_mem_nil _)
    · exact h
  · intro h; exact Or.inr h

theorem in_successors_iff (a : automaton) (hu : closures_usable a) (S : List Nat) (c x : Nat) :
    in_successors a S c x ↔
      ∃ q, q ∈ S ∧ ∃ t, (⟨t, c⟩ : transition) ∈ (a.state_at q).transitions ∧
        epsilon_reachable a t x := by
  unfold in_successors
  constructor
  · rintro ⟨q, hq, tr, htr, hc, hx⟩
    have hv := hu.targets_valid q tr htr
    refine ⟨q, hq, tr.target, ?_, ?_⟩
    · subst hc; exact htr
    · rcases hx with rfl | hx
      · exact Relation.ReflTransGen.refl
      · exact hu.closure_sound _ hv x hx
  · rintro ⟨q, hq, t, htr, hx⟩
    have hv := hu.targets_valid q _ htr
    refine ⟨q, hq, ⟨t, c⟩, htr, rfl, ?_⟩
    rcases Relation.reflTransGen_iff_eq_or_transGen.mp hx with h | h
    · exact Or.inl h
    · exact Or.inr (hu.closure_complete _ hv x h)

theorem initial_subset_sound (a : automaton) (hu : closures_usable a)
    (options : start_state_options) (x : Nat) (h : x ∈ initial_subset a options) :
    epsilon_reachable a a.start_state x := by
  unfold initial_subset at h
  rcases List.mem_append.mp h with h | h
  · split at h
    · rw [List.mem_singleton] at h; subst h; exact Relation.ReflTransGen.refl
    · exact absurd h (List.not_mem_nil _)
  · exact hu.closure_sound _ hu.start_valid x h

theorem initial_subset_closed (a : automaton) (hu : closures_usable a)
    (options : start_state_options) (q : Nat) (hq : q ∈ initial_subset a options) (q' : Nat)
    (hqq : epsilon_reachable a q q') : q' ∈ initial_subset a options := by
  have hsq := initial_subset_sound a hu options q hq
  rcases Relation.reflTransGen_iff_eq_or_transGen.mp hqq with h | h
  · subst h; exact hq
  · rcases Relation.reflTransGen_iff_eq_or_transGen.mp hsq with h' | h'
    · subst h'
      unfold initial_subset
      exact List.mem_append_right _ (hu.closure_complete _ hu.start_valid q' h)
    · unfold initial_subset
      exact List.mem_append_right _
        (hu.closure_complete _ hu.start_valid q' (Relation.TransGen.trans h' h))

theorem reachable_subset_closed (a : automaton) (hu : closures_usable a)
    (options : start_state_options) (S : List Nat) (h : reachable_subset a options S) :
    ∀ q, q ∈ S → ∀ q', epsilon_reachable a q q' → q' ∈ S := by
  cases h with
  | start =>
    intro q hq q' hqq
    rw [mem_canonicalize] at hq ⊢
    exact initial_subset_closed a hu options q hq q' hqq
  | step S0 c _ _ _ =>
    intro q hq q' hqq
    rw [mem_canonicalize, mem_successors, in_successors_iff a hu] at hq ⊢
    obtain ⟨p, hp, t, htr, hx⟩ := hq
    exact ⟨p, hp, t, htr, Relation.ReflTransGen.trans hx hqq⟩

theorem final_explored (a : automaton) (options : start_state_options) (s : determinize_state)
    (disc : List (List Nat)) (hinv : DetInv a options s none disc) (hwl : s.worklist = [])
    (S : List Nat) (id : Nat) (hs : stored s.subsets S id) :
    explored a s.subsets s.result S id (List.range a.number_of_symbols) :=
  hinv.finished S id hs (by rw [hwl]; exact List.not_mem_nil _)
    (fun _ _ he => Option.noConfusion he)

theorem final_stored_or_blank (a : automaton) (options : start_state_options)
    (s : determinize_state) (disc : List (List Nat)) (hinv : DetInv a options s none disc)
    (id : Nat) : (∃ S, stored s.subsets S id) ∨ blank s.result id := by
  by_cases h : id < s.next_state
  · left
    rw [hinv.assigned.next] at h
    exact ⟨disc[id], (hinv.assigned.ids _ _).mpr (List.getElem?_eq_getElem h)⟩
  · right
    exact hinv.unused id (by omega)

theorem final_symbol_lt (a : automaton) (options : start_state_options) (s : determinize_state)
    (disc : List (List Nat)) (hinv : DetInv a options s none disc) (hwl : s.worklist = [])
    (q : Nat) (tr : transition) (htr : tr ∈ (s.result.state_at q).transitions) :
    tr.symbol < a.number_of_symbols := by
  rcases final_stored_or_blank a options s disc hinv q with ⟨S, hS⟩ | hb
  · have hx := final_explored a options s disc hinv hwl S q hS
    have : tr.symbol ∈ (s.result.state_at q).transitions.map (fun tr => tr.symbol) :=
      List.mem_map.mpr ⟨tr, htr, rfl⟩
    rw [hx.symbols] at this
    exact List.mem_range.mp (List.mem_filter.mp this).1
  · unfold blank at hb
    rw [hb] at htr
    exact absurd htr (List.not_mem_nil _)

theorem language_from (a : automaton) (hwf : closures_usable a) (options : start_state_options)
    (s : determinize_state) (disc : List (List Nat)) (hinv : DetInv a options s none disc)
    (hwl : s.worklist = []) :
    ∀ (w : List Nat) (S : List Nat) (id : Nat), stored s.subsets S id →
      (accepts_from s.result id w ↔ ∃ q, q ∈ S ∧ accepts_from a q w) := by
  have hno : ∀ q tr, tr ∈ (s.result.state_at q).transitions → tr.symbol ≠ SYMBOL_EPSILON := by
    intro q tr htr
    have h1 := final_symbol_lt a options s disc hinv hwl q tr htr
    have h2 := hwf.alphabet
    omega
  intro w
  induction w with
  | nil =>
    intro S id hs
    have hx := final_explored a options s disc hinv hwl S id hs
    have hclosed := reachable_subset_closed a hwf options S
      (hinv.reach S ((hinv.assigned.mem_disc S).mpr ⟨id, hs⟩))
    rw [accepts_from_nil_iff]
    constructor
    · rintro ⟨q', h1, h2⟩
      have := epsilon_reachable_self s.result hno id q' h1
      subst this
      rw [hx.accepting, List.any_eq_true] at h2
      obtain ⟨q, hq, hacc⟩ := h2
      exact ⟨q, hq, (accepts_from_nil_iff a q).mpr ⟨q, Relation.ReflTransGen.refl, hacc⟩⟩
    · rintro ⟨q, hq, hacc⟩
      obtain ⟨q', h1, h2⟩ := (accepts_from_nil_iff a q).mp hacc
      refine ⟨id, Relation.ReflTransGen.refl, ?_⟩
      rw [hx.accepting, List.any_eq_true]
      exact ⟨q', hclosed q hq q' h1, h2⟩
  | cons c w ih =>
    intro S id hs
    have hx := final_explored a options s disc hinv hwl S id hs
    have hclosed := reachable_subset_closed a hwf options S
      (hinv.reach S ((hinv.assigned.mem_disc S).mpr ⟨id, hs⟩))
    rw [accepts_from_cons_iff]
    constructor
    · rintro ⟨hc, p, t, h1, h2, h3⟩
      have := epsilon_reachable_self s.result hno id p h1
      subst this
      have hst := hx.targets _ h2
      simp only at hst
      obtain ⟨x, hxm, hxa⟩ := (ih _ t hst).mp h3
      rw [mem_canonicalize, mem_successors, in_successors_iff a hwf] at hxm
      obtain ⟨q, hq, t', htr, hreach⟩ := hxm
      refine ⟨q, hq, (accepts_from_cons_iff a q c w).mpr ⟨hc, q, t', Relation.ReflTransGen.refl,
        htr, accepts_from_of_epsilon a t' x hreach w hxa⟩⟩
    · rintro ⟨q, hq, hacc⟩
      obtain ⟨hc, p, t, h1, h2, h3⟩ := (accepts_from_cons_iff a q c w).mp hacc
      have hp : p ∈ S := hclosed q hq p h1
      have htm : t ∈ push_successors a c S [] := by
        rw [mem_successors, in_successors_iff a hwf]
        exact ⟨p, hp, t, h2, Relation.ReflTransGen.refl⟩
      have hne : push_successors a c S [] ≠ [] := by
        intro he; rw [he] at htm; exact List.not_mem_nil _ htm
      have hclt : c < a.number_of_symbols := by
        rcases hwf.symbols_valid p _ h2 with h | h
        · exact h
        · exact absurd h hc
      have hcm : c ∈ (s.result.state_at id).transitions.map (fun tr => tr.symbol) := by
        rw [hx.symbols]
        exact List.mem_filter.mpr ⟨List.mem_range.mpr hclt, decide_eq_true hne⟩
      obtain ⟨tr, htr, htrc⟩ := List.mem_map.mp hcm
      have hst := hx.targets tr htr
      rw [htrc] at hst
      have hacc' : accepts_from s.result tr.target w :=
        (ih _ tr.target hst).mpr ⟨t, (mem_canonicalize _ _).mpr htm, h3⟩
      refine ⟨hc, id, tr.target, Relation.ReflTransGen.refl, ?_, hacc'⟩
      subst htrc
      exact htr

theorem state_at_congr (a b : automaton) (h : a.states = b.states) (q : Nat) :
    a.state_at q = b.state_at q := by
  unfold automaton.state_at; rw [h]

theorem reads_congr (a b : automaton) (h : a.states = b.states) (q : Nat) (w : List Nat)
    (q' : Nat) (hr : reads a q w q') : reads b q w q' := by
  induction hr with
  | done q => exact reads.done q
  | epsilon q t w q' hstep _ ih =>
    rw [state_at_congr a b h] at hstep
    exact reads.epsilon q t w q' hstep ih
  | symbol q c t w q' hc hstep _ ih =>
    rw [state_at_congr a b h] at hstep
    exact reads.symbol q c t w q' hc hstep ih

theorem accepts_congr (a b : automaton) (h : a.states = b.states)
    (hs : a.start_state = b.start_state) (w : List Nat) : accepts a w ↔ accepts b w := by
  unfold accepts accepts_from
  rw [hs]
  constructor
  · rintro ⟨q', h1, h2⟩
    exact ⟨q', reads_congr a b h _ _ _ h1, by rw [← state_at_congr a b h]; exact h2⟩
  · rintro ⟨q', h1, h2⟩
    exact ⟨q', reads_congr b a h.symm _ _ _ h1, by rw [state_at_congr a b h]; exact h2⟩

theorem language_final_usable (a : automaton) (hu : closures_usable a)
    (options : start_state_options)
    (hstart : ∀ w, accepts_from a a.start_state w →
      ∃ q, q ∈ initial_subset a options ∧ accepts_from a q w)
    (s : determinize_state) (disc : List (List Nat)) (hinv : DetInv a options s none disc)
    (hwl : s.worklist = []) (w : List Nat) : accepts s.result w ↔ accepts a w := by
  have h0 : stored s.subsets (canonicalize (initial_subset a options)) 0 :=
    (hinv.assigned.ids _ _).mpr hinv.start.1
  unfold accepts
  rw [hinv.start.2, language_from a hu options s disc hinv hwl w _ 0 h0]
  constructor
  · rintro ⟨q, hq, hacc⟩
    rw [mem_canonicalize] at hq
    exact accepts_from_of_epsilon a _ q (initial_subset_sound a hu options q hq) w hacc
  · intro hacc
    obtain ⟨q, hq, hqa⟩ := hstart w hacc
    exact ⟨q, (mem_canonicalize _ _).mpr hq, hqa⟩

theorem language_final (a : automaton) (hwf : WellFormed a) (options : start_state_options)
    (s : determinize_state) (disc : List (List Nat)) (hinv : DetInv a options s none disc)
    (hwl : s.worklist = []) (w : List Nat) : accepts s.result w ↔ accepts a w :=
  language_final_usable a hwf.usable options
    (fun _ hacc => ⟨a.start_state,
      (mem_initial_subset a hwf options _).mpr Relation.ReflTransGen.refl, hacc⟩)
    s disc hinv hwl w

/-! ## Counting the subsets -/

theorem getD_mem_or_default {α : Type} (l : List α) (i : Nat) (d : α) :
    l.getD i d ∈ l ∨ l.getD i d = d := by
  by_cases h : i < l.length
  · left; rw [List.getD_eq_getElem l d h]; exact List.getElem_mem h
  · right; exact List.getD_eq_default l d (by omega)

theorem closure_mem_state_ids (a : automaton) (q x : Nat) (h : x ∈ a.closure_at q) :
    x ∈ state_ids a := by
  unfold automaton.closure_at at h
  rcases getD_mem_or_default a.epsilon_closure_for_state q [] with hm | hd
  · unfold state_ids
    refine List.mem_cons_of_mem _ (List.mem_append_right _ ?_)
    exact List.mem_flatten.mpr ⟨_, hm, h⟩
  · rw [hd] at h; exact absurd h (List.not_mem_nil _)

theorem target_mem_state_ids (a : automaton) (q : Nat) (tr : transition)
    (h : tr ∈ (a.state_at q).transitions) : tr.target ∈ state_ids a := by
  unfold automaton.state_at at h
  rcases getD_mem_or_default a.states q ⟨[], false⟩ with hm | hd
  · unfold state_ids
    refine List.mem_cons_of_mem _ (List.mem_append_left _ ?_)
    exact List.mem_flatten.mpr ⟨_, List.mem_map.mpr ⟨_, hm, rfl⟩, List.mem_map.mpr ⟨tr, h, rfl⟩⟩
  · rw [hd] at h; exact absurd h (List.not_mem_nil _)

theorem reachable_subset_ids (a : automaton) (options : start_state_options) (S : List Nat)
    (h : reachable_subset a options S) : ∀ x, x ∈ S → x ∈ state_ids a := by
  cases h with
  | start =>
    intro x hx
    rw [mem_canonicalize] at hx
    unfold initial_subset at hx
    rcases List.mem_append.mp hx with h1 | h1
    · split at h1
      · rw [List.mem_singleton] at h1; subst h1; exact List.mem_cons_self _ _
      · exact absurd h1 (List.not_mem_nil _)
    · exact closure_mem_state_ids a _ x h1
  | step S0 c _ _ _ =>
    intro x hx
    rw [mem_canonicalize, mem_successors] at hx
    obtain ⟨q, _, tr, htr, _, hx'⟩ := hx
    rcases hx' with rfl | hx'
    · exact target_mem_state_ids a q tr htr
    · exact closure_mem_state_ids a _ x hx'

theorem reachable_subset_sorted (a : automaton) (options : start_state_options) (S : List Nat)
    (h : reachable_subset a options S) : S.Sorted (· < ·) := by
  cases h with
  | start => exact canonicalize_sorted _
  | step S0 c _ _ _ => exact canonicalize_sorted _

theorem length_le_two_pow (U : List Nat) (l : List (List Nat)) (hnd : l.Nodup)
    (hs : ∀ S, S ∈ l → S.Sorted (· < ·)) (hu : ∀ S, S ∈ l → ∀ x, x ∈ S → x ∈ U) :
    l.length ≤ 2 ^ U.length := by
  have h1 : l.toFinset.card ≤ (U.toFinset.powerset).card := by
    apply Finset.card_le_card_of_injOn (fun S => S.toFinset)
    · intro S hS
      have hS' : S ∈ l := List.mem_toFinset.mp hS
      apply Finset.mem_powerset.mpr
      intro x hx
      exact List.mem_toFinset.mpr (hu S hS' x (List.mem_toFinset.mp hx))
    · intro S1 h1 S2 h2 he
      have h1' : S1 ∈ l := List.mem_toFinset.mp h1
      have h2' : S2 ∈ l := List.mem_toFinset.mp h2
      apply sorted_lt_ext S1 S2 (hs S1 h1') (hs S2 h2')
      intro x
      have : x ∈ S1.toFinset ↔ x ∈ S2.toFinset := by
        simp only at he
        rw [he]
      simpa using this
  rw [List.toFinset_card_of_nodup hnd, Finset.card_powerset] at h1
  exact Nat.le_trans h1 (Nat.pow_le_pow_right (by norm_num) (List.toFinset_card_le U))

theorem few_subsets_of_state_ids (a : automaton) (options : start_state_options)
    (h : 2 ^ (state_ids a).length < 805306367) : few_subsets a options := by
  intro l hnd hr
  have := length_le_two_pow (state_ids a) l hnd
    (fun S hS => reachable_subset_sorted a options S (hr S hS))
    (fun S hS => reachable_subset_ids a options S (hr S hS))
  omega

/-! ## Checking well-formedness -/

theorem closure_justified_sound (a : automaton) (q : Nat) :
    ∀ (rest pre : List Nat), closure_justified a q pre rest = true →
      (∀ b, b ∈ pre → epsilon_reachable a q b) →
      ∀ t, t ∈ rest → epsilon_reachable a q t := by
  intro rest
  induction rest with
  | nil => intro pre _ _ t ht; exact absurd ht (List.not_mem_nil _)
  | cons x rest ih =>
    intro pre hj hpre t ht
    rw [closure_justified, Bool.and_eq_true, Bool.or_eq_true] at hj
    obtain ⟨hx, hrest⟩ := hj
    have hxr : epsilon_reachable a q x := by
      rcases hx with hx | hx
      · rw [decide_eq_true_eq] at hx; subst hx; exact Relation.ReflTransGen.refl
      · rw [List.any_eq_true] at hx
        obtain ⟨b, hb, hstep⟩ := hx
        rw [decide_eq_true_eq] at hstep
        exact Relation.ReflTransGen.tail (hpre b hb) hstep
    rcases List.mem_cons.mp ht with rfl | ht'
    · exact hxr
    · apply ih (pre ++ [x]) hrest _ t ht'
      intro b hb
      rcases List.mem_append.mp hb with h1 | h1
      · exact hpre b h1
      · rw [List.mem_singleton] at h1; subst h1; exact hxr

theorem closure_check_sound (a : automaton) (q : Nat) (h : closure_check a q = true) (t : Nat) :
    t ∈ a.closure_at q ↔ epsilon_reachable a q t := by
  unfold closure_check at h
  rw [Bool.and_eq_true, Bool.and_eq_true, decide_eq_true_eq, List.all_eq_true] at h
  obtain ⟨⟨hself, hclosed⟩, hjust⟩ := h
  constructor
  · intro ht
    exact closure_justified_sound a q _ [] hjust (fun b hb => absurd hb (List.not_mem_nil _)) t ht
  · intro hr
    induction hr with
    | refl => exact hself
    | tail _ hstep ih =>
      have := hclosed _ ih
      rw [List.all_eq_true] at this
      have h2 := this _ hstep
      rw [Bool.or_eq_true, decide_eq_true_eq, decide_eq_true_eq] at h2
      rcases h2 with h2 | h2
      · exact absurd rfl h2
      · exact h2

theorem well_formed_of_check (a : automaton) (h : well_formed_check a = true) : WellFormed a := by
  unfold well_formed_check at h
  rw [Bool.and_eq_true, Bool.and_eq_true, Bool.and_eq_true, decide_eq_true_eq,
    decide_eq_true_eq, List.all_eq_true, List.all_eq_true] at h
  obtain ⟨⟨⟨hstart, htr⟩, halpha⟩, hcl⟩ := h
  have hboth : ∀ q tr, tr ∈ (a.state_at q).transitions →
      tr.target < a.states.length ∧
        (tr.symbol < a.number_of_symbols ∨ tr.symbol = SYMBOL_EPSILON) := by
    intro q tr hm
    unfold automaton.state_at at hm
    rcases getD_mem_or_default a.states q ⟨[], false⟩ with hq | hq
    · have := htr _ hq
      rw [List.all_eq_true] at this
      have h2 := this tr hm
      rw [Bool.and_eq_true, Bool.or_eq_true, decide_eq_true_eq, decide_eq_true_eq,
        decide_eq_true_eq] at h2
      exact h2
    · rw [hq] at hm; exact absurd hm (List.not_mem_nil _)
  refine ⟨hstart, fun q tr hm => (hboth q tr hm).1, fun q tr hm => (hboth q tr hm).2, halpha, ?_⟩
  intro q hq t
  exact closure_check_sound a q (hcl q (List.mem_range.mpr hq)) t

theorem example_nfa_well_formed : WellFormed example_nfa :=
  well_formed_of_check example_nfa (by decide)

theorem example_nfa_few (options : start_state_options) : few_subsets example_nfa options :=
  few_subsets_of_state_ids example_nfa options (by decide)

/-! ## The model of the reversal -/

theorem mem_incoming (a : automaton) (q t c : Nat) :
    (⟨t, c⟩ : transition) ∈ incoming a q ↔
      t < a.states.length ∧ (⟨q, c⟩ : transition) ∈ (a.state_at t).transitions := by
  unfold incoming
  rw [List.mem_flatten]
  constructor
  · rintro ⟨l, hl, hx⟩
    obtain ⟨p, hp, rfl⟩ := List.mem_map.mp hl
    obtain ⟨tr, htr, he⟩ := List.mem_map.mp hx
    obtain ⟨htr1, htr2⟩ := List.mem_filter.mp htr
    rw [decide_eq_true_eq] at htr2
    injection he with h1 h2
    subst h1; subst h2; subst htr2
    exact ⟨List.mem_range.mp hp, htr1⟩
  · rintro ⟨ht, hm⟩
    refine ⟨_, List.mem_map.mpr ⟨t, List.mem_range.mpr ht, rfl⟩, ?_⟩
    exact List.mem_map.mpr ⟨⟨q, c⟩, List.mem_filter.mpr ⟨hm, decide_eq_true rfl⟩, rfl⟩

theorem state_at_lt_of_mem (a : automaton) (q : Nat) (tr : transition)
    (h : tr ∈ (a.state_at q).transitions) : q < a.states.length := by
  by_contra hc
  unfold automaton.state_at at h
  rw [List.getD_eq_default _ _ (by omega)] at h
  exact List.not_mem_nil _ h

theorem state_at_lt_of_accepting (a : automaton) (q : Nat)
    (h : (a.state_at q).accepting = true) : q < a.states.length := by
  by_contra hc
  unfold automaton.state_at at h
  rw [List.getD_eq_default _ _ (by omega)] at h
  exact Bool.noConfusion h

theorem state_at_reverse_lt (a : automaton) (q : Nat)
    (hq : q < max a.states.length (a.start_state + 1)) :
    (automaton_reverse a).state_at q = ⟨incoming a q, decide (q = a.start_state)⟩ := by
  unfold automaton_reverse automaton.state_at
  simp only
  rw [List.getD_eq_getElem?_getD, List.getElem?_append_left (by simpa using hq)]
  simp [List.getElem?_map, List.getElem?_range hq]

theorem state_at_reverse_start (a : automaton) :
    (automaton_reverse a).state_at (max a.states.length (a.start_state + 1))
      = ⟨((List.range a.states.length).filter (fun f => (a.state_at f).accepting)).map
            (fun f => (⟨f, SYMBOL_EPSILON⟩ : transition)), false⟩ := by
  unfold automaton_reverse automaton.state_at
  simp only
  rw [List.getD_eq_getElem?_getD, List.getElem?_append_right (by simp)]
  simp

theorem state_at_reverse_gt (a : automaton) (q : Nat)
    (hq : max a.states.length (a.start_state + 1) < q) :
    (automaton_reverse a).state_at q = ⟨[], false⟩ := by
  unfold automaton_reverse automaton.state_at
  simp only
  apply List.getD_eq_default
  simp only [List.length_append, List.length_map, List.length_range, List.length_singleton]
  omega

/-- The transitions of the reversed automaton. -/
theorem mem_reverse_transitions (a : automaton) (q t c : Nat) :
    (⟨t, c⟩ : transition) ∈ ((automaton_reverse a).state_at q).transitions ↔
      (q < max a.states.length (a.start_state + 1) ∧ t < a.states.length ∧
        (⟨q, c⟩ : transition) ∈ (a.state_at t).transitions) ∨
      (q = max a.states.length (a.start_state + 1) ∧ c = SYMBOL_EPSILON ∧
        (a.state_at t).accepting = true) := by
  rcases Nat.lt_trichotomy q (max a.states.length (a.start_state + 1)) with h | h | h
  · rw [state_at_reverse_lt a q h]
    simp only [mem_incoming]
    constructor
    · intro hh; exact Or.inl ⟨h, hh⟩
    · rintro (⟨_, hh⟩ | ⟨hh, _⟩)
      · exact hh
      · omega
  · subst h
    rw [state_at_reverse_start]
    constructor
    · intro hm
      obtain ⟨f, hf, he⟩ := List.mem_map.mp hm
      obtain ⟨_, hf2⟩ := List.mem_filter.mp hf
      injection he with h1 h2
      subst h1; subst h2
      exact Or.inr ⟨rfl, rfl, hf2⟩
    · rintro (⟨hh, _⟩ | ⟨_, hc, hacc⟩)
      · omega
      · subst hc
        exact List.mem_map.mpr ⟨t, List.mem_filter.mpr
          ⟨List.mem_range.mpr (state_at_lt_of_accepting a t hacc), hacc⟩, rfl⟩
  · rw [state_at_reverse_gt a q h]
    constructor
    · intro hh; exact absurd hh (List.not_mem_nil _)
    · rintro (⟨hh, _⟩ | ⟨hh, _⟩) <;> omega

theorem reverse_accepting (a : automaton) (q : Nat) :
    ((automaton_reverse a).state_at q).accepting = true ↔ q = a.start_state := by
  rcases Nat.lt_trichotomy q (max a.states.length (a.start_state + 1)) with h | h | h
  · rw [state_at_reverse_lt a q h]; simp
  · subst h
    rw [state_at_reverse_start]
    constructor
    · intro hh; exact Bool.noConfusion hh
    · intro hh
      have : a.start_state + 1 ≤ max a.states.length (a.start_state + 1) := le_max_right _ _
      omega
  · rw [state_at_reverse_gt a q h]
    constructor
    · intro hh; exact Bool.noConfusion hh
    · intro hh
      have : a.start_state + 1 ≤ max a.states.length (a.start_state + 1) := le_max_right _ _
      omega

theorem reads_snoc_epsilon (a : automaton) (q : Nat) (w : List Nat) (p t : Nat)
    (h : reads a q w p) (hstep : (⟨t, SYMBOL_EPSILON⟩ : transition) ∈ (a.state_at p).transitions) :
    reads a q w t := by
  induction h with
  | done q => exact reads.epsilon q t [] t hstep (reads.done t)
  | epsilon q t' w q' hs _ ih => exact reads.epsilon q t' w t hs (ih hstep)
  | symbol q c t' w q' hc hs _ ih => exact reads.symbol q c t' w t hc hs (ih hstep)

theorem reads_snoc_symbol (a : automaton) (q : Nat) (w : List Nat) (p c t : Nat)
    (h : reads a q w p) (hc : c ≠ SYMBOL_EPSILON)
    (hstep : (⟨t, c⟩ : transition) ∈ (a.state_at p).transitions) :
    reads a q (w ++ [c]) t := by
  induction h with
  | done q => exact reads.symbol q c t [] t hc hstep (reads.done t)
  | epsilon q t' w q' hs _ ih => exact reads.epsilon q t' (w ++ [c]) t hs (ih hstep)
  | symbol q c' t' w q' hc' hs _ ih => exact reads.symbol q c' t' (w ++ [c]) t hc' hs (ih hstep)

/-- A path of the automaton, turned around, is a path of the reversed automaton. -/
theorem reads_reverse_of_reads (a : automaton)
    (hvalid : ∀ q tr, tr ∈ (a.state_at q).transitions → tr.target < a.states.length)
    (q : Nat) (w : List Nat) (q' : Nat) (h : reads a q w q') :
    reads (automaton_reverse a) q' w.reverse q := by
  induction h with
  | done q => exact reads.done q
  | epsilon q t w q' hs _ ih =>
    apply reads_snoc_epsilon _ _ _ _ _ ih
    rw [mem_reverse_transitions]
    have ht := hvalid q _ hs
    simp only at ht
    exact Or.inl ⟨lt_max_of_lt_left ht, state_at_lt_of_mem a q _ hs, hs⟩
  | symbol q c t w q' hc hs _ ih =>
    rw [List.reverse_cons]
    apply reads_snoc_symbol _ _ _ _ _ _ ih hc
    rw [mem_reverse_transitions]
    have ht := hvalid q _ hs
    simp only at ht
    exact Or.inl ⟨lt_max_of_lt_left ht, state_at_lt_of_mem a q _ hs, hs⟩

/-- A path of the reversed automaton that starts at an original state is a path
of the automaton, turned around. -/
theorem reads_of_reads_reverse (a : automaton) (q : Nat) (w : List Nat) (q' : Nat)
    (h : reads (automaton_reverse a) q w q')
    (hq : q ≠ max a.states.length (a.start_state + 1)) :
    reads a q' w.reverse q := by
  induction h with
  | done q => exact reads.done q
  | epsilon q t w q' hs _ ih =>
    rw [mem_reverse_transitions] at hs
    rcases hs with ⟨_, ht, hs⟩ | ⟨hh, _⟩
    · have := ih (by
        have : t < max a.states.length (a.start_state + 1) := lt_max_of_lt_left ht
        omega)
      exact reads_snoc_epsilon a _ _ _ _ this hs
    · exact absurd hh hq
  | symbol q c t w q' hc hs _ ih =>
    rw [mem_reverse_transitions] at hs
    rcases hs with ⟨_, ht, hs⟩ | ⟨hh, _⟩
    · have := ih (by
        have : t < max a.states.length (a.start_state + 1) := lt_max_of_lt_left ht
        omega)
      rw [List.reverse_cons]
      exact reads_snoc_symbol a _ _ _ _ _ this hc hs
    · exact absurd hh hq

theorem reverse_start_state (a : automaton) :
    (automaton_reverse a).start_state = max a.states.length (a.start_state + 1) := rfl

/-- The model of `automaton_reverse` is a faithful language reversal. -/
theorem automaton_reverse_language (a : automaton)
    (hvalid : ∀ q tr, tr ∈ (a.state_at q).transitions → tr.target < a.states.length)
    (w : List Nat) : accepts (automaton_reverse a) w ↔ accepts a w.reverse := by
  have hstart : a.start_state ≠ max a.states.length (a.start_state + 1) := by
    have : a.start_state + 1 ≤ max a.states.length (a.start_state + 1) := le_max_right _ _
    omega
  unfold accepts accepts_from
  rw [reverse_start_state]
  constructor
  · rintro ⟨q', hr, hacc⟩
    rw [reverse_accepting] at hacc
    subst hacc
    generalize hn : max a.states.length (a.start_state + 1) = n at hr
    cases hr with
    | done q => exact absurd hn.symm hstart
    | epsilon q t w q' hs hrest =>
      rw [mem_reverse_transitions] at hs
      rcases hs with ⟨hh, _⟩ | ⟨_, _, hacc⟩
      · omega
      · have ht : t ≠ max a.states.length (a.start_state + 1) := by
          have := state_at_lt_of_accepting a t hacc
          have : t < max a.states.length (a.start_state + 1) := lt_max_of_lt_left this
          omega
        exact ⟨t, reads_of_reads_reverse a t _ _ hrest ht, hacc⟩
    | symbol q c t w q' hc hs hrest =>
      rw [mem_reverse_transitions] at hs
      rcases hs with ⟨hh, _⟩ | ⟨_, hc', _⟩
      · omega
      · exact absurd hc' hc
  · rintro ⟨f, hr, hacc⟩
    have h1 := reads_reverse_of_reads a hvalid _ _ _ hr
    rw [List.reverse_reverse] at h1
    refine ⟨a.start_state, ?_, (reverse_accepting a _).mpr rfl⟩
    apply reads.epsilon _ f _ _ _ h1
    rw [mem_reverse_transitions]
    exact Or.inr ⟨rfl, rfl, hacc⟩

/-! ## The output as an automaton -/

theorem result_valid_add_transition (bound : Nat) (hb : bound ≤ SYMBOL_EPSILON)
    (r : automaton) (src tgt c : Nat) (hc : c < bound) (h : result_valid bound r) :
    result_valid bound (automaton_add_transition r src tgt c) := by
  obtain ⟨h1, h2⟩ := h
  have hne : c ≠ SYMBOL_EPSILON := by omega
  have hsym : (automaton_add_transition r src tgt c).number_of_symbols
      = if r.number_of_symbols ≤ c then c + 1 else r.number_of_symbols := by
    show (if c ≠ SYMBOL_EPSILON ∧ r.number_of_symbols ≤ c then c + 1
      else r.number_of_symbols) = _
    by_cases h3 : r.number_of_symbols ≤ c
    · rw [if_pos ⟨hne, h3⟩, if_pos h3]
    · rw [if_neg (fun hh => h3 hh.2), if_neg h3]
  refine ⟨?_, ?_⟩
  · rw [hsym]; split <;> omega
  · intro q tr htr
    rw [state_at_add_transition] at htr
    rw [length_add_transition, hsym]
    have hold : ∀ tr', tr' ∈ (r.state_at q).transitions →
        tr'.target < max (max r.states.length (src + 1)) (tgt + 1) ∧
        tr'.symbol < if r.number_of_symbols ≤ c then c + 1 else r.number_of_symbols := by
      intro tr' h'
      obtain ⟨h3, h4⟩ := h2 q tr' h'
      refine ⟨by omega, ?_⟩
      split <;> omega
    by_cases hq : q = src
    · subst hq
      rw [if_pos rfl] at htr
      rcases List.mem_append.mp htr with h' | h'
      · exact hold tr h'
      · rw [List.mem_singleton] at h'
        subst h'
        refine ⟨by simp only; omega, ?_⟩
        simp only
        split <;> omega
    · rw [if_neg hq] at htr
      exact hold tr htr

theorem result_valid_mark_accepting (bound : Nat) (r : automaton) (s : Nat)
    (h : result_valid bound r) : result_valid bound (automaton_mark_accepting_state r s) := by
  obtain ⟨h1, h2⟩ := h
  refine ⟨h1, ?_⟩
  intro q tr htr
  rw [state_at_mark_accepting] at htr
  rw [length_mark_accepting]
  have hm : tr ∈ (r.state_at q).transitions := by
    by_cases hq : q = s
    · subst hq; rw [if_pos rfl] at htr; exact htr
    · rw [if_neg hq] at htr; exact htr
  obtain ⟨h3, h4⟩ := h2 q tr hm
  exact ⟨by omega, h4⟩

theorem result_valid_explore (a : automaton) (bound : Nat) (hb : bound ≤ SYMBOL_EPSILON)
    (S : List Nat) (id : Nat) :
    ∀ (rest : List Nat) (s s' : determinize_state), (∀ c, c ∈ rest → c < bound) →
      explore_symbols a S id rest s = some s' → result_valid bound s.result →
      result_valid bound s'.result := by
  intro rest
  induction rest with
  | nil =>
    intro s s' _ he hv
    rw [explore_symbols] at he
    injection he with he
    subst he
    exact hv
  | cons c rest ih =>
    intro s s' hc he hv
    rw [explore_symbols] at he
    split at he
    · exact ih _ s' (fun c' hc' => hc c' (List.mem_cons_of_mem _ hc')) he hv
    · cases hr : deterministic_state_for_subset s.subsets s.worklist
          (push_successors a c S s.next_subset) s.next_state with
      | none => rw [hr] at he; exact Option.noConfusion he
      | some r =>
        rw [hr] at he
        simp only at he
        exact ih _ s' (fun c' hc' => hc c' (List.mem_cons_of_mem _ hc')) he
          (result_valid_add_transition bound hb _ _ _ _ (hc c (List.mem_cons_self _ _)) hv)

theorem result_valid_loop (a : automaton) (hb : a.number_of_symbols ≤ SYMBOL_EPSILON) :
    ∀ (fuel : Nat) (s s' : determinize_state), determinize_loop a fuel s = some s' →
      result_valid a.number_of_symbols s.result → result_valid a.number_of_symbols s'.result := by
  intro fuel
  induction fuel with
  | zero => intro s s' h; rw [determinize_loop] at h; exact Option.noConfusion h
  | succ fuel ih =>
    intro s s' h hv
    rw [determinize_loop] at h
    cases hwl : s.worklist with
    | nil => rw [hwl] at h; injection h with h; subst h; exact hv
    | cons p rest =>
      rw [hwl] at h
      obtain ⟨S, id⟩ := p
      simp only at h
      cases he : explore_symbols a S id (List.range a.number_of_symbols)
          { s with
            worklist := rest,
            result :=
              if S.any (fun q => (a.state_at q).accepting) then
                automaton_mark_accepting_state s.result id
              else s.result } with
      | none => rw [he] at h; exact Option.noConfusion h
      | some s2 =>
        rw [he] at h
        simp only at h
        apply ih s2 s' h
        apply result_valid_explore a _ hb S id _ _ s2 (fun c hc => List.mem_range.mp hc) he
        show result_valid _ (if S.any (fun q => (a.state_at q).accepting) then
          automaton_mark_accepting_state s.result id else s.result)
        split
        · exact result_valid_mark_accepting _ _ _ hv
        · exact hv

theorem result_valid_run (cl : automaton → automaton) (fuel : Nat) (a : automaton)
    (options : start_state_options) (s : determinize_state)
    (hb : (cl a).number_of_symbols ≤ SYMBOL_EPSILON)
    (h : determinize_run cl fuel a empty_automaton options = some s) :
    result_valid (cl a).number_of_symbols s.result := by
  unfold determinize_run at h
  cases hr : deterministic_state_for_subset empty_table [] (initial_subset (cl a) options) 0 with
  | none => simp only [hr] at h; exact Option.noConfusion h
  | some r =>
    simp only [hr] at h
    apply result_valid_loop (cl a) hb fuel _ s h
    refine ⟨Nat.zero_le _, ?_⟩
    intro q tr htr
    exact absurd htr (List.not_mem_nil _)

theorem final_complete (a : automaton) (halpha : a.number_of_symbols ≤ SYMBOL_EPSILON)
    (options : start_state_options) (s : determinize_state) (disc : List (List Nat))
    (hinv : DetInv a options s none disc) (hwl : s.worklist = []) (S : List Nat)
    (h : reachable_subset a options S) :
    ∃ id, stored s.subsets S id ∧ ∃ u, reads s.result s.result.start_state u id := by
  induction h with
  | start =>
    refine ⟨0, (hinv.assigned.ids _ _).mpr hinv.start.1, [], ?_⟩
    rw [hinv.start.2]
    exact reads.done 0
  | step S' c _ hc hne ih =>
    obtain ⟨id', hs', u, hu⟩ := ih
    have hx := final_explored a options s disc hinv hwl S' id' hs'
    have hcm : c ∈ (s.result.state_at id').transitions.map (fun tr => tr.symbol) := by
      rw [hx.symbols]
      exact List.mem_filter.mpr ⟨List.mem_range.mpr hc, decide_eq_true hne⟩
    obtain ⟨tr, htr, htrc⟩ := List.mem_map.mp hcm
    have hst := hx.targets tr htr
    rw [htrc] at hst
    refine ⟨tr.target, hst, u ++ [c], ?_⟩
    apply reads_snoc_symbol _ _ _ _ _ _ hu (by omega)
    subst htrc
    exact htr

theorem final_reads_stored (a : automaton) (halpha : a.number_of_symbols ≤ SYMBOL_EPSILON)
    (options : start_state_options) (s : determinize_state) (disc : List (List Nat))
    (hinv : DetInv a options s none disc) (hwl : s.worklist = []) (q : Nat) (u : List Nat)
    (d : Nat) (h : reads s.result q u d) (hq : ∃ S, stored s.subsets S q) :
    ∃ S, stored s.subsets S d := by
  induction h with
  | done q => exact hq
  | epsilon q t w q' hs _ _ =>
    exfalso
    have := final_symbol_lt a options s disc hinv hwl q _ hs
    simp only at this
    omega
  | symbol q c t w q' _ hs _ ih =>
    obtain ⟨S, hS⟩ := hq
    have hx := final_explored a options s disc hinv hwl S q hS
    exact ih ⟨_, hx.targets _ hs⟩

theorem final_accessible_dfa (a : automaton) (halpha : a.number_of_symbols ≤ SYMBOL_EPSILON)
    (options : start_state_options) (s : determinize_state) (disc : List (List Nat))
    (hinv : DetInv a options s none disc) (hwl : s.worklist = [])
    (hv : result_valid a.number_of_symbols s.result) : accessible_dfa s.result := by
  refine ⟨?_, ?_, ?_, fun q tr h => (hv.2 q tr h).1, fun q tr h => (hv.2 q tr h).2,
    Nat.le_trans hv.1 halpha⟩
  · intro q tr htr
    have := final_symbol_lt a options s disc hinv hwl q tr htr
    omega
  · intro q t t' c h1 h2
    rcases final_stored_or_blank a options s disc hinv q with ⟨S, hS⟩ | hb
    · have hx := final_explored a options s disc hinv hwl S q hS
      have hnd : ((s.result.state_at q).transitions.map (fun tr => tr.symbol)).Nodup := by
        rw [hx.symbols]
        exact List.Nodup.filter _ (List.nodup_range _)
      have := List.inj_on_of_nodup_map hnd h1 h2 rfl
      injection this
    · unfold blank at hb
      rw [hb] at h1
      exact absurd h1 (List.not_mem_nil _)
  · intro q hq
    have hlt : q < disc.length := by
      have := hinv.size
      rw [hinv.assigned.next] at this
      omega
    have hS : stored s.subsets disc[q] q :=
      (hinv.assigned.ids _ _).mpr (List.getElem?_eq_getElem hlt)
    have hr := hinv.reach disc[q] (List.getElem_mem hlt)
    obtain ⟨id, hid, u, hu⟩ := final_complete a halpha options s disc hinv hwl _ hr
    have e1 := (hinv.assigned.ids _ _).mp hid
    have hlt2 := getElem?_some_lt _ _ _ e1
    rw [List.getElem?_eq_getElem hlt2] at e1
    have := (List.Nodup.getElem_inj_iff hinv.assigned.nodup).mp (Option.some.inj e1)
    subst this
    exact ⟨u, hu⟩

theorem reads_deterministic (D : automaton)
    (hno : ∀ q tr, tr ∈ (D.state_at q).transitions → tr.symbol ≠ SYMBOL_EPSILON)
    (hfun : ∀ q t t' c, (⟨t, c⟩ : transition) ∈ (D.state_at q).transitions →
      (⟨t', c⟩ : transition) ∈ (D.state_at q).transitions → t = t')
    (p : Nat) (u : List Nat) (q q' : Nat) (h1 : reads D p u q) (h2 : reads D p u q') :
    q = q' := by
  induction h1 with
  | done p =>
    exact (epsilon_reachable_self D hno p q' ((reads_nil_iff D p q').mp h2)).symm
  | epsilon p t w q hs _ _ => exact absurd rfl (hno p _ hs)
  | symbol p c t w q hc hs _ ih =>
    obtain ⟨_, p', t', hp', ht', hrest⟩ := (reads_cons_iff D p c w q').mp h2
    have := epsilon_reachable_self D hno p p' hp'
    subst this
    have := hfun _ _ _ _ hs ht'
    subst this
    exact ih hrest

/-! ## Reversal, proper closures and minimality -/

theorem reverse_length (b : automaton) :
    (automaton_reverse b).states.length = max b.states.length (b.start_state + 1) + 1 := by
  unfold automaton_reverse
  simp

theorem reverse_target_lt (b : automaton) (q t c : Nat)
    (h : (⟨t, c⟩ : transition) ∈ ((automaton_reverse b).state_at q).transitions) :
    t < b.states.length := by
  rw [mem_reverse_transitions] at h
  rcases h with ⟨_, ht, _⟩ | ⟨_, _, hacc⟩
  · exact ht
  · exact state_at_lt_of_accepting b t hacc

theorem reverse_closure_lt (b : automaton) (q t : Nat)
    (h : Relation.TransGen
      (fun q t => (⟨t, SYMBOL_EPSILON⟩ : transition) ∈
        ((automaton_reverse b).state_at q).transitions) q t) :
    t < b.states.length := by
  cases h with
  | single hs => exact reverse_target_lt b _ _ _ hs
  | tail _ hs => exact reverse_target_lt b _ _ _ hs

/-- With proper closures, the reversed automaton can be handed to the subset
construction. -/
theorem reverse_usable (cl : automaton → automaton) (b : automaton)
    (hsym : ∀ q tr, tr ∈ (b.state_at q).transitions →
      tr.symbol < b.number_of_symbols ∨ tr.symbol = SYMBOL_EPSILON)
    (halpha : b.number_of_symbols ≤ SYMBOL_EPSILON)
    (hcl : closes_properly cl (automaton_reverse b)) :
    closures_usable (cl (automaton_reverse b)) := by
  obtain ⟨e1, e2, e3, hc⟩ := hcl
  have hst : ∀ q, (cl (automaton_reverse b)).state_at q = (automaton_reverse b).state_at q :=
    fun q => state_at_congr _ _ e1 q
  have hlen : (cl (automaton_reverse b)).states.length
      = max b.states.length (b.start_state + 1) + 1 := by
    rw [e1, reverse_length]
  refine ⟨?_, ?_, ?_, ?_, ?_, ?_⟩
  · rw [e2, hlen, reverse_start_state]; omega
  · intro q tr htr
    rw [hst] at htr
    have := reverse_target_lt b q tr.target tr.symbol htr
    rw [hlen]
    have h2 : b.states.length ≤ max b.states.length (b.start_state + 1) := le_max_left _ _
    omega
  · intro q tr htr
    rw [hst] at htr
    rw [e3]
    have hm : (⟨tr.target, tr.symbol⟩ : transition)
        ∈ ((automaton_reverse b).state_at q).transitions := htr
    rw [mem_reverse_transitions] at hm
    rcases hm with ⟨_, _, hm⟩ | ⟨_, hm, _⟩
    · exact hsym _ ⟨q, tr.symbol⟩ hm
    · exact Or.inr hm
  · rw [e3]; exact halpha
  · intro q hq t ht
    rw [e1] at hq
    have := (hc q hq t).mp ht
    have h2 := Relation.TransGen.to_reflTransGen this
    unfold epsilon_reachable
    simp only [hst]
    exact h2
  · intro q hq t ht
    rw [e1] at hq
    apply (hc q hq t).mpr
    simp only [hst] at ht
    exact ht

/-- The synthetic start state of the reversed automaton accepts only through
the states of its closure. -/
theorem reverse_start_language (cl : automaton → automaton) (b : automaton)
    (hcl : closes_properly cl (automaton_reverse b)) (w : List Nat)
    (h : accepts_from (cl (automaton_reverse b)) (cl (automaton_reverse b)).start_state w) :
    ∃ q, q ∈ initial_subset (cl (automaton_reverse b)) start_state_options.IGNORE_START_STATE ∧
      accepts_from (cl (automaton_reverse b)) q w := by
  obtain ⟨e1, e2, e3, hc⟩ := hcl
  have hst : ∀ q, (cl (automaton_reverse b)).state_at q = (automaton_reverse b).state_at q :=
    fun q => state_at_congr _ _ e1 q
  have hstart : b.start_state ≠ max b.states.length (b.start_state + 1) := by
    have : b.start_state + 1 ≤ max b.states.length (b.start_state + 1) := le_max_right _ _
    omega
  obtain ⟨q', hr, hacc⟩ := h
  rw [hst, reverse_accepting] at hacc
  rw [e2, reverse_start_state] at hr
  generalize hn : max b.states.length (b.start_state + 1) = n at hr
  cases hr with
  | done q => exact absurd (hacc.symm.trans hn.symm) hstart
  | epsilon q t w q' hs hrest =>
    refine ⟨t, ?_, q', hrest, by rw [hst, reverse_accepting]; exact hacc⟩
    unfold initial_subset
    rw [if_neg (by decide), List.nil_append, e2, reverse_start_state]
    apply (hc _ (by rw [reverse_length]; omega) t).mpr
    rw [hst, ← hn] at hs
    exact Relation.TransGen.single hs
  | symbol q c t w q' hc' hs hrest =>
    exfalso
    rw [hst, ← hn, mem_reverse_transitions] at hs
    rcases hs with ⟨hh, _⟩ | ⟨_, hh, _⟩
    · omega
    · exact hc' hh

/-- The ids in the subsets of the second subset construction are states of the
automaton that was reversed. -/
theorem reverse_subset_lt (cl : automaton → automaton) (b : automaton)
    (hcl : closes_properly cl (automaton_reverse b)) (P : List Nat)
    (h : reachable_subset (cl (automaton_reverse b)) start_state_options.IGNORE_START_STATE P) :
    ∀ q, q ∈ P → q < b.states.length := by
  obtain ⟨e1, e2, e3, hc⟩ := hcl
  have hst : ∀ q, (cl (automaton_reverse b)).state_at q = (automaton_reverse b).state_at q :=
    fun q => state_at_congr _ _ e1 q
  have hRlen : b.states.length < (automaton_reverse b).states.length := by
    rw [reverse_length]
    have h2 : b.states.length ≤ max b.states.length (b.start_state + 1) := le_max_left _ _
    omega
  cases h with
  | start =>
    intro q hq
    rw [mem_canonicalize] at hq
    unfold initial_subset at hq
    rw [if_neg (by decide), List.nil_append, e2, reverse_start_state] at hq
    exact reverse_closure_lt b _ q ((hc _ (by rw [reverse_length]; omega) q).mp hq)
  | step S c _ _ _ =>
    intro q hq
    rw [mem_canonicalize, mem_successors] at hq
    obtain ⟨p, _, tr, htr, _, hx⟩ := hq
    rw [hst] at htr
    have ht : tr.target < b.states.length := reverse_target_lt b p tr.target tr.symbol htr
    rcases hx with rfl | hx
    · exact ht
    · exact reverse_closure_lt b _ q ((hc _ (by omega) q).mp hx)

theorem reversed_subsets_included (cl : automaton → automaton) (D : automaton)
    (hD : accessible_dfa D) (hcl : closes_properly cl (automaton_reverse D))
    (s : determinize_state) (disc : List (List Nat))
    (hinv : DetInv (cl (automaton_reverse D)) start_state_options.IGNORE_START_STATE s none disc)
    (hwl : s.worklist = []) (P : List Nat) (d : Nat) (P' : List Nat) (d' : Nat)
    (hP : stored s.subsets P d) (hP' : stored s.subsets P' d')
    (hsub : ∀ w, accepts_from s.result d w → accepts_from s.result d' w) :
    ∀ q, q ∈ P → q ∈ P' := by
  have hu : closures_usable (cl (automaton_reverse D)) :=
    reverse_usable cl D (fun q tr h => Or.inl (hD.symbols_valid q tr h)) hD.alphabet hcl
  have e1 := hcl.1
  have hn : D.states.length ≤ max D.states.length (D.start_state + 1) := le_max_left _ _
  intro q hq
  have hPr := hinv.reach P ((hinv.assigned.mem_disc P).mpr ⟨d, hP⟩)
  have hP'r := hinv.reach P' ((hinv.assigned.mem_disc P').mpr ⟨d', hP'⟩)
  have hqlt := reverse_subset_lt cl D hcl P hPr q hq
  obtain ⟨u, hu1⟩ := hD.accessible q hqlt
  have hacc : ((cl (automaton_reverse D)).state_at D.start_state).accepting = true := by
    rw [state_at_congr _ _ e1, reverse_accepting]
  have h1 : accepts_from (cl (automaton_reverse D)) q u.reverse :=
    ⟨D.start_state, reads_congr _ _ e1.symm _ _ _
      (reads_reverse_of_reads D hD.targets_valid _ _ _ hu1), hacc⟩
  have h2 := (language_from _ hu _ s disc hinv hwl u.reverse P d hP).mpr ⟨q, hq, h1⟩
  obtain ⟨q', hq', x, hx1, hx2⟩ :=
    (language_from _ hu _ s disc hinv hwl u.reverse P' d' hP').mp (hsub _ h2)
  rw [state_at_congr _ _ e1, reverse_accepting] at hx2
  subst hx2
  have hq'lt := reverse_subset_lt cl D hcl P' hP'r q' hq'
  have h3 := reads_of_reads_reverse D q' u.reverse D.start_state
    (reads_congr _ _ e1 _ _ _ hx1) (by omega)
  rw [List.reverse_reverse] at h3
  have := reads_deterministic D hD.no_epsilon hD.functional _ _ _ _ hu1 h3
  subst this
  exact hq'

/-- The subsets of the second subset construction, over the reversal of a
deterministic automaton whose states are all reachable, accept pairwise
different languages. -/
theorem reversed_subsets_distinguished (cl : automaton → automaton) (D : automaton)
    (hD : accessible_dfa D) (hcl : closes_properly cl (automaton_reverse D))
    (s : determinize_state) (disc : List (List Nat))
    (hinv : DetInv (cl (automaton_reverse D)) start_state_options.IGNORE_START_STATE s none disc)
    (hwl : s.worklist = []) (P : List Nat) (d : Nat) (P' : List Nat) (d' : Nat)
    (hP : stored s.subsets P d) (hP' : stored s.subsets P' d')
    (heq : ∀ w, accepts_from s.result d w ↔ accepts_from s.result d' w) : d = d' := by
  have h1 := reversed_subsets_included cl D hD hcl s disc hinv hwl P d P' d' hP hP'
    (fun w => (heq w).mp)
  have h2 := reversed_subsets_included cl D hD hcl s disc hinv hwl P' d' P d hP' hP
    (fun w => (heq w).mpr)
  have hPr := hinv.reach P ((hinv.assigned.mem_disc P).mpr ⟨d, hP⟩)
  have hP'r := hinv.reach P' ((hinv.assigned.mem_disc P').mpr ⟨d', hP'⟩)
  have hPP : P = P' := sorted_lt_ext P P' (reachable_subset_sorted _ _ P hPr)
    (reachable_subset_sorted _ _ P' hP'r) (fun x => ⟨h1 x, h2 x⟩)
  subst hPP
  have e1 := (hinv.assigned.ids _ _).mp hP
  have e2 := (hinv.assigned.ids _ _).mp hP'
  have l1 := getElem?_some_lt _ _ _ e1
  have l2 := getElem?_some_lt _ _ _ e2
  rw [List.getElem?_eq_getElem l1] at e1
  rw [List.getElem?_eq_getElem l2] at e2
  exact (List.Nodup.getElem_inj_iff hinv.assigned.nodup).mp
    ((Option.some.inj e1).trans (Option.some.inj e2).symm)

/-- One pass of Brzozowski's algorithm: reverse, compute proper closures,
determinize without the start state. -/
theorem reverse_determinize_spec (cl : automaton → automaton) (b : automaton)
    (htargets : ∀ q tr, tr ∈ (b.state_at q).transitions → tr.target < b.states.length)
    (hsym : ∀ q tr, tr ∈ (b.state_at q).transitions →
      tr.symbol < b.number_of_symbols ∨ tr.symbol = SYMBOL_EPSILON)
    (halpha : b.number_of_symbols ≤ SYMBOL_EPSILON)
    (hcl : closes_properly cl (automaton_reverse b))
    (hfew : few_subsets (cl (automaton_reverse b)) start_state_options.IGNORE_START_STATE) :
    ∃ n s disc,
      (∀ fuel, n ≤ fuel →
        determinize_run cl fuel (automaton_reverse b) empty_automaton
          start_state_options.IGNORE_START_STATE = some s) ∧
      DetInv (cl (automaton_reverse b)) start_state_options.IGNORE_START_STATE s none disc ∧
      s.worklist = [] ∧ accessible_dfa s.result ∧
      ∀ w, accepts s.result w ↔ accepts b w.reverse := by
  obtain ⟨n, s, disc, hrun, hinv, hwl⟩ := run_spec cl (automaton_reverse b) _ hfew
  have hu : closures_usable (cl (automaton_reverse b)) := reverse_usable cl b hsym halpha hcl
  have hv := result_valid_run cl n (automaton_reverse b) _ s hu.alphabet (hrun n (le_refl _))
  refine ⟨n, s, disc, hrun, hinv, hwl,
    final_accessible_dfa _ hu.alphabet _ s disc hinv hwl hv, ?_⟩
  intro w
  rw [language_final_usable _ hu _ (reverse_start_language cl b hcl) s disc hinv hwl w,
    accepts_congr _ _ hcl.1 hcl.2.1 w, automaton_reverse_language b htargets w]
theorem reads_nil_det (X : automaton)
    (hno : ∀ q tr, tr ∈ (X.state_at q).transitions → tr.symbol ≠ SYMBOL_EPSILON)
    (s f : Nat) : reads X s [] f ↔ f = s := by
  rw [reads_nil_iff]
  constructor
  · intro h; exact epsilon_reachable_self X hno s f h
  · rintro rfl; exact Relation.ReflTransGen.refl

theorem reads_cons_det (X : automaton)
    (hno : ∀ q tr, tr ∈ (X.state_at q).transitions → tr.symbol ≠ SYMBOL_EPSILON)
    (s c : Nat) (w : List Nat) (f : Nat) :
    reads X s (c :: w) f ↔
      ∃ t, (⟨t, c⟩ : transition) ∈ (X.state_at s).transitions ∧ reads X t w f := by
  rw [reads_cons_iff]
  constructor
  · rintro ⟨_, p, t, h1, h2, h3⟩
    have := epsilon_reachable_self X hno s p h1
    subst this
    exact ⟨t, h2, h3⟩
  · rintro ⟨t, h2, h3⟩
    exact ⟨hno _ _ h2, s, t, Relation.ReflTransGen.refl, h2, h3⟩

theorem reads_append_det (X : automaton)
    (hno : ∀ q tr, tr ∈ (X.state_at q).transitions → tr.symbol ≠ SYMBOL_EPSILON)
    (u w : List Nat) : ∀ (s f : Nat),
      reads X s (u ++ w) f ↔ ∃ m, reads X s u m ∧ reads X m w f := by
  induction u with
  | nil =>
    intro s f
    rw [List.nil_append]
    constructor
    · intro h; exact ⟨s, reads.done s, h⟩
    · rintro ⟨m, h1, h2⟩
      rw [reads_nil_det X hno] at h1
      subst h1; exact h2
  | cons c u ih =>
    intro s f
    rw [List.cons_append, reads_cons_det X hno]
    constructor
    · rintro ⟨t, h1, h2⟩
      obtain ⟨m, h3, h4⟩ := (ih t f).mp h2
      exact ⟨m, (reads_cons_det X hno s c u m).mpr ⟨t, h1, h3⟩, h4⟩
    · rintro ⟨m, h1, h2⟩
      obtain ⟨t, h3, h4⟩ := (reads_cons_det X hno s c u m).mp h1
      exact ⟨t, h3, (ih t f).mpr ⟨m, h4, h2⟩⟩

theorem accepts_after (X : automaton)
    (hno : ∀ q tr, tr ∈ (X.state_at q).transitions → tr.symbol ≠ SYMBOL_EPSILON)
    (hfun : ∀ q t t' c, (⟨t, c⟩ : transition) ∈ (X.state_at q).transitions →
      (⟨t', c⟩ : transition) ∈ (X.state_at q).transitions → t = t')
    (u : List Nat) (p : Nat) (hp : reads X X.start_state u p) (w : List Nat) :
    accepts X (u ++ w) ↔ accepts_from X p w := by
  unfold accepts accepts_from
  constructor
  · rintro ⟨f, h1, h2⟩
    obtain ⟨m, h3, h4⟩ := (reads_append_det X hno u w _ f).mp h1
    have := reads_deterministic X hno hfun _ _ _ _ hp h3
    subst this
    exact ⟨f, h4, h2⟩
  · rintro ⟨f, h1, h2⟩
    exact ⟨f, (reads_append_det X hno u w _ f).mpr ⟨p, hp, h1⟩, h2⟩

/-- A step of one minimal automaton is matched by a step of another one with the
same language. -/
theorem minimal_dfa_step (X Y : automaton) (hX : minimal_dfa X) (hY : minimal_dfa Y)
    (hl : ∀ w, accepts X w ↔ accepts Y w) (u : List Nat) (p q : Nat)
    (hp : reads X X.start_state u p) (hq : reads Y Y.start_state u q) (t c : Nat)
    (ht : (⟨t, c⟩ : transition) ∈ (X.state_at p).transitions) :
    ∃ t', (⟨t', c⟩ : transition) ∈ (Y.state_at q).transitions ∧
      reads X X.start_state (u ++ [c]) t ∧ reads Y Y.start_state (u ++ [c]) t' := by
  have hc : c ≠ SYMBOL_EPSILON := hX.no_epsilon _ _ ht
  have h1 : reads X X.start_state (u ++ [c]) t := reads_snoc_symbol X _ _ _ _ _ hp hc ht
  obtain ⟨w, hw⟩ := hX.live t ⟨_, h1⟩
  have h2 : accepts Y ((u ++ [c]) ++ w) :=
    (hl _).mp ((accepts_after X hX.no_epsilon hX.functional _ t h1 w).mpr hw)
  obtain ⟨f, h3, _⟩ := h2
  obtain ⟨m, h4, _⟩ := (reads_append_det Y hY.no_epsilon (u ++ [c]) w _ f).mp h3
  obtain ⟨m', h5, h6⟩ := (reads_append_det Y hY.no_epsilon u [c] _ m).mp h4
  have := reads_deterministic Y hY.no_epsilon hY.functional _ _ _ _ hq h5
  subst this
  obtain ⟨t', h7, h8⟩ := (reads_cons_det Y hY.no_epsilon q c [] m).mp h6
  rw [reads_nil_det Y hY.no_epsilon] at h8
  subst h8
  exact ⟨m, h7, h1, h4⟩

theorem minimal_dfa_related (X Y : automaton) (hX : minimal_dfa X) (hY : minimal_dfa Y)
    (hl : ∀ w, accepts X w ↔ accepts Y w) (u : List Nat) (p q : Nat)
    (hp : reads X X.start_state u p) (hq : reads Y Y.start_state u q) (w : List Nat) :
    accepts_from X p w ↔ accepts_from Y q w := by
  rw [← accepts_after X hX.no_epsilon hX.functional u p hp w,
    ← accepts_after Y hY.no_epsilon hY.functional u q hq w]
  exact hl _

theorem minimal_dfa_partner (X Y : automaton) (hX : minimal_dfa X) (hY : minimal_dfa Y)
    (hl : ∀ w, accepts X w ↔ accepts Y w) (u : List Nat) (p : Nat)
    (hp : reads X X.start_state u p) : ∃ q, reads Y Y.start_state u q := by
  obtain ⟨w, hw⟩ := hX.live p ⟨u, hp⟩
  have h2 : accepts Y (u ++ w) :=
    (hl _).mp ((accepts_after X hX.no_epsilon hX.functional _ p hp w).mpr hw)
  obtain ⟨f, h3, _⟩ := h2
  obtain ⟨m, h4, _⟩ := (reads_append_det Y hY.no_epsilon u w _ f).mp h3
  exact ⟨m, h4⟩

theorem accepting_eq_of_iff (X Y : automaton)
    (hnoX : ∀ q tr, tr ∈ (X.state_at q).transitions → tr.symbol ≠ SYMBOL_EPSILON)
    (hnoY : ∀ q tr, tr ∈ (Y.state_at q).transitions → tr.symbol ≠ SYMBOL_EPSILON)
    (p q : Nat) (h : accepts_from X p [] ↔ accepts_from Y q []) :
    (Y.state_at q).accepting = (X.state_at p).accepting := by
  have key : ∀ (Z : automaton)
      (_ : ∀ q tr, tr ∈ (Z.state_at q).transitions → tr.symbol ≠ SYMBOL_EPSILON) (z : Nat),
      accepts_from Z z [] ↔ (Z.state_at z).accepting = true := by
    intro Z hZ z
    unfold accepts_from
    constructor
    · rintro ⟨f, h1, h2⟩
      rw [reads_nil_det Z hZ] at h1
      subst h1; exact h2
    · intro h2; exact ⟨z, reads.done z, h2⟩
  rw [key X hnoX, key Y hnoY] at h
  cases hx : (X.state_at p).accepting <;> cases hy : (Y.state_at q).accepting
  · rfl
  · rw [hx, hy] at h; exact absurd (h.mpr rfl) (by decide)
  · rw [hx, hy] at h; exact absurd (h.mp rfl) (by decide)
  · rfl

/-- Two minimal deterministic automata with the same language are the same up to
a renumbering of their states. -/
theorem minimal_dfa_unique (A B : automaton) (hA : minimal_dfa A) (hB : minimal_dfa B)
    (hl : ∀ w, accepts A w ↔ accepts B w) : same_up_to_renumbering A B := by
  classical
  have hl' : ∀ w, accepts B w ↔ accepts A w := fun w => (hl w).symm
  -- the states that one word leads to
  have hex : ∀ p, dfa_reachable A p →
      ∃ q, ∃ u, reads A A.start_state u p ∧ reads B B.start_state u q := by
    rintro p ⟨u, hu⟩
    obtain ⟨q, hq⟩ := minimal_dfa_partner A B hA hB hl u p hu
    exact ⟨q, u, hu, hq⟩
  have hfunc : ∀ p q q' u u', reads A A.start_state u p → reads B B.start_state u q →
      reads A A.start_state u' p → reads B B.start_state u' q' → q = q' := by
    intro p q q' u u' h1 h2 h3 h4
    apply hB.distinct q q' ⟨u, h2⟩ ⟨u', h4⟩
    intro w
    rw [← minimal_dfa_related A B hA hB hl u p q h1 h2 w,
      minimal_dfa_related A B hA hB hl u' p q' h3 h4 w]
  have hinj : ∀ p p' q u u', reads A A.start_state u p → reads B B.start_state u q →
      reads A A.start_state u' p' → reads B B.start_state u' q → p = p' := by
    intro p p' q u u' h1 h2 h3 h4
    apply hA.distinct p p' ⟨u, h1⟩ ⟨u', h3⟩
    intro w
    rw [minimal_dfa_related A B hA hB hl u p q h1 h2 w,
      ← minimal_dfa_related A B hA hB hl u' p' q h3 h4 w]
  refine ⟨fun p => if h : dfa_reachable A p then Classical.choose (hex p h) else 0, ?_⟩
  have hf : ∀ p (h : dfa_reachable A p),
      ∃ u, reads A A.start_state u p ∧
        reads B B.start_state u
          ((fun p => if h : dfa_reachable A p then Classical.choose (hex p h) else 0) p) := by
    intro p h
    simp only [dif_pos h]
    exact Classical.choose_spec (hex p h)
  generalize (fun p => if h : dfa_reachable A p then Classical.choose (hex p h) else 0) = f
    at hf ⊢
  have hstart : dfa_reachable A A.start_state := ⟨[], reads.done _⟩
  refine ⟨?_, ?_, ?_, ?_, ?_, ?_, ?_⟩
  · obtain ⟨u, h1, h2⟩ := hf _ hstart
    exact hfunc _ _ _ u [] h1 h2 (reads.done _) (reads.done _)
  · intro p hp
    obtain ⟨u, _, h2⟩ := hf p hp
    exact ⟨u, h2⟩
  · intro p p' hp hp' he
    obtain ⟨u, h1, h2⟩ := hf p hp
    obtain ⟨u', h3, h4⟩ := hf p' hp'
    rw [← he] at h4
    exact hinj p p' (f p) u u' h1 h2 h3 h4
  · rintro q ⟨u, hu⟩
    obtain ⟨p, hp⟩ := minimal_dfa_partner B A hB hA hl' u q hu
    refine ⟨p, ⟨u, hp⟩, ?_⟩
    obtain ⟨u', h1, h2⟩ := hf p ⟨u, hp⟩
    exact hfunc p (f p) q u' u h1 h2 hp hu
  · intro p hp
    obtain ⟨u, h1, h2⟩ := hf p hp
    exact accepting_eq_of_iff A B hA.no_epsilon hB.no_epsilon p (f p)
      (minimal_dfa_related A B hA hB hl u p (f p) h1 h2 [])
  · intro p t c hp ht
    obtain ⟨u, h1, h2⟩ := hf p hp
    obtain ⟨t', h3, h4, h5⟩ := minimal_dfa_step A B hA hB hl u p (f p) h1 h2 t c ht
    obtain ⟨u', h6, h7⟩ := hf t ⟨_, h4⟩
    have := hfunc t (f t) t' u' (u ++ [c]) h6 h7 h4 h5
    rw [this]; exact h3
  · intro p x c hp hx
    obtain ⟨u, h1, h2⟩ := hf p hp
    obtain ⟨t, h3, h4, h5⟩ := minimal_dfa_step B A hB hA hl' u (f p) p h2 h1 x c hx
    refine ⟨t, h3, ?_⟩
    obtain ⟨u', h6, h7⟩ := hf t ⟨_, h5⟩
    exact hfunc t (f t) x u' (u ++ [c]) h6 h7 h5 h4

/-- Every subset of the second subset construction accepts some word, when the
result accepts any word at all. -/
theorem reversed_subsets_live (cl : automaton → automaton) (D : automaton)
    (hD : accessible_dfa D) (hcl : closes_properly cl (automaton_reverse D))
    (s : determinize_state) (disc : List (List Nat))
    (hinv : DetInv (cl (automaton_reverse D)) start_state_options.IGNORE_START_STATE s none disc)
    (hwl : s.worklist = []) (hne : ∃ w, accepts s.result w) (P : List Nat) (d : Nat)
    (hP : stored s.subsets P d) : ∃ w, accepts_from s.result d w := by
  have hu : closures_usable (cl (automaton_reverse D)) :=
    reverse_usable cl D (fun q tr h => Or.inl (hD.symbols_valid q tr h)) hD.alphabet hcl
  have e1 := hcl.1
  have hPr := hinv.reach P ((hinv.assigned.mem_disc P).mpr ⟨d, hP⟩)
  have hmem : ∃ q, q ∈ P := by
    cases hPr with
    | start =>
      obtain ⟨w, hw⟩ := hne
      have h0 : stored s.subsets (canonicalize (initial_subset (cl (automaton_reverse D))
          start_state_options.IGNORE_START_STATE)) 0 :=
        (hinv.assigned.ids _ _).mpr hinv.start.1
      unfold accepts at hw
      rw [hinv.start.2] at hw
      obtain ⟨q, hq, _⟩ := (language_from _ hu _ s disc hinv hwl w _ 0 h0).mp hw
      exact ⟨q, hq⟩
    | step S c _ _ hnil =>
      obtain ⟨q, hq⟩ := List.exists_mem_of_ne_nil _ hnil
      exact ⟨q, (mem_canonicalize _ _).mpr hq⟩
  obtain ⟨q, hq⟩ := hmem
  have hqlt := reverse_subset_lt cl D hcl P hPr q hq
  obtain ⟨u, hu1⟩ := hD.accessible q hqlt
  have hacc : ((cl (automaton_reverse D)).state_at D.start_state).accepting = true := by
    rw [state_at_congr _ _ e1, reverse_accepting]
  have h1 : accepts_from (cl (automaton_reverse D)) q u.reverse :=
    ⟨D.start_state, reads_congr _ _ e1.symm _ _ _
      (reads_reverse_of_reads D hD.targets_valid _ _ _ hu1), hacc⟩
  exact ⟨u.reverse, (language_from _ hu _ s disc hinv hwl u.reverse P d hP).mpr ⟨q, hq, h1⟩⟩

theorem reachable_lt_of_live (X : automaton)
    (hno : ∀ q tr, tr ∈ (X.state_at q).transitions → tr.symbol ≠ SYMBOL_EPSILON)
    (d : Nat) (w : List Nat) (h : accepts_from X d w) : d < X.states.length := by
  cases w with
  | nil =>
    obtain ⟨f, h1, h2⟩ := h
    rw [reads_nil_iff] at h1
    have := epsilon_reachable_self X hno d f h1
    subst this
    exact state_at_lt_of_accepting X _ h2
  | cons c w =>
    rw [accepts_from_cons_iff] at h
    obtain ⟨_, p, t, h1, h2, _⟩ := h
    have := epsilon_reachable_self X hno d p h1
    subst this
    exact state_at_lt_of_mem X _ _ h2

theorem reads_lt (X : automaton)
    (hvalid : ∀ q tr, tr ∈ (X.state_at q).transitions → tr.target < X.states.length)
    (s : Nat) (u : List Nat) (d : Nat) (h : reads X s u d) (hs : s < X.states.length) :
    d < X.states.length := by
  induction h with
  | done q => exact hs
  | epsilon q t w q' hstep _ ih => exact ih (hvalid _ _ hstep)
  | symbol q c t w q' _ hstep _ ih => exact ih (hvalid _ _ hstep)

/-! ## The properties of the determinization -/

theorem automaton_of_run (cl : automaton → automaton) (fuel : Nat) (a result : automaton)
    (options : start_state_options) (s : determinize_state)
    (h : determinize_run cl fuel a result options = some s) :
    determinize_automaton cl fuel a result options = some s.result := by
  unfold determinize_automaton
  rw [h]; rfl

theorem filter_symbol_length_le_one (l : List transition)
    (h : (l.map (fun tr => tr.symbol)).Nodup) (c : Nat) :
    (l.filter (fun tr => decide (tr.symbol = c))).length ≤ 1 := by
  induction l with
  | nil => simp
  | cons tr rest ih =>
    rw [List.map_cons, List.nodup_cons] at h
    by_cases hc : tr.symbol = c
    · have hp : (fun tr : transition => decide (tr.symbol = c)) tr = true := decide_eq_true hc
      rw [List.filter_cons_of_pos (p := fun tr : transition => decide (tr.symbol = c)) hp]
      have : rest.filter (fun tr => decide (tr.symbol = c)) = [] := by
        apply List.filter_eq_nil_iff.mpr
        intro x hx hx'
        rw [decide_eq_true_eq] at hx'
        apply h.1
        rw [hc, ← hx']
        exact List.mem_map.mpr ⟨x, hx, rfl⟩
      rw [this]; simp
    · have hp : ¬ ((fun tr : transition => decide (tr.symbol = c)) tr = true) := by
        simp only [decide_eq_true_eq]; exact hc
      rw [List.filter_cons_of_neg (p := fun tr : transition => decide (tr.symbol = c)) hp]
      exact ih h.2

/-- The language of the automaton that the subset construction returns. -/
theorem determinize_language (cl : automaton → automaton) (a : automaton)
    (options : start_state_options) (hstates : (cl a).states = a.states)
    (hstart : (cl a).start_state = a.start_state) (hwf : WellFormed (cl a))
    (hfew : few_subsets (cl a) options) :
    ∃ n r,
      (∀ fuel, n ≤ fuel →
        determinize_automaton cl fuel a empty_automaton options = some r) ∧
      ∀ w, accepts r w ↔ accepts a w := by
  obtain ⟨n, s, disc, hrun, hinv, hwl⟩ := run_spec cl a options hfew
  refine ⟨n, s.result, fun fuel hf => automaton_of_run cl fuel a _ options s (hrun fuel hf), ?_⟩
  intro w
  rw [language_final (cl a) hwf options s disc hinv hwl w]
  exact accepts_congr (cl a) a hstates hstart w

/-- C1: for a well-formed automaton (valid ids, and epsilon-closures that hold
exactly the states reached by epsilon transitions, the state itself included),
for either start-state option, and when the construction meets fewer than
`3 * 2 ^ 28 - 1` subsets, `determinize_automaton` returns, for every large enough
bound on the iterations, one automaton, and this automaton accepts a word if
and only if the input accepts it. -/
theorem determinize_automaton_language (cl : automaton → automaton) (a : automaton)
    (options : start_state_options) (hstates : (cl a).states = a.states)
    (hstart : (cl a).start_state = a.start_state) (hwf : WellFormed (cl a))
    (hfew : few_subsets (cl a) options) :
    ∃ n r,
      (∀ fuel, n ≤ fuel →
        determinize_automaton cl fuel a empty_automaton options = some r) ∧
      ∀ w, accepts r w ↔ accepts a w :=
  determinize_language cl a options hstates hstart hwf hfew

/-- C1 at the three-state example, with the start state included. -/
theorem determinize_automaton_language_witness :
    WellFormed (id example_nfa) ∧
    few_subsets (id example_nfa) start_state_options.INCLUDE_START_STATE ∧
    ∃ n r,
      (∀ fuel, n ≤ fuel →
        determinize_automaton id fuel example_nfa empty_automaton
          start_state_options.INCLUDE_START_STATE = some r) ∧
      ∀ w, accepts r w ↔ accepts example_nfa w :=
  ⟨example_nfa_well_formed, example_nfa_few _,
    determinize_automaton_language id example_nfa _ rfl rfl example_nfa_well_formed
      (example_nfa_few _)⟩

/-- C4: when the construction meets fewer than `3 * 2 ^ 28 - 1` subsets,
`determinize_automaton` returns an automaton in which every state has at most
one transition for every symbol. -/
theorem determinize_automaton_deterministic (cl : automaton → automaton) (a : automaton)
    (options : start_state_options) (hfew : few_subsets (cl a) options) :
    ∃ n r,
      (∀ fuel, n ≤ fuel →
        determinize_automaton cl fuel a empty_automaton options = some r) ∧
      ∀ q c, ((r.state_at q).transitions.filter (fun tr => decide (tr.symbol = c))).length ≤ 1 := by
  obtain ⟨n, s, disc, hrun, hinv, hwl⟩ := run_spec cl a options hfew
  refine ⟨n, s.result, fun fuel hf => automaton_of_run cl fuel a _ options s (hrun fuel hf), ?_⟩
  intro q c
  rcases final_stored_or_blank (cl a) options s disc hinv q with ⟨S, hS⟩ | hb
  · have hx := final_explored (cl a) options s disc hinv hwl S q hS
    apply filter_symbol_length_le_one
    rw [hx.symbols]
    exact List.Nodup.filter _ (List.nodup_range _)
  · unfold blank at hb
    rw [hb]; simp

/-- C4 at the three-state example. -/
theorem determinize_automaton_deterministic_witness :
    few_subsets (id example_nfa) start_state_options.INCLUDE_START_STATE ∧
    ∃ n r,
      (∀ fuel, n ≤ fuel →
        determinize_automaton id fuel example_nfa empty_automaton
          start_state_options.INCLUDE_START_STATE = some r) ∧
      ∀ q c, ((r.state_at q).transitions.filter (fun tr => decide (tr.symbol = c))).length ≤ 1 :=
  ⟨example_nfa_few _, determinize_automaton_deterministic id example_nfa _ (example_nfa_few _)⟩

/-- C5: when the construction meets fewer than `3 * 2 ^ 28 - 1` subsets, at the
end of `determinize_automaton` an output state is accepting if and only if the
subset it is assigned to in the table holds an accepting state of the input; the
start state is assigned to the canonical initial subset, so it is accepting as
soon as the initial subset holds an accepting state. -/
theorem determinize_accepting (cl : automaton → automaton) (a : automaton)
    (options : start_state_options) (hfew : few_subsets (cl a) options) :
    ∃ n s,
      (∀ fuel, n ≤ fuel → determinize_run cl fuel a empty_automaton options = some s) ∧
      (∀ id, (s.result.state_at id).accepting = true ↔
        ∃ S, stored s.subsets S id ∧ ∃ q, q ∈ S ∧ ((cl a).state_at q).accepting = true) ∧
      stored s.subsets (canonicalize (initial_subset (cl a) options)) s.result.start_state ∧
      ((∃ q, q ∈ initial_subset (cl a) options ∧ ((cl a).state_at q).accepting = true) →
        (s.result.state_at s.result.start_state).accepting = true) := by
  obtain ⟨n, s, disc, hrun, hinv, hwl⟩ := run_spec cl a options hfew
  have hacc : ∀ id, (s.result.state_at id).accepting = true ↔
      ∃ S, stored s.subsets S id ∧ ∃ q, q ∈ S ∧ ((cl a).state_at q).accepting = true := by
    intro id
    constructor
    · intro h
      rcases final_stored_or_blank (cl a) options s disc hinv id with ⟨S, hS⟩ | hb
      · have hx := final_explored (cl a) options s disc hinv hwl S id hS
        rw [hx.accepting, List.any_eq_true] at h
        exact ⟨S, hS, h⟩
      · unfold blank at hb
        rw [hb] at h
        exact absurd h (by decide)
    · rintro ⟨S, hS, hq⟩
      have hx := final_explored (cl a) options s disc hinv hwl S id hS
      rw [hx.accepting, List.any_eq_true]
      exact hq
  have h0 : stored s.subsets (canonicalize (initial_subset (cl a) options))
      s.result.start_state := by
    rw [hinv.start.2]
    exact (hinv.assigned.ids _ _).mpr hinv.start.1
  refine ⟨n, s, hrun, hacc, h0, ?_⟩
  rintro ⟨q, hq, hqa⟩
  exact (hacc _).mpr ⟨_, h0, q, (mem_canonicalize _ _).mpr hq, hqa⟩

/-- C5 at the three-state example: the start state of the output is accepting,
because the initial subset holds the accepting state 1. -/
theorem determinize_accepting_witness :
    few_subsets (id example_nfa) start_state_options.INCLUDE_START_STATE ∧
    ∃ n s,
      (∀ fuel, n ≤ fuel →
        determinize_run id fuel example_nfa empty_automaton
          start_state_options.INCLUDE_START_STATE = some s) ∧
      (s.result.state_at s.result.start_state).accepting = true := by
  refine ⟨example_nfa_few _, ?_⟩
  obtain ⟨n, s, hrun, _, _, h⟩ :=
    determinize_accepting id example_nfa start_state_options.INCLUDE_START_STATE
      (example_nfa_few _)
  exact ⟨n, s, hrun, h ⟨1, by decide, by decide⟩⟩

theorem resolve_states_nil (t : subset_table) (wl : worklist) (states : List Nat) (k : Nat)
    (r : resolution) (h : deterministic_state_for_subset t wl states k = some r) :
    r.states = [] := by
  unfold deterministic_state_for_subset at h
  cases hadopt : subset_table_adopt_subset 2 t (canonicalize states)
      (fnv (subset_bytes (canonicalize states))) k with
  | none => simp only [hadopt] at h; exact Option.noConfusion h
  | some p =>
    obtain ⟨t', idx⟩ := p
    simp only [hadopt] at h
    split at h
    · injection h with h; rw [← h]
    · injection h with h; rw [← h]

/-- C6: when the construction meets fewer than `3 * 2 ^ 28 - 1` subsets, at the
end of `determinize_automaton`, for every output state `d` with subset `S` and
every symbol `c` of the alphabet whose successor set is not empty, the output
has a transition from `d` on `c`, and its target is the state assigned to the
strictly ascending sequence that holds exactly the ids of the successor set.
Every resolution returns the scratch buffer empty. -/
theorem determinize_successor_transition (cl : automaton → automaton) (a : automaton)
    (options : start_state_options) (hfew : few_subsets (cl a) options) :
    ∃ n s,
      (∀ fuel, n ≤ fuel → determinize_run cl fuel a empty_automaton options = some s) ∧
      (∀ S d, stored s.subsets S d → ∀ c, c < (cl a).number_of_symbols →
        (∃ x, in_successors (cl a) S c x) →
        ∃ t T, (⟨t, c⟩ : transition) ∈ (s.result.state_at d).transitions ∧
          stored s.subsets T t ∧ T.Sorted (· < ·) ∧
          ∀ x, x ∈ T ↔ in_successors (cl a) S c x) ∧
      s.next_subset = [] ∧
      ∀ t wl states k r, deterministic_state_for_subset t wl states k = some r →
        r.states = [] := by
  obtain ⟨n, s, disc, hrun, hinv, hwl⟩ := run_spec cl a options hfew
  refine ⟨n, s, hrun, ?_, hinv.scratch, resolve_states_nil⟩
  intro S d hS c hc ⟨x, hx⟩
  have hex := final_explored (cl a) options s disc hinv hwl S d hS
  have hne : push_successors (cl a) c S [] ≠ [] := by
    intro he
    have := (mem_successors (cl a) c S x).mpr hx
    rw [he] at this
    exact List.not_mem_nil _ this
  have hcm : c ∈ (s.result.state_at d).transitions.map (fun tr => tr.symbol) := by
    rw [hex.symbols]
    exact List.mem_filter.mpr ⟨List.mem_range.mpr hc, decide_eq_true hne⟩
  obtain ⟨tr, htr, htrc⟩ := List.mem_map.mp hcm
  have hst := hex.targets tr htr
  rw [htrc] at hst
  refine ⟨tr.target, canonicalize (push_successors (cl a) c S []), ?_, hst,
    canonicalize_sorted _, ?_⟩
  · subst htrc; exact htr
  · intro y
    rw [mem_canonicalize, mem_successors]

/-- C6 at the three-state example. -/
theorem determinize_successor_transition_witness :
    few_subsets (id example_nfa) start_state_options.INCLUDE_START_STATE ∧
    ∃ n s,
      (∀ fuel, n ≤ fuel →
        determinize_run id fuel example_nfa empty_automaton
          start_state_options.INCLUDE_START_STATE = some s) ∧
      (∀ S d, stored s.subsets S d → ∀ c, c < (id example_nfa).number_of_symbols →
        (∃ x, in_successors (id example_nfa) S c x) →
        ∃ t T, (⟨t, c⟩ : transition) ∈ (s.result.state_at d).transitions ∧
          stored s.subsets T t ∧ T.Sorted (· < ·) ∧
          ∀ x, x ∈ T ↔ in_successors (id example_nfa) S c x) ∧
      s.next_subset = [] ∧
      ∀ t wl states k r, deterministic_state_for_subset t wl states k = some r →
        r.states = [] :=
  ⟨example_nfa_few _, determinize_successor_transition id example_nfa _ (example_nfa_few _)⟩

/-- C7: when the construction meets fewer than `3 * 2 ^ 28 - 1` subsets, at the
end of `determinize_automaton`, an output state `d` with subset `S` has no
transition on a symbol `c` that labels no transition of a state of `S`; the
empty subset is a deterministic state only when it is the initial subset; and
the iteration of the symbol loop for such a symbol leaves the table, the
worklist, the state counter and the output as they are. -/
theorem determinize_no_transition (cl : automaton → automaton) (a : automaton)
    (options : start_state_options) (hfew : few_subsets (cl a) options) :
    ∃ n s,
      (∀ fuel, n ≤ fuel → determinize_run cl fuel a empty_automaton options = some s) ∧
      (∀ S d, stored s.subsets S d → ∀ c,
        (∀ q, q ∈ S → ∀ tr, tr ∈ ((cl a).state_at q).transitions → tr.symbol ≠ c) →
        ∀ t, (⟨t, c⟩ : transition) ∉ (s.result.state_at d).transitions) ∧
      (∀ d, stored s.subsets [] d → canonicalize (initial_subset (cl a) options) = []) ∧
      ∀ S d c rest (st : determinize_state), st.next_subset = [] →
        (∀ q, q ∈ S → ∀ tr, tr ∈ ((cl a).state_at q).transitions → tr.symbol ≠ c) →
        explore_symbols (cl a) S d (c :: rest) st = explore_symbols (cl a) S d rest st := by
  obtain ⟨n, s, disc, hrun, hinv, hwl⟩ := run_spec cl a options hfew
  refine ⟨n, s, hrun, ?_, ?_, ?_⟩
  · intro S d hS c hno t ht
    have hex := final_explored (cl a) options s disc hinv hwl S d hS
    have hcm : c ∈ (s.result.state_at d).transitions.map (fun tr => tr.symbol) :=
      List.mem_map.mpr ⟨_, ht, rfl⟩
    rw [hex.symbols] at hcm
    have := (List.mem_filter.mp hcm).2
    rw [decide_eq_true_eq] at this
    exact this ((successors_eq_nil (cl a) c S).mpr hno)
  · intro d hd
    have hr := hinv.reach [] ((hinv.assigned.mem_disc []).mpr ⟨d, hd⟩)
    have key : ∀ E, reachable_subset (cl a) options E → E = [] →
        canonicalize (initial_subset (cl a) options) = [] := by
      intro E hE
      cases hE with
      | start => intro h; exact h
      | step S0 c _ _ hne => intro h; exact absurd ((canonicalize_eq_nil _).mp h) hne
    exact key [] hr rfl
  · intro S d c rest st hst hno
    have he : push_successors (cl a) c S [] = [] := (successors_eq_nil (cl a) c S).mpr hno
    rw [explore_symbols]
    simp only [hst, he, List.length_nil, if_true]
    congr 1
    cases st
    simp only at hst
    subst hst
    rfl

/-- C7 at the three-state example. -/
theorem determinize_no_transition_witness :
    few_subsets (id example_nfa) start_state_options.INCLUDE_START_STATE ∧
    ∃ n s,
      (∀ fuel, n ≤ fuel →
        determinize_run id fuel example_nfa empty_automaton
          start_state_options.INCLUDE_START_STATE = some s) ∧
      (∀ S d, stored s.subsets S d → ∀ c,
        (∀ q, q ∈ S → ∀ tr, tr ∈ ((id example_nfa).state_at q).transitions → tr.symbol ≠ c) →
        ∀ t, (⟨t, c⟩ : transition) ∉ (s.result.state_at d).transitions) ∧
      (∀ d, stored s.subsets [] d →
        canonicalize (initial_subset (id example_nfa)
          start_state_options.INCLUDE_START_STATE) = []) ∧
      ∀ S d c rest (st : determinize_state), st.next_subset = [] →
        (∀ q, q ∈ S → ∀ tr, tr ∈ ((id example_nfa).state_at q).transitions → tr.symbol ≠ c) →
        explore_symbols (id example_nfa) S d (c :: rest) st
          = explore_symbols (id example_nfa) S d rest st :=
  ⟨example_nfa_few _, determinize_no_transition id example_nfa _ (example_nfa_few _)⟩

theorem reachable_table_inv (t : subset_table) (h : reachable_table t) : TableInv t := by
  induction h with
  | empty => exact TableInv_empty
  | adopt t s id depth r _ hsmall hr ih =>
    obtain ⟨r', hr', hspec⟩ := adopt_spec t ih hsmall s id depth
    rw [hr] at hr'
    injection hr' with hr'
    subst hr'
    exact hspec.inv

/-- C8: `deterministic_state_for_subset` assigns the ids densely in the order of
first discovery.  While `disc` lists the `k` distinct subsets discovered so far,
the table stores exactly the pairs of a subset of `disc` and its position and
`*next_state` is `k` (`Assigned`); a resolution returns the position of the
canonical subset in the list, extended by this subset when it is new, and leaves
the ids assigned in this way.  At the end of `determinize_automaton` the start
state is 0 and holds the canonical initial subset, the ids in use are those below
`next_state`, and two subsets have the same id if and only if they are equal. -/
theorem state_ids_first_discovery (cl : automaton → automaton) (a : automaton)
    (options : start_state_options) (hfew : few_subsets (cl a) options) :
    (∀ t wl states k disc, Assigned t k disc → disc.length + 1 < 805306368 →
      ∃ r, deterministic_state_for_subset t wl states k = some r ∧
        Assigned r.table r.next_state
          (if canonicalize states ∈ disc then disc else disc ++ [canonicalize states]) ∧
        (if canonicalize states ∈ disc then disc else disc ++ [canonicalize states])[r.state]?
          = some (canonicalize states)) ∧
    ∃ n s disc,
      (∀ fuel, n ≤ fuel → determinize_run cl fuel a empty_automaton options = some s) ∧
      s.result.start_state = 0 ∧
      Assigned s.subsets s.next_state disc ∧
      disc[0]? = some (canonicalize (initial_subset (cl a) options)) ∧
      (∀ id, id < s.next_state ↔ ∃ S, stored s.subsets S id) ∧
      ∀ S S' id id', stored s.subsets S id → stored s.subsets S' id' → (id = id' ↔ S = S') := by
  constructor
  · intro t wl states k disc hA hb
    obtain ⟨r, hr, _, hcases⟩ := resolve_spec t wl states k disc hA hb
    refine ⟨r, hr, ?_⟩
    rcases hcases with ⟨hmem, hA', _, _, hst⟩ | ⟨hnot, hA', _, hnext, hst⟩
    · rw [if_pos hmem]; exact ⟨hA', hst⟩
    · rw [if_neg hnot]
      refine ⟨hA', ?_⟩
      rw [getElem?_append_singleton]
      exact Or.inr ⟨by rw [hst, hA.next], rfl⟩
  · obtain ⟨n, s, disc, hrun, hinv, hwl⟩ := run_spec cl a options hfew
    refine ⟨n, s, disc, hrun, hinv.start.2, hinv.assigned, hinv.start.1, ?_, ?_⟩
    · intro id
      constructor
      · intro h
        rw [hinv.assigned.next] at h
        exact ⟨disc[id], (hinv.assigned.ids _ _).mpr (List.getElem?_eq_getElem h)⟩
      · rintro ⟨S, hS⟩
        exact hinv.assigned.stored_lt hS
    · intro S S' id id' h1 h2
      have e1 := (hinv.assigned.ids _ _).mp h1
      have e2 := (hinv.assigned.ids _ _).mp h2
      constructor
      · intro he
        subst he
        rw [e1] at e2
        exact Option.some.inj e2
      · intro he
        subst he
        have l1 := getElem?_some_lt _ _ _ e1
        have l2 := getElem?_some_lt _ _ _ e2
        rw [List.getElem?_eq_getElem l1] at e1
        rw [List.getElem?_eq_getElem l2] at e2
        have e1' := Option.some.inj e1
        have e2' := Option.some.inj e2
        exact (List.Nodup.getElem_inj_iff hinv.assigned.nodup).mp (e1'.trans e2'.symm)

/-- C8 at the three-state example. -/
theorem state_ids_first_discovery_witness :
    few_subsets (id example_nfa) start_state_options.INCLUDE_START_STATE ∧
    ∃ n s disc,
      (∀ fuel, n ≤ fuel →
        determinize_run id fuel example_nfa empty_automaton
          start_state_options.INCLUDE_START_STATE = some s) ∧
      s.result.start_state = 0 ∧
      Assigned s.subsets s.next_state disc ∧
      disc[0]? = some [0, 1] :=
  ⟨example_nfa_few _,
    match (state_ids_first_discovery id example_nfa
      start_state_options.INCLUDE_START_STATE (example_nfa_few _)).2 with
    | ⟨n, s, disc, h1, h2, h3, h4, _⟩ => ⟨n, s, disc, h1, h2, h3, h4⟩⟩

/-- C9: on a table reachable from the empty table, below the capacity bound,
`subset_table_adopt_subset` called with a subset and its hash returns the index
of a slot that holds the subset.  If the subset was stored, the slot holds the
id stored before, and the stored entries and `used_size` are unchanged.
Otherwise the slot holds the given hash and the candidate id, `used_size` grows
by one, and the stored entries are those of before and the new one. -/
theorem adopt_subset_lookup_or_insert (t : subset_table) (hreach : reachable_table t)
    (hsmall : 4 * (t.used_size + 1) < 3 * 2 ^ 30) (s : List Nat) (id depth : Nat) :
    ∃ r, subset_table_adopt_subset (depth + 2) t s (fnv (subset_bytes s)) id = some r ∧
      r.2 < r.1.available_size ∧ r.1.subsets.getD r.2 none = some s ∧
      ((∃ i, t.subsets.getD i none = some s) →
        (∀ i, t.subsets.getD i none = some s →
          r.1.subset_states.getD r.2 0 = t.subset_states.getD i 0) ∧
        r.1.used_size = t.used_size ∧
        ∀ s' h' id', stored_entry r.1 s' h' id' ↔ stored_entry t s' h' id') ∧
      ((∀ i, t.subsets.getD i none ≠ some s) →
        r.1.subset_hashes.getD r.2 0 = fnv (subset_bytes s) ∧
        r.1.subset_states.getD r.2 0 = id ∧
        r.1.used_size = t.used_size + 1 ∧
        ∀ s' h' id', stored_entry r.1 s' h' id' ↔
          stored_entry t s' h' id' ∨ (s' = s ∧ h' = fnv (subset_bytes s) ∧ id' = id)) := by
  have hinv := reachable_table_inv t hreach
  obtain ⟨r, hr, hspec⟩ := adopt_spec t hinv hsmall s id depth
  refine ⟨r, hr, hspec.index_lt, hspec.holds, ?_, ?_⟩
  · intro hex
    obtain ⟨hu, hent⟩ := hspec.present hex
    refine ⟨?_, hu, hent⟩
    intro i hi
    have h1 : stored_entry r.1 s (r.1.subset_hashes.getD r.2 0) (r.1.subset_states.getD r.2 0) :=
      ⟨r.2, hspec.holds, rfl, rfl⟩
    obtain ⟨j, hj1, _, hj3⟩ := (hent _ _ _).mp h1
    have := hinv.nodup i j s hi hj1
    subst this
    exact hj3.symm
  · intro habs
    obtain ⟨hu, h1, h2, hent⟩ := hspec.absent habs
    exact ⟨h1, h2, hu, hent⟩

/-- C9 at the empty table and the subset `[0, 1]`. -/
theorem adopt_subset_lookup_or_insert_witness :
    reachable_table empty_table ∧ 4 * (empty_table.used_size + 1) < 3 * 2 ^ 30 ∧
    ∃ r, subset_table_adopt_subset 2 empty_table [0, 1] (fnv (subset_bytes [0, 1])) 0 = some r ∧
      r.1.subsets.getD r.2 none = some [0, 1] ∧ r.1.subset_states.getD r.2 0 = 0 ∧
      r.1.used_size = 1 :=
  ⟨reachable_table.empty, by decide,
    match adopt_subset_lookup_or_insert empty_table reachable_table.empty (by decide) [0, 1] 0 0
    with
    | ⟨r, h1, _, h3, _, h5⟩ =>
      ⟨r, h1, h3, (h5 (fun i hi => Option.noConfusion hi)).2.1,
        (h5 (fun i hi => Option.noConfusion hi)).2.2.1⟩⟩

/-- C10: two sequences of state ids with the same set of values have the same
canonical form and the same hash, and resolving one after the other, from a
state in which the ids are assigned in discovery order, returns the same
deterministic state; the second call creates no state: it leaves `*next_state`,
the worklist and `used_size` as the first call left them. -/
theorem canonicalize_same_values (l1 l2 : List Nat) (h : ∀ x, x ∈ l1 ↔ x ∈ l2)
    (t : subset_table) (wl : worklist) (k : Nat) (disc : List (List Nat))
    (hA : Assigned t k disc) (hb : disc.length + 2 < 805306368) :
    canonicalize l1 = canonicalize l2 ∧
    fnv (subset_bytes (canonicalize l1)) = fnv (subset_bytes (canonicalize l2)) ∧
    ∃ r1 r2, deterministic_state_for_subset t wl l1 k = some r1 ∧
      deterministic_state_for_subset r1.table r1.worklist l2 r1.next_state = some r2 ∧
      r2.state = r1.state ∧ r2.next_state = r1.next_state ∧ r2.worklist = r1.worklist ∧
      r2.table.used_size = r1.table.used_size := by
  have hc := canonicalize_congr l1 l2 h
  refine ⟨hc, by rw [hc], ?_⟩
  obtain ⟨r1, hr1, _, hcases⟩ := resolve_spec t wl l1 k disc hA (by omega)
  have key : ∀ disc1, Assigned r1.table r1.next_state disc1 → disc1.length + 1 < 805306368 →
      disc1[r1.state]? = some (canonicalize l1) →
      ∃ r2, deterministic_state_for_subset r1.table r1.worklist l2 r1.next_state = some r2 ∧
        r2.state = r1.state ∧ r2.next_state = r1.next_state ∧ r2.worklist = r1.worklist ∧
        r2.table.used_size = r1.table.used_size := by
    intro disc1 hA1 hb1 hst1
    obtain ⟨r2, hr2, _, hcases2⟩ := resolve_spec r1.table r1.worklist l2 r1.next_state disc1 hA1 hb1
    refine ⟨r2, hr2, ?_⟩
    rcases hcases2 with ⟨_, hA2, hwl2, hnext2, hst2⟩ | ⟨hnot, _⟩
    · refine ⟨?_, hnext2, hwl2, by rw [hA2.used, hA1.used]⟩
      rw [← hc] at hst2
      have l1' := getElem?_some_lt _ _ _ hst1
      have l2' := getElem?_some_lt _ _ _ hst2
      rw [List.getElem?_eq_getElem l1'] at hst1
      rw [List.getElem?_eq_getElem l2'] at hst2
      exact (List.Nodup.getElem_inj_iff hA1.nodup).mp
        ((Option.some.inj hst2).trans (Option.some.inj hst1).symm)
    · exfalso
      apply hnot
      rw [← hc]
      exact List.mem_iff_getElem?.mpr ⟨_, hst1⟩
  rcases hcases with ⟨_, hA1, _, _, hst1⟩ | ⟨_, hA1, _, hnext1, hst1⟩
  · obtain ⟨r2, h2⟩ := key disc hA1 (by omega) hst1
    exact ⟨r1, r2, hr1, h2⟩
  · obtain ⟨r2, h2⟩ := key (disc ++ [canonicalize l1]) hA1
      (by rw [List.length_append, List.length_singleton]; omega)
      (by
        rw [getElem?_append_singleton]
        exact Or.inr ⟨by rw [hst1, hA.next], rfl⟩)
    exact ⟨r1, r2, hr1, h2⟩

theorem example_same_values : ∀ x : Nat, x ∈ [2, 1, 2] ↔ x ∈ [1, 2, 1] := by
  intro x
  simp only [List.mem_cons, List.mem_singleton, List.not_mem_nil, or_false]
  omega

/-- C10 at the sequences `[2, 1, 2]` and `[1, 2, 1]` and the empty table. -/
theorem canonicalize_same_values_witness :
    (∀ x, x ∈ [2, 1, 2] ↔ x ∈ [1, 2, 1]) ∧ Assigned empty_table 0 [] ∧
    canonicalize [2, 1, 2] = canonicalize [1, 2, 1] ∧
    ∃ r1 r2, deterministic_state_for_subset empty_table [] [2, 1, 2] 0 = some r1 ∧
      deterministic_state_for_subset r1.table r1.worklist [1, 2, 1] r1.next_state = some r2 ∧
      r2.state = r1.state ∧ r2.next_state = r1.next_state :=
  ⟨example_same_values, Assigned_empty,
    match canonicalize_same_values [2, 1, 2] [1, 2, 1] example_same_values empty_table [] 0 []
      Assigned_empty (by decide) with
    | ⟨h1, _, r1, r2, h3, h4, h5, h6, _⟩ => ⟨h1, r1, r2, h3, h4, h5, h6⟩⟩

theorem targets_valid_of_check (a : automaton) (h : targets_valid_check a = true) :
    ∀ q tr, tr ∈ (a.state_at q).transitions → tr.target < a.states.length := by
  unfold targets_valid_check at h
  rw [List.all_eq_true] at h
  intro q tr hm
  unfold automaton.state_at at hm
  rcases getD_mem_or_default a.states q ⟨[], false⟩ with hq | hq
  · have := h _ hq
    rw [List.all_eq_true] at this
    have h2 := this tr hm
    rw [decide_eq_true_eq] at h2
    exact h2
  · rw [hq] at hm; exact absurd hm (List.not_mem_nil _)

theorem determinize_run_mono (cl : automaton → automaton) (fuel fuel' : Nat) (hle : fuel ≤ fuel')
    (a result : automaton) (options : start_state_options) (s : determinize_state)
    (h : determinize_run cl fuel a result options = some s) :
    determinize_run cl fuel' a result options = some s := by
  unfold determinize_run at h ⊢
  cases hr : deterministic_state_for_subset empty_table [] (initial_subset (cl a) options) 0 with
  | none => simp only [hr] at h; exact Option.noConfusion h
  | some r =>
    simp only [hr] at h ⊢
    exact determinize_loop_mono_le (cl a) fuel fuel' hle _ _ h

theorem determinize_automaton_mono (cl : automaton → automaton) (fuel fuel' : Nat)
    (hle : fuel ≤ fuel') (a result : automaton) (options : start_state_options) (r : automaton)
    (h : determinize_automaton cl fuel a result options = some r) :
    determinize_automaton cl fuel' a result options = some r := by
  unfold determinize_automaton at h ⊢
  cases hs : determinize_run cl fuel a result options with
  | none => rw [hs] at h; exact Option.noConfusion h
  | some s =>
    rw [hs] at h
    rw [determinize_run_mono cl fuel fuel' hle a result options s hs]
    exact h

theorem determinize_automaton_unique (cl : automaton → automaton) (f1 f2 : Nat)
    (a result : automaton) (options : start_state_options) (r1 r2 : automaton)
    (h1 : determinize_automaton cl f1 a result options = some r1)
    (h2 : determinize_automaton cl f2 a result options = some r2) : r1 = r2 := by
  have e1 := determinize_automaton_mono cl f1 (max f1 f2) (le_max_left _ _) a result options r1 h1
  have e2 := determinize_automaton_mono cl f2 (max f1 f2) (le_max_right _ _) a result options r2 h2
  rw [e1] at e2
  exact Option.some.inj e2

/-- C2: when the reversal is faithful at the input and at the intermediate
automaton (the reversed automaton is well-formed once its closures are computed,
and accepts the words of the original read backwards), and both subset
constructions meet fewer than `3 * 2 ^ 28 - 1` subsets, `determinize_minimize`
returns, for every large enough bound on the iterations, one automaton, which
accepts exactly the words that the input accepts. -/
theorem determinize_minimize_language (cl rev : automaton → automaton) (input : automaton)
    (h1 : reverses cl rev input)
    (hfew1 : few_subsets (cl (rev input)) start_state_options.IGNORE_START_STATE)
    (h2 : ∀ fuel dfa,
      determinize_automaton cl fuel (rev input) empty_automaton
        start_state_options.IGNORE_START_STATE = some dfa →
      reverses cl rev dfa ∧
        few_subsets (cl (rev dfa)) start_state_options.IGNORE_START_STATE) :
    ∃ n r,
      (∀ fuel, n ≤ fuel → determinize_minimize cl rev fuel input empty_automaton = some r) ∧
      ∀ w, accepts r w ↔ accepts input w := by
  obtain ⟨e1, e2, hwf1, hl1⟩ := h1
  obtain ⟨n1, dfa, hd1, hlang1⟩ := determinize_language cl (rev input)
    start_state_options.IGNORE_START_STATE e1 e2 hwf1 hfew1
  obtain ⟨⟨e3, e4, hwf2, hl2⟩, hfew2⟩ := h2 n1 dfa (hd1 n1 (le_refl _))
  obtain ⟨n2, r, hd2, hlang2⟩ := determinize_language cl (rev dfa)
    start_state_options.IGNORE_START_STATE e3 e4 hwf2 hfew2
  refine ⟨max n1 n2, r, ?_, ?_⟩
  · intro fuel hf
    unfold determinize_minimize
    simp only [hd1 fuel (le_trans (le_max_left _ _) hf)]
    exact hd2 fuel (le_trans (le_max_right _ _) hf)
  · intro w
    rw [hlang2 w, hl2 w, hlang1 w.reverse, hl1 w.reverse, List.reverse_reverse]

theorem example_reverses :
    reverses automaton_compute_epsilon_closure automaton_reverse example_nfa :=
  ⟨rfl, rfl, well_formed_of_check _ (by decide),
    automaton_reverse_language example_nfa (targets_valid_of_check _ (by decide))⟩

theorem example_intermediate (fuel : Nat) (dfa : automaton)
    (h : determinize_automaton automaton_compute_epsilon_closure fuel
      (automaton_reverse example_nfa) empty_automaton
      start_state_options.IGNORE_START_STATE = some dfa) :
    dfa = ⟨[⟨[], true⟩], 0, 0, []⟩ :=
  determinize_automaton_unique _ fuel 3 _ _ _ _ _ h (by decide)

theorem example_intermediate_reverses (fuel : Nat) (dfa : automaton)
    (h : determinize_automaton automaton_compute_epsilon_closure fuel
      (automaton_reverse example_nfa) empty_automaton
      start_state_options.IGNORE_START_STATE = some dfa) :
    reverses automaton_compute_epsilon_closure automaton_reverse dfa ∧
      few_subsets (automaton_compute_epsilon_closure (automaton_reverse dfa))
        start_state_options.IGNORE_START_STATE := by
  rw [example_intermediate fuel dfa h]
  exact ⟨⟨rfl, rfl, well_formed_of_check _ (by decide),
      automaton_reverse_language _ (targets_valid_of_check _ (by decide))⟩,
    few_subsets_of_state_ids _ _ (by decide)⟩

/-- C2 at the three-state example, with the reversal and the closures modelled
from the specification. -/
theorem determinize_minimize_language_witness :
    reverses automaton_compute_epsilon_closure automaton_reverse example_nfa ∧
    few_subsets (automaton_compute_epsilon_closure (automaton_reverse example_nfa))
      start_state_options.IGNORE_START_STATE ∧
    ∃ n r,
      (∀ fuel, n ≤ fuel →
        determinize_minimize automaton_compute_epsilon_closure automaton_reverse fuel
          example_nfa empty_automaton = some r) ∧
      ∀ w, accepts r w ↔ accepts example_nfa w :=
  ⟨example_reverses, few_subsets_of_state_ids _ _ (by decide),
    determinize_minimize_language automaton_compute_epsilon_closure automaton_reverse
      example_nfa example_reverses (few_subsets_of_state_ids _ _ (by decide))
      example_intermediate_reverses⟩

theorem example_loop_minimized_equivalent (w : List Nat) :
    accepts_from example_loop_minimized 0 w ↔ accepts_from example_loop_minimized 1 w := by
  cases w with
  | nil =>
    rw [accepts_from_nil_iff, accepts_from_nil_iff]
    constructor
    · intro _; exact ⟨1, Relation.ReflTransGen.refl, by decide⟩
    · intro _; exact ⟨0, Relation.ReflTransGen.refl, by decide⟩
  | cons c w =>
    have hno : ∀ q tr, tr ∈ (example_loop_minimized.state_at q).transitions →
        tr.symbol ≠ SYMBOL_EPSILON := by
      intro q tr htr
      have h := targets_valid_of_check example_loop_minimized (by decide) q tr htr
      have hq := state_at_lt_of_mem _ q tr htr
      have hq2 : q < 2 := hq
      interval_cases q
      · have : tr = ⟨1, 0⟩ := List.mem_singleton.mp htr
        subst this; decide
      · have : tr = ⟨1, 0⟩ := List.mem_singleton.mp htr
        subst this; decide
    rw [accepts_from_cons_iff, accepts_from_cons_iff]
    constructor
    · rintro ⟨hc, p, t, h1, h2, h3⟩
      have := epsilon_reachable_self _ hno 0 p h1
      subst this
      exact ⟨hc, 1, t, Relation.ReflTransGen.refl, h2, h3⟩
    · rintro ⟨hc, p, t, h1, h2, h3⟩
      have := epsilon_reachable_self _ hno 1 p h1
      subst this
      exact ⟨hc, 0, t, Relation.ReflTransGen.refl, h2, h3⟩

/-- With closures that include the state itself, as `automaton_compute_epsilon_closure`
models them from the glossary, the option `IGNORE_START_STATE` does not keep the
new start state of a reversed automaton out of the initial subset: for the
one-state automaton `example_loop`, which is well-formed and at which the
reversal is faithful, `determinize_minimize` then returns an automaton with two
states, 0 and 1, that accept the same words.  Minimality is therefore stated for
closures that leave the state out. -/
theorem determinize_minimize_not_minimal :
    WellFormed (automaton_compute_epsilon_closure example_loop) ∧
    reverses automaton_compute_epsilon_closure automaton_reverse example_loop ∧
    (∃ dfa, determinize_automaton automaton_compute_epsilon_closure 3
        (automaton_reverse example_loop) empty_automaton
        start_state_options.IGNORE_START_STATE = some dfa ∧
      reverses automaton_compute_epsilon_closure automaton_reverse dfa) ∧
    determinize_minimize automaton_compute_epsilon_closure automaton_reverse 3 example_loop
      empty_automaton = some example_loop_minimized ∧
    example_loop.states.length = 1 ∧ example_loop_minimized.states.length = 2 ∧
    ∀ w, accepts_from example_loop_minimized 0 w ↔ accepts_from example_loop_minimized 1 w := by
  refine ⟨well_formed_of_check _ (by decide),
    ⟨rfl, rfl, well_formed_of_check _ (by decide),
      automaton_reverse_language _ (targets_valid_of_check _ (by decide))⟩,
    ⟨example_loop_minimized, by decide,
      ⟨rfl, rfl, well_formed_of_check _ (by decide),
        automaton_reverse_language _ (targets_valid_of_check _ (by decide))⟩⟩,
    by decide, rfl, rfl, example_loop_minimized_equivalent⟩

theorem proper_justified_sound (b : automaton) (q : Nat) :
    ∀ (rest pre : List Nat), proper_justified b q pre rest = true →
      (∀ p, p ∈ pre → Relation.TransGen
        (fun q t => (⟨t, SYMBOL_EPSILON⟩ : transition) ∈ (b.state_at q).transitions) q p) →
      ∀ t, t ∈ rest → Relation.TransGen
        (fun q t => (⟨t, SYMBOL_EPSILON⟩ : transition) ∈ (b.state_at q).transitions) q t := by
  intro rest
  induction rest with
  | nil => intro pre _ _ t ht; exact absurd ht (List.not_mem_nil _)
  | cons x rest ih =>
    intro pre hj hpre t ht
    rw [proper_justified, Bool.and_eq_true, List.any_eq_true] at hj
    obtain ⟨⟨p, hp, hstep⟩, hrest⟩ := hj
    rw [decide_eq_true_eq] at hstep
    have hxr : Relation.TransGen
        (fun q t => (⟨t, SYMBOL_EPSILON⟩ : transition) ∈ (b.state_at q).transitions) q x := by
      rcases List.mem_cons.mp hp with rfl | hp'
      · exact Relation.TransGen.single hstep
      · exact Relation.TransGen.tail (hpre p hp') hstep
    rcases List.mem_cons.mp ht with rfl | ht'
    · exact hxr
    · apply ih (pre ++ [x]) hrest _ t ht'
      intro p' hp'
      rcases List.mem_append.mp hp' with h1 | h1
      · exact hpre p' h1
      · rw [List.mem_singleton] at h1; subst h1; exact hxr

theorem closes_properly_of_check (cl : automaton → automaton) (b : automaton)
    (h : proper_closure_check (cl b) b = true) : closes_properly cl b := by
  unfold proper_closure_check at h
  rw [Bool.and_eq_true, Bool.and_eq_true, Bool.and_eq_true, decide_eq_true_eq,
    decide_eq_true_eq, decide_eq_true_eq, List.all_eq_true] at h
  obtain ⟨⟨⟨e1, e2⟩, e3⟩, hall⟩ := h
  refine ⟨e1, e2, e3, ?_⟩
  intro q hq t
  have hq' := hall q (List.mem_range.mpr hq)
  rw [Bool.and_eq_true, List.all_eq_true] at hq'
  obtain ⟨hcomplete, hsound⟩ := hq'
  have hstep : ∀ p, p ∈ q :: (cl b).closure_at q → ∀ x,
      (⟨x, SYMBOL_EPSILON⟩ : transition) ∈ (b.state_at p).transitions →
      x ∈ (cl b).closure_at q := by
    intro p hp x hx
    have := hcomplete p hp
    rw [List.all_eq_true] at this
    have h2 := this _ hx
    rw [Bool.or_eq_true, decide_eq_true_eq, decide_eq_true_eq] at h2
    rcases h2 with h2 | h2
    · exact absurd rfl h2
    · exact h2
  constructor
  · intro ht
    exact proper_justified_sound b q _ [] hsound
      (fun p hp => absurd hp (List.not_mem_nil _)) t ht
  · intro hr
    induction hr with
    | single hs => exact hstep q (List.mem_cons_self _ _) _ hs
    | tail _ hs ih => exact hstep _ (List.mem_cons_of_mem _ ih) _ hs

theorem symbols_valid_of_check (a : automaton) (h : symbols_valid_check a = true) :
    a.number_of_symbols ≤ SYMBOL_EPSILON ∧
    ∀ q tr, tr ∈ (a.state_at q).transitions →
      tr.symbol < a.number_of_symbols ∨ tr.symbol = SYMBOL_EPSILON := by
  unfold symbols_valid_check at h
  rw [Bool.and_eq_true, decide_eq_true_eq, List.all_eq_true] at h
  refine ⟨h.1, ?_⟩
  intro q tr hm
  unfold automaton.state_at at hm
  rcases getD_mem_or_default a.states q ⟨[], false⟩ with hq | hq
  · have := h.2 _ hq
    rw [List.all_eq_true] at this
    have h2 := this tr hm
    rw [Bool.or_eq_true, decide_eq_true_eq, decide_eq_true_eq] at h2
    exact h2
  · rw [hq] at hm; exact absurd hm (List.not_mem_nil _)

/-- C3, amended: when `automaton_reverse` transposes the automaton behind a new
start state and the closure computation stores for each state the states reached
by one or more epsilon transitions (at the reversed input and at the reversed
intermediate automaton), for an input with valid ids whose two subset
constructions meet fewer than `3 * 2 ^ 28 - 1` subsets, `determinize_minimize`
returns a deterministic automaton that accepts the words of the input, in which
every state is reachable from the start state and no two distinct reachable
states accept the same words; and when the input is itself such a minimal
deterministic automaton whose reachable states each accept some word, the result
is the reachable part of the input up to a renumbering of the states, and its
states are exactly the reachable ones. -/
theorem determinize_minimize_minimal (cl : automaton → automaton) (input : automaton)
    (htargets : ∀ q tr, tr ∈ (input.state_at q).transitions → tr.target < input.states.length)
    (hsym : ∀ q tr, tr ∈ (input.state_at q).transitions →
      tr.symbol < input.number_of_symbols ∨ tr.symbol = SYMBOL_EPSILON)
    (halpha : input.number_of_symbols ≤ SYMBOL_EPSILON)
    (hcl1 : closes_properly cl (automaton_reverse input))
    (hfew1 : few_subsets (cl (automaton_reverse input)) start_state_options.IGNORE_START_STATE)
    (h2 : ∀ fuel dfa,
      determinize_automaton cl fuel (automaton_reverse input) empty_automaton
        start_state_options.IGNORE_START_STATE = some dfa →
      closes_properly cl (automaton_reverse dfa) ∧
        few_subsets (cl (automaton_reverse dfa)) start_state_options.IGNORE_START_STATE) :
    ∃ n r,
      (∀ fuel, n ≤ fuel →
        determinize_minimize cl automaton_reverse fuel input empty_automaton = some r) ∧
      (∀ w, accepts r w ↔ accepts input w) ∧
      (∀ q c, ((r.state_at q).transitions.filter (fun tr => decide (tr.symbol = c))).length ≤ 1) ∧
      (∀ q tr, tr ∈ (r.state_at q).transitions → tr.symbol ≠ SYMBOL_EPSILON) ∧
      (∀ d, d < r.states.length → ∃ u, reads r r.start_state u d) ∧
      (∀ d d' u u', reads r r.start_state u d → reads r r.start_state u' d' →
        (∀ w, accepts_from r d w ↔ accepts_from r d' w) → d = d') ∧
      (minimal_dfa input →
        same_up_to_renumbering input r ∧ ∀ d, dfa_reachable r d → d < r.states.length) := by
  obtain ⟨n1, s1, disc1, hrun1, hinv1, hwl1, hD1, hlang1⟩ :=
    reverse_determinize_spec cl input htargets hsym halpha hcl1 hfew1
  have hdet1 : ∀ fuel, n1 ≤ fuel →
      determinize_automaton cl fuel (automaton_reverse input) empty_automaton
        start_state_options.IGNORE_START_STATE = some s1.result :=
    fun fuel hf => automaton_of_run cl fuel _ _ _ s1 (hrun1 fuel hf)
  obtain ⟨hcl2, hfew2⟩ := h2 n1 s1.result (hdet1 n1 (le_refl _))
  obtain ⟨n2, s2, disc2, hrun2, hinv2, hwl2, hD2, hlang2⟩ :=
    reverse_determinize_spec cl s1.result hD1.targets_valid
      (fun q tr h => Or.inl (hD1.symbols_valid q tr h)) hD1.alphabet hcl2 hfew2
  have hu2 : closures_usable (cl (automaton_reverse s1.result)) :=
    reverse_usable cl s1.result (fun q tr h => Or.inl (hD1.symbols_valid q tr h))
      hD1.alphabet hcl2
  have hlang : ∀ w, accepts s2.result w ↔ accepts input w := by
    intro w
    rw [hlang2 w, hlang1 w.reverse, List.reverse_reverse]
  have hstored : ∀ d, dfa_reachable s2.result d → ∃ S, stored s2.subsets S d := by
    rintro d ⟨u, hd⟩
    have h0 : ∃ S, stored s2.subsets S s2.result.start_state := by
      rw [hinv2.start.2]
      exact ⟨_, (hinv2.assigned.ids _ _).mpr hinv2.start.1⟩
    exact final_reads_stored _ hu2.alphabet _ s2 disc2 hinv2 hwl2 _ u d hd h0
  have hdist : ∀ d d', dfa_reachable s2.result d → dfa_reachable s2.result d' →
      (∀ w, accepts_from s2.result d w ↔ accepts_from s2.result d' w) → d = d' := by
    intro d d' hd hd' heq
    obtain ⟨P, hP⟩ := hstored d hd
    obtain ⟨P', hP'⟩ := hstored d' hd'
    exact reversed_subsets_distinguished cl s1.result hD1 hcl2 s2 disc2 hinv2 hwl2 P d P' d'
      hP hP' heq
  refine ⟨max n1 n2, s2.result, ?_, hlang, ?_, hD2.no_epsilon, hD2.accessible, ?_, ?_⟩
  · intro fuel hf
    unfold determinize_minimize
    simp only [hdet1 fuel (le_trans (le_max_left _ _) hf)]
    exact automaton_of_run cl fuel _ _ _ s2 (hrun2 fuel (le_trans (le_max_right _ _) hf))
  · intro q c
    rcases final_stored_or_blank _ _ s2 disc2 hinv2 q with ⟨S, hS⟩ | hb
    · have hx := final_explored _ _ s2 disc2 hinv2 hwl2 S q hS
      apply filter_symbol_length_le_one
      rw [hx.symbols]
      exact List.Nodup.filter _ (List.nodup_range _)
    · unfold blank at hb
      rw [hb]; simp
  · intro d d' u u' hd hd' heq
    exact hdist d d' ⟨u, hd⟩ ⟨u', hd'⟩ heq
  · intro hmin
    have hne : ∃ w, accepts s2.result w := by
      obtain ⟨w, hw⟩ := hmin.live input.start_state ⟨[], reads.done _⟩
      exact ⟨w, (hlang w).mpr hw⟩
    have hlive : ∀ d, dfa_reachable s2.result d → ∃ w, accepts_from s2.result d w := by
      intro d hd
      obtain ⟨P, hP⟩ := hstored d hd
      exact reversed_subsets_live cl s1.result hD1 hcl2 s2 disc2 hinv2 hwl2 hne P d hP
    refine ⟨minimal_dfa_unique input s2.result hmin
      ⟨hD2.no_epsilon, hD2.functional, hlive, hdist⟩ (fun w => (hlang w).symm), ?_⟩
    intro d hd
    obtain ⟨w, hw⟩ := hlive d hd
    exact reachable_lt_of_live s2.result hD2.no_epsilon d w hw

theorem example_loop_intermediate (fuel : Nat) (dfa : automaton)
    (h : determinize_automaton proper_epsilon_closure fuel
      (automaton_reverse example_loop) empty_automaton
      start_state_options.IGNORE_START_STATE = some dfa) :
    closes_properly proper_epsilon_closure (automaton_reverse dfa) ∧
      few_subsets (proper_epsilon_closure (automaton_reverse dfa))
        start_state_options.IGNORE_START_STATE := by
  have : dfa = ⟨[⟨[⟨0, 0⟩], true⟩], 0, 1, []⟩ :=
    determinize_automaton_unique _ fuel 3 _ _ _ _ _ h (by decide)
  rw [this]
  exact ⟨closes_properly_of_check _ _ (by decide), few_subsets_of_state_ids _ _ (by decide)⟩

theorem example_loop_minimal : minimal_dfa example_loop := by
  have hst : ∀ q tr, tr ∈ (example_loop.state_at q).transitions → q = 0 ∧ tr = ⟨0, 0⟩ := by
    intro q tr htr
    have hq : q < 1 := state_at_lt_of_mem _ q tr htr
    have hq0 : q = 0 := by omega
    subst hq0
    exact ⟨rfl, List.mem_singleton.mp htr⟩
  have hreach : ∀ d, dfa_reachable example_loop d → d = 0 := by
    rintro d ⟨u, hu⟩
    have : d < 1 := reads_lt example_loop (targets_valid_of_check _ (by decide)) _ u d hu
      (by decide)
    omega
  refine ⟨?_, ?_, ?_, ?_⟩
  · intro q tr htr
    rw [(hst q tr htr).2]; decide
  · intro q t t' c h1 h2
    have e1 := (hst q _ h1).2
    have e2 := (hst q _ h2).2
    rw [transition.mk.injEq] at e1 e2
    omega
  · intro d hd
    rw [hreach d hd]
    exact ⟨[], 0, reads.done 0, by decide⟩
  · intro d d' hd hd' _
    rw [hreach d hd, hreach d' hd']

/-- C3, amended, at the one-state automaton `example_loop`: it is a minimal
deterministic automaton, and with closures that leave the state itself out the
result is the one-state automaton again. -/
theorem determinize_minimize_minimal_witness :
    closes_properly proper_epsilon_closure (automaton_reverse example_loop) ∧
    few_subsets (proper_epsilon_closure (automaton_reverse example_loop))
      start_state_options.IGNORE_START_STATE ∧
    determinize_minimize proper_epsilon_closure automaton_reverse 3 example_loop
      empty_automaton = some example_loop ∧
    ∃ n r,
      (∀ fuel, n ≤ fuel →
        determinize_minimize proper_epsilon_closure automaton_reverse fuel example_loop
          empty_automaton = some r) ∧
      (∀ w, accepts r w ↔ accepts example_loop w) ∧
      (∀ d, d < r.states.length → ∃ u, reads r r.start_state u d) ∧
      (∀ d d' u u', reads r r.start_state u d → reads r r.start_state u' d' →
        (∀ w, accepts_from r d w ↔ accepts_from r d' w) → d = d') ∧
      same_up_to_renumbering example_loop r ∧ ∀ d, dfa_reachable r d → d < r.states.length :=
  ⟨closes_properly_of_check _ _ (by decide), few_subsets_of_state_ids _ _ (by decide),
    by decide,
    match determinize_minimize_minimal proper_epsilon_closure example_loop
      (targets_valid_of_check _ (by decide)) (symbols_valid_of_check _ (by decide)).2
      (symbols_valid_of_check _ (by decide)).1
      (closes_properly_of_check _ _ (by decide)) (few_subsets_of_state_ids _ _ (by decide))
      example_loop_intermediate with
    | ⟨n, r, h1, h2, _, _, h5, h6, h7⟩ =>
      ⟨n, r, h1, h2, h5, h6, (h7 example_loop_minimal).1, (h7 example_loop_minimal).2⟩⟩
theorem example_dead_stays (s : Nat) (w : List Nat) (q : Nat)
    (h : reads example_dead s w q) : s = 1 → q = 1 := by
  induction h with
  | done q => exact id
  | epsilon q t w q' hstep _ ih =>
    intro hq
    subst hq
    have : (⟨t, SYMBOL_EPSILON⟩ : transition) = ⟨1, 0⟩ := List.mem_singleton.mp hstep
    rw [transition.mk.injEq] at this
    exact absurd this.2 (by decide)
  | symbol q c t w q' _ hstep _ ih =>
    intro hq
    subst hq
    have : (⟨t, c⟩ : transition) = ⟨1, 0⟩ := List.mem_singleton.mp hstep
    rw [transition.mk.injEq] at this
    exact ih this.1

theorem example_dead_minimized_stays (s : Nat) (w : List Nat) (q : Nat)
    (h : reads example_dead_minimized s w q) : q = s := by
  have hno : ∀ q, (example_dead_minimized.state_at q).transitions = [] := by
    intro q
    cases q with
    | zero => rfl
    | succ q => rfl
  cases h with
  | done q => rfl
  | epsilon q t w q' hstep _ => rw [hno] at hstep; exact absurd hstep (List.not_mem_nil _)
  | symbol q c t w q' _ hstep _ => rw [hno] at hstep; exact absurd hstep (List.not_mem_nil _)

theorem example_dead_transitions (q : Nat) (tr : transition)
    (h : tr ∈ (example_dead.state_at q).transitions) : tr = ⟨1, 0⟩ := by
  have hq : q < 2 := state_at_lt_of_mem _ q tr h
  interval_cases q
  · exact List.mem_singleton.mp h
  · exact List.mem_singleton.mp h

/-- C3, refuted as stated: the two-state automaton `example_dead` is well-formed
and is a minimal deterministic automaton in the sense of the claim (no epsilon
transition, at most one transition for a state and a symbol, both states
reachable from the start state, and the two states do not accept the same
words), the reversal is faithful at it and at the intermediate automaton, and
the closures computed leave the state out; yet `determinize_minimize` returns an
automaton with one state, not two, which is not `example_dead` up to a
renumbering of the states: state 1, which accepts no word, is dropped.  The
result is the same when the closures include the state itself. -/
theorem determinize_minimize_drops_dead_state :
    WellFormed example_dead ∧
    (∀ q tr, tr ∈ (example_dead.state_at q).transitions → tr.symbol ≠ SYMBOL_EPSILON) ∧
    (∀ q c, ((example_dead.state_at q).transitions.filter
      (fun tr => decide (tr.symbol = c))).length ≤ 1) ∧
    (∀ q, q < example_dead.states.length → dfa_reachable example_dead q) ∧
    (∀ d d', d < example_dead.states.length → d' < example_dead.states.length →
      (∀ w, accepts_from example_dead d w ↔ accepts_from example_dead d' w) → d = d') ∧
    (∀ w, ¬ accepts_from example_dead 1 w) ∧
    (∀ w, accepts (automaton_reverse example_dead) w ↔ accepts example_dead w.reverse) ∧
    (∀ w, accepts (automaton_reverse example_dead_minimized) w ↔
      accepts example_dead_minimized w.reverse) ∧
    closes_properly proper_epsilon_closure (automaton_reverse example_dead) ∧
    closes_properly proper_epsilon_closure (automaton_reverse example_dead_minimized) ∧
    few_subsets (proper_epsilon_closure (automaton_reverse example_dead))
      start_state_options.IGNORE_START_STATE ∧
    few_subsets (proper_epsilon_closure (automaton_reverse example_dead_minimized))
      start_state_options.IGNORE_START_STATE ∧
    determinize_automaton proper_epsilon_closure 3 (automaton_reverse example_dead)
      empty_automaton start_state_options.IGNORE_START_STATE = some example_dead_minimized ∧
    determinize_minimize proper_epsilon_closure automaton_reverse 3 example_dead
      empty_automaton = some example_dead_minimized ∧
    determinize_minimize automaton_compute_epsilon_closure automaton_reverse 3 example_dead
      empty_automaton = some example_dead_minimized ∧
    example_dead.states.length = 2 ∧ example_dead_minimized.states.length = 1 ∧
    ¬ same_up_to_renumbering example_dead example_dead_minimized := by
  have hdead : ∀ w, ¬ accepts_from example_dead 1 w := by
    rintro w ⟨q, hq, hacc⟩
    have := example_dead_stays 1 w q hq rfl
    subst this
    exact absurd hacc (by decide)
  have hreach : ∀ q, q < example_dead.states.length → dfa_reachable example_dead q := by
    intro q hq
    have hq2 : q < 2 := hq
    interval_cases q
    · exact ⟨[], reads.done _⟩
    · exact ⟨[0], reads.symbol 0 0 1 [] 1 (by decide) (List.mem_singleton.mpr rfl)
        (reads.done 1)⟩
  have hacc0 : accepts_from example_dead 0 [] := ⟨0, reads.done 0, by decide⟩
  refine ⟨well_formed_of_check _ (by decide), ?_, ?_, hreach, ?_, hdead,
    automaton_reverse_language _ (targets_valid_of_check _ (by decide)),
    automaton_reverse_language _ (targets_valid_of_check _ (by decide)),
    closes_properly_of_check _ _ (by decide), closes_properly_of_check _ _ (by decide),
    few_subsets_of_state_ids _ _ (by decide), few_subsets_of_state_ids _ _ (by decide),
    by decide, by decide, by decide, rfl, rfl, ?_⟩
  · intro q tr htr
    rw [example_dead_transitions q tr htr]; decide
  · intro q c
    by_cases hq : q < 2
    · interval_cases q
      · by_cases hc : (0 : Nat) = c
        · subst hc; decide
        · have : (example_dead.state_at 0).transitions.filter
              (fun tr => decide (tr.symbol = c)) = [] := by
            apply List.filter_eq_nil_iff.mpr
            intro tr htr
            rw [example_dead_transitions 0 tr htr]
            simpa using hc
          rw [this]; decide
      · by_cases hc : (0 : Nat) = c
        · subst hc; decide
        · have : (example_dead.state_at 1).transitions.filter
              (fun tr => decide (tr.symbol = c)) = [] := by
            apply List.filter_eq_nil_iff.mpr
            intro tr htr
            rw [example_dead_transitions 1 tr htr]
            simpa using hc
          rw [this]; decide
    · have : (example_dead.state_at q).transitions = [] := by
        unfold automaton.state_at
        rw [List.getD_eq_default _ _ (by show 2 ≤ q; omega)]
      rw [this]; exact Nat.zero_le _
  · intro d d' hd hd' heq
    have hd2 : d < 2 := hd
    have hd2' : d' < 2 := hd'
    interval_cases d <;> interval_cases d'
    · rfl
    · exact absurd ((heq []).mp hacc0) (hdead [])
    · exact absurd ((heq []).mpr hacc0) (hdead [])
    · rfl
  · rintro ⟨f, _, hf, hinj, _⟩
    obtain ⟨u0, h0⟩ := hf 0 (hreach 0 (by decide))
    obtain ⟨u1, h1⟩ := hf 1 (hreach 1 (by decide))
    have e0 := example_dead_minimized_stays _ _ _ h0
    have e1 := example_dead_minimized_stays _ _ _ h1
    have := hinj 0 1 (hreach 0 (by decide)) (hreach 1 (by decide)) (by rw [e0, e1])
    exact absurd this (by decide)
theorem Assigned_adopt_new (t : subset_table) (n : Nat) (disc : List (List Nat))
    (h : Assigned t n disc) (s : List Nat) (hs : s ∉ disc) (r : subset_table × Nat)
    (hspec : AdoptSpec t s n r) :
    Assigned r.1 (n + 1) (disc ++ [s]) ∧ r.1.subset_states.getD r.2 0 = n := by
  have habs : ∀ i, t.subsets.getD i none ≠ some s := by
    intro i hi
    exact hs ((h.mem_disc s).mpr ⟨_, i, hi, rfl⟩)
  obtain ⟨hu, _, hid, hent⟩ := hspec.absent habs
  refine ⟨⟨hspec.inv, ?_, ?_, ?_, ?_⟩, hid⟩
  · rw [hu, h.used]; simp
  · rw [h.next]; simp
  · exact List.Nodup.append h.nodup (List.nodup_singleton _)
      (by
        intro x hx hx'
        rw [List.mem_singleton] at hx'
        subst hx'
        exact hs hx)
  · intro S id
    rw [getElem?_append_singleton, ← h.ids S id, stored_iff_entry, stored_iff_entry]
    constructor
    · rintro ⟨hh, he⟩
      rcases (hent _ _ _).mp he with h1 | ⟨h1, _, h3⟩
      · exact Or.inl ⟨hh, h1⟩
      · exact Or.inr ⟨by rw [h3, h.next], h1.symm⟩
    · rintro (⟨hh, he⟩ | ⟨h1, h2⟩)
      · exact ⟨hh, (hent _ _ _).mpr (Or.inl he)⟩
      · exact ⟨_, (hent _ _ _).mpr (Or.inr ⟨h2.symm, rfl, by rw [h1, h.next]⟩)⟩

theorem Assigned_adopt_old (t : subset_table) (n : Nat) (disc : List (List Nat))
    (h : Assigned t n disc) (s : List Nat) (id : Nat) (hs : s ∈ disc) (r : subset_table × Nat)
    (hspec : AdoptSpec t s id r) :
    Assigned r.1 n disc ∧ disc[r.1.subset_states.getD r.2 0]? = some s ∧
      r.1.used_size = t.used_size ∧
      ∀ s' h' id', stored_entry r.1 s' h' id' ↔ stored_entry t s' h' id' := by
  have hex : ∃ i, t.subsets.getD i none = some s := by
    obtain ⟨id', i, hi, _⟩ := (h.mem_disc s).mp hs
    exact ⟨i, hi⟩
  obtain ⟨hu, hent⟩ := hspec.present hex
  have hids : ∀ S id, stored r.1 S id ↔ disc[id]? = some S := by
    intro S id
    rw [← h.ids S id, stored_iff_entry, stored_iff_entry]
    constructor
    · rintro ⟨hh, he⟩; exact ⟨hh, (hent _ _ _).mp he⟩
    · rintro ⟨hh, he⟩; exact ⟨hh, (hent _ _ _).mpr he⟩
  exact ⟨⟨hspec.inv, by rw [hu]; exact h.used, h.next, h.nodup, hids⟩,
    (hids _ _).mp ⟨r.2, hspec.holds, rfl⟩, hu, hent⟩

/-- A sequence of insertions of distinct subsets with the ids in order. -/
theorem adopt_all_spec : ∀ (l done : List (List Nat)) (t : subset_table),
    Assigned t done.length done → reachable_table t → (done ++ l).Nodup →
    (done ++ l).length < 805306368 →
    (t.available_size = 256 ∨ 3 * t.available_size ≤ 8 * done.length) →
    ∃ t', adopt_all t l done.length = some t' ∧
      Assigned t' (done ++ l).length (done ++ l) ∧ reachable_table t' ∧
      (t'.available_size = 256 ∨ 3 * t'.available_size ≤ 8 * (done ++ l).length) := by
  intro l
  induction l with
  | nil =>
    intro done t hA hreach _ _ hcap
    refine ⟨t, rfl, ?_, hreach, ?_⟩
    · rw [List.append_nil]; exact hA
    · rw [List.append_nil]; exact hcap
  | cons s rest ih =>
    intro done t hA hreach hnd hlen hcap
    have hlen' : done.length + (rest.length + 1) < 805306368 := by
      rw [List.length_append, List.length_cons] at hlen; exact hlen
    have hbound : 4 * (t.used_size + 1) < 3 * 2 ^ 30 := by
      rw [hA.used]; omega
    obtain ⟨r, hr, hspec⟩ := adopt_spec t hA.inv hbound s done.length 0
    have hs : s ∉ done := by
      intro hm
      have := (List.nodup_append.mp hnd).2.2
      exact this hm (List.mem_cons_self _ _)
    obtain ⟨hA', _⟩ := Assigned_adopt_new t done.length done hA s hs r hspec
    have hl1 : (done ++ [s]).length = done.length + 1 := by simp
    have happ : done ++ [s] ++ rest = done ++ s :: rest := by simp
    rw [← hl1] at hA'
    obtain ⟨t', h1, h2, h3, h4⟩ := ih (done ++ [s]) r.1 hA'
      (reachable_table.adopt t s done.length 0 r hreach hbound hr)
      (by rw [happ]; exact hnd) (by rw [happ]; exact hlen)
      (by
        rw [hspec.capacity, hl1, hA.used]
        by_cases hc : 3 * t.available_size ≤ 4 * (done.length + 1)
        · rw [if_pos hc]
          by_cases hz : t.available_size = 0
          · rw [if_pos hz]; exact Or.inl rfl
          · rw [if_neg hz]; right; omega
        · rw [if_neg hc]
          rcases hcap with h | h
          · exact Or.inl h
          · right; omega)
    rw [happ, hl1] at *
    refine ⟨t', ?_, h2, h3, h4⟩
    rw [adopt_all]
    simp only [hr]
    exact h1

theorem singletons_length (n : Nat) : (singletons n).length = n := by
  unfold singletons; simp

theorem singletons_nodup (n : Nat) : (singletons n).Nodup := by
  unfold singletons
  exact (List.nodup_range n).map (fun a b h => by simpa using h)

theorem capacity_256 (t : subset_table) (hinv : TableInv t) (h0 : t.available_size ≠ 0)
    (h : t.available_size < 512) : t.available_size = 256 := by
  rcases hinv.size with ⟨hz, _⟩ | ⟨⟨k, hk8, _, hcap⟩, _⟩
  · exact absurd hz h0
  · by_cases hk : k = 8
    · rw [hcap, hk]; rfl
    · exfalso
      have : 2 ^ 9 ≤ 2 ^ k := Nat.pow_le_pow_right (by norm_num) (by omega)
      omega

/-- C11, refuted as stated: after the insertion of the 191 subsets `[0]`, ...,
`[190]` into the empty table, the table has 256 slots of which 191 are used, so
that `4 * (used_size + 1) = 768 = 3 * available_size` and the condition
`4 * (used_size + 1) > 3 * available_size` is false; the next call nevertheless
grows the table to 512 slots. -/
theorem adopt_grows_at_equality :
    ∃ t r, adopt_all empty_table (singletons 191) 0 = some t ∧ reachable_table t ∧
      t.used_size = 191 ∧ t.available_size = 256 ∧
      4 * (t.used_size + 1) ≤ 3 * t.available_size ∧
      ¬ (4 * (t.used_size + 1) > 3 * t.available_size) ∧
      subset_table_adopt_subset 2 t [191] (fnv (subset_bytes [191])) 191 = some r ∧
      r.1.available_size = 512 := by
  obtain ⟨t, h1, hA, hreach, hcap⟩ := adopt_all_spec (singletons 191) [] empty_table
    Assigned_empty reachable_table.empty (by simpa using singletons_nodup 191)
    (by rw [List.nil_append, singletons_length]; norm_num) (Or.inr (by decide))
  rw [List.nil_append, singletons_length] at hA hcap
  have hused : t.used_size = 191 := by rw [hA.used, singletons_length]
  have havail : t.available_size = 256 := by
    apply capacity_256 t hA.inv
    · intro hz
      rcases hA.inv.size with ⟨_, hu⟩ | ⟨_, hl⟩
      · omega
      · omega
    · rcases hcap with h | h <;> omega
  obtain ⟨r, hr, hspec⟩ := adopt_spec t hA.inv (by rw [hused]; norm_num) [191] 191 0
  refine ⟨t, r, h1, hreach, hused, havail, by rw [hused, havail], by rw [hused, havail]; decide,
    hr, ?_⟩
  rw [hspec.capacity, hused, havail]
  rfl

/-- C11, amended: on a table reachable from the empty table, below the capacity
bound, `subset_table_adopt_subset` grows the table on entry (the capacity
doubles, or becomes 256 when it was 0) if and only if
`4 * (used_size + 1) >= 3 * available_size`; when
`4 * (used_size + 1) < 3 * available_size` the capacity is left unchanged. -/
theorem adopt_growth_condition (t : subset_table) (hreach : reachable_table t)
    (hsmall : 4 * (t.used_size + 1) < 3 * 2 ^ 30) (s : List Nat) (id depth : Nat) :
    ∃ r, subset_table_adopt_subset (depth + 2) t s (fnv (subset_bytes s)) id = some r ∧
      (3 * t.available_size ≤ 4 * (t.used_size + 1) →
        r.1.available_size = if t.available_size = 0 then 256 else 2 * t.available_size) ∧
      (4 * (t.used_size + 1) < 3 * t.available_size →
        r.1.available_size = t.available_size) ∧
      (r.1.available_size ≠ t.available_size ↔
        3 * t.available_size ≤ 4 * (t.used_size + 1)) := by
  obtain ⟨r, hr, hspec⟩ := adopt_spec t (reachable_table_inv t hreach) hsmall s id depth
  have hc := hspec.capacity
  refine ⟨r, hr, ?_, ?_, ?_⟩
  · intro h; rw [hc, if_pos h]
  · intro h; rw [hc, if_neg (by omega)]
  · by_cases h : 3 * t.available_size ≤ 4 * (t.used_size + 1)
    · rw [if_pos h] at hc
      by_cases hz : t.available_size = 0
      · rw [if_pos hz] at hc
        exact ⟨fun _ => h, fun _ => by omega⟩
      · rw [if_neg hz] at hc
        exact ⟨fun _ => h, fun _ => by omega⟩
    · rw [if_neg h] at hc
      exact ⟨fun hne => absurd hc hne, fun h' => absurd h' h⟩

/-- C11, amended, at the empty table: the first call grows it to 256 slots. -/
theorem adopt_growth_condition_witness :
    reachable_table empty_table ∧ 4 * (empty_table.used_size + 1) < 3 * 2 ^ 30 ∧
    ∃ r, subset_table_adopt_subset 2 empty_table [0, 1] (fnv (subset_bytes [0, 1])) 0 = some r ∧
      r.1.available_size = 256 ∧ r.1.available_size ≠ empty_table.available_size :=
  ⟨reachable_table.empty, by decide,
    match adopt_growth_condition empty_table reachable_table.empty (by decide) [0, 1] 0 0 with
    | ⟨r, h1, h2, _, _⟩ => ⟨r, h1, h2 (by decide), by rw [h2 (by decide)]; decide⟩⟩

/-- C12: when pairwise distinct subsets are inserted into the empty table with
the ids 0, 1, 2, ..., fewer than `3 * 2 ^ 28 - 1` of them, all the calls return
and afterwards `used_size` is the number of subsets, the stored entries are
exactly the subsets of the sequence, each with the FNV hash it was inserted with
and its position as id, no subset is stored in two slots, and the capacity is
the smallest power of two from 256 on that keeps the load below 3/4 (0 when no
subset was inserted).  Looking up any of the subsets again, with any candidate
id, returns a slot that holds the subset and its original id, and leaves
`used_size` and the stored entries unchanged. -/
theorem adopt_all_keeps_entries (l : List (List Nat)) (hnd : l.Nodup)
    (hlen : l.length < 805306367) :
    ∃ t, adopt_all empty_table l 0 = some t ∧ t.used_size = l.length ∧
      (∀ S h id, stored_entry t S h id ↔ l[id]? = some S ∧ h = fnv (subset_bytes S)) ∧
      (∀ i j S, t.subsets.getD i none = some S → t.subsets.getD j none = some S → i = j) ∧
      (l = [] → t.available_size = 0) ∧
      (l ≠ [] → (∃ k, 8 ≤ k ∧ t.available_size = 2 ^ k) ∧
        4 * l.length < 3 * t.available_size ∧
        (t.available_size = 256 ∨ 3 * t.available_size ≤ 8 * l.length)) ∧
      ∀ id S, l[id]? = some S → ∀ candidate depth,
        ∃ r, subset_table_adopt_subset (depth + 2) t S (fnv (subset_bytes S)) candidate
            = some r ∧
          r.1.subsets.getD r.2 none = some S ∧
          r.1.subset_hashes.getD r.2 0 = fnv (subset_bytes S) ∧
          r.1.subset_states.getD r.2 0 = id ∧
          r.1.used_size = t.used_size ∧
          ∀ S' h' id', stored_entry r.1 S' h' id' ↔ stored_entry t S' h' id' := by
  obtain ⟨t, h1, hA, hreach, hcap⟩ := adopt_all_spec l [] empty_table
    Assigned_empty reachable_table.empty (by simpa using hnd)
    (by rw [List.nil_append]; omega) (Or.inr (by decide))
  rw [List.nil_append] at hA hcap
  have hent : ∀ S h id, stored_entry t S h id ↔ l[id]? = some S ∧ h = fnv (subset_bytes S) := by
    intro S h id
    constructor
    · rintro ⟨i, hi1, hi2, hi3⟩
      exact ⟨(hA.ids S id).mp ⟨i, hi1, hi3⟩, by rw [← hi2, hA.inv.hash_ok i S hi1]⟩
    · rintro ⟨hid, hh⟩
      obtain ⟨i, hi1, hi3⟩ := (hA.ids S id).mpr hid
      exact ⟨i, hi1, by rw [hh, hA.inv.hash_ok i S hi1], hi3⟩
  refine ⟨t, h1, hA.used, hent, hA.inv.nodup, ?_, ?_, ?_⟩
  · intro hl
    rw [hl] at h1
    have : t = empty_table := (Option.some.inj h1).symm
    rw [this]; rfl
  · intro hl
    have hpos : 0 < l.length := List.length_pos.mpr hl
    rcases hA.inv.size with ⟨_, hu⟩ | ⟨⟨k, hk8, _, hk⟩, hload⟩
    · rw [hA.used] at hu; omega
    · exact ⟨⟨k, hk8, hk⟩, by rw [← hA.used]; exact hload, hcap⟩
  · intro id S hid candidate depth
    obtain ⟨r, hr, hspec⟩ := adopt_spec t hA.inv (by rw [hA.used]; omega) S candidate depth
    obtain ⟨hA', hd, hu, he⟩ := Assigned_adopt_old t l.length l hA S candidate
      (List.mem_iff_getElem?.mpr ⟨id, hid⟩) r hspec
    refine ⟨r, hr, hspec.holds, hspec.inv.hash_ok _ _ hspec.holds, ?_, hu, he⟩
    have hl1 := getElem?_some_lt _ _ _ hd
    have hl2 := getElem?_some_lt _ _ _ hid
    rw [List.getElem?_eq_getElem hl1] at hd
    rw [List.getElem?_eq_getElem hl2] at hid
    exact (List.Nodup.getElem_inj_iff hnd).mp
      ((Option.some.inj hd).trans (Option.some.inj hid).symm)

/-- C12 at 193 subsets, which cross the growth from 256 to 512 slots. -/
theorem adopt_all_keeps_entries_witness :
    (singletons 193).Nodup ∧ (singletons 193).length < 805306367 ∧
    ∃ t, adopt_all empty_table (singletons 193) 0 = some t ∧ t.used_size = 193 ∧
      t.available_size = 512 ∧
      (∀ S h id, stored_entry t S h id ↔
        (singletons 193)[id]? = some S ∧ h = fnv (subset_bytes S)) ∧
      ∃ r, subset_table_adopt_subset 2 t [7] (fnv (subset_bytes [7])) 193 = some r ∧
        r.1.subset_states.getD r.2 0 = 7 ∧ r.1.used_size = t.used_size :=
  ⟨singletons_nodup 193, by rw [singletons_length]; norm_num,
    match adopt_all_keeps_entries (singletons 193) (singletons_nodup 193)
      (by rw [singletons_length]; norm_num) with
    | ⟨t, h1, h2, h3, _, _, h6, h7⟩ =>
      ⟨t, h1, by rw [h2, singletons_length],
        (by
          have hne : singletons 193 ≠ [] := by
            intro h
            have := singletons_length 193
            rw [h] at this
            exact absurd this (by decide)
          obtain ⟨⟨k, hk8, hk⟩, hload, hc⟩ := h6 hne
          rw [singletons_length] at hload hc
          have hk9 : k = 9 := by
            by_contra hne9
            rcases Nat.lt_or_gt_of_ne hne9 with hlt | hgt
            · have : k = 8 := by omega
              rw [this] at hk
              rw [hk] at hload
              norm_num at hload
            · have : 2 ^ 10 ≤ 2 ^ k := Nat.pow_le_pow_right (by norm_num) hgt
              rcases hc with hc | hc <;> omega
          rw [hk, hk9]; rfl),
        h3,
        match h7 7 [7] (by unfold singletons; simp) 193 0 with
        | ⟨r, e1, _, _, e4, e5, _⟩ => ⟨r, e1, e4, e5⟩⟩⟩

theorem example_table_reachable : reachable_table example_table := by
  obtain ⟨t, h1, _, h3, _⟩ := adopt_all_spec [[0, 1], [2], [0, 2]] [] empty_table
    Assigned_empty reachable_table.empty (by decide) (by decide) (Or.inr (by decide))
  unfold example_table
  rw [show adopt_all empty_table [[0, 1], [2], [0, 2]] 0 = some t from h1]
  exact h3

theorem example_table_used : example_table.used_size = 3 := by decide

/-- C13: in a table reachable from the empty table by calls that pass each
subset with its FNV hash, no subset is held by two slots, and every entry is
reached from the home slot of its hash through occupied slots only.  A lookup of
a stored subset returns a slot that holds it, with the id stored for it, and
adds no entry; when the table does not have to grow, the table is unchanged and
the slot is the one that held the subset. -/
theorem no_duplicate_subsets (t : subset_table) (hreach : reachable_table t) :
    (∀ i j s, t.subsets.getD i none = some s → t.subsets.getD j none = some s → i = j) ∧
    (∀ i s, t.subsets.getD i none = some s → ∀ d, d < t.available_size →
      (fnv (subset_bytes s) % t.available_size + d) % t.available_size = i →
      ∀ e, e < d →
        t.subsets.getD ((fnv (subset_bytes s) % t.available_size + e) % t.available_size) none
          ≠ none) ∧
    (4 * (t.used_size + 1) < 3 * 2 ^ 30 →
      ∀ i s, t.subsets.getD i none = some s → ∀ candidate depth,
        ∃ r, subset_table_adopt_subset (depth + 2) t s (fnv (subset_bytes s)) candidate
            = some r ∧
          r.1.subsets.getD r.2 none = some s ∧
          r.1.subset_states.getD r.2 0 = t.subset_states.getD i 0 ∧
          r.1.used_size = t.used_size ∧
          (∀ i j s, r.1.subsets.getD i none = some s → r.1.subsets.getD j none = some s →
            i = j) ∧
          (4 * (t.used_size + 1) < 3 * t.available_size → r = (t, i))) := by
  have hinv := reachable_table_inv t hreach
  refine ⟨hinv.nodup, hinv.probe_ok, ?_⟩
  intro hsmall i s hi candidate depth
  obtain ⟨r, hr, hspec⟩ := adopt_spec t hinv hsmall s candidate depth
  obtain ⟨hu, hent⟩ := hspec.present ⟨i, hi⟩
  refine ⟨r, hr, hspec.holds, ?_, hu, hspec.inv.nodup, ?_⟩
  · obtain ⟨j, hj1, _, hj3⟩ := (hent s _ _).mp ⟨r.2, hspec.holds, rfl, rfl⟩
    rw [← hj3, hinv.nodup i j s hi hj1]
  · intro hload
    rcases hinv.size with ⟨hz, _⟩ | ⟨⟨k, hk8, hk, hcap⟩, _⟩
    · rw [hz] at hload; omega
    · obtain ⟨r', hr', _, _, ho2, _⟩ := adopt_no_growth t hinv k hk8 hk hcap hload s candidate
        (depth + 1)
      rw [hr] at hr'
      have hrr := Option.some.inj hr'
      subst hrr
      obtain ⟨e1, e2⟩ := ho2 ⟨i, hi⟩
      exact Prod.ext e1 (hinv.nodup _ _ s e2 hi)

/-- C13 at the table that holds `[0, 1]`, `[2]` and `[0, 2]`. -/
theorem no_duplicate_subsets_witness :
    reachable_table example_table ∧ example_table.used_size = 3 ∧
    ∀ i j s, example_table.subsets.getD i none = some s →
      example_table.subsets.getD j none = some s → i = j :=
  ⟨example_table_reachable, example_table_used,
    (no_duplicate_subsets example_table example_table_reachable).1⟩

/-- The probe loop for any subset and any hash value, on a table with an empty
slot: it ends at a matching entry or at an empty slot, which it fills. -/
theorem probe_returns (t : subset_table) (hinv : TableInv t) (k : Nat) (hk8 : 8 ≤ k)
    (hk : k ≤ 30) (hcap : t.available_size = 2 ^ k)
    (hload : 4 * (t.used_size + 1) < 3 * t.available_size) (s : List Nat) (h id : Nat) :
    ∃ r, probe s h id ((t.available_size + 2 ^ 32 - 1) % 2 ^ 32) t.available_size t
          (h &&& ((t.available_size + 2 ^ 32 - 1) % 2 ^ 32)) = some r ∧
      r.2 < t.available_size ∧
      ((r.1 = t ∧ t.subsets.getD r.2 none = some s ∧ t.subset_hashes.getD r.2 0 = h) ∨
       (t.subsets.getD r.2 none = none ∧ r.1 = filled t r.2 s h id)) := by
  have hpos : 0 < 2 ^ k := Nat.two_pow_pos k
  have hle : 2 ^ k ≤ 2 ^ 30 := Nat.pow_le_pow_right (by norm_num) hk
  have hmask : (t.available_size + 2 ^ 32 - 1) % 2 ^ 32 = 2 ^ k - 1 := by
    rw [hcap]; exact mask_eq _ hpos (by omega)
  have hempty : ∃ j, j < 2 ^ k ∧ t.subsets.getD j none = none := by
    have := exists_empty_slot t hinv (by omega)
    rwa [hcap] at this
  obtain ⟨r, hr, hcases⟩ := probe_spec t k (by omega) hk s h id hempty
    (2 ^ k) 0 rfl hpos (fun e he => by omega)
  rw [hmask, Nat.and_pow_two_sub_one_eq_mod, hcap]
  rw [Nat.add_zero, Nat.mod_mod] at hr
  refine ⟨r, hr, ?_, ?_⟩
  · rcases hcases with ⟨_, _, _, h4⟩ | ⟨d', hd', hidx, _⟩
    · exact h4
    · rw [hidx]; exact Nat.mod_lt _ hpos
  · rcases hcases with ⟨h1, h2, h3, _⟩ | ⟨d', _, _, hnone, _, hfill⟩
    · exact Or.inl ⟨h1, h2, h3⟩
    · exact Or.inr ⟨hnone, hfill⟩

theorem mask_lt (c k : Nat) (hk : k ≤ 30) (hc : c = 2 ^ k) (x : Nat) :
    x &&& ((c + 2 ^ 32 - 1) % 2 ^ 32) < c := by
  have hpos : 0 < 2 ^ k := Nat.two_pow_pos k
  have hle : 2 ^ k ≤ 2 ^ 30 := Nat.pow_le_pow_right (by norm_num) hk
  rw [hc, mask_eq _ hpos (by omega), Nat.and_pow_two_sub_one_eq_mod]
  exact Nat.mod_lt _ hpos

/-- The table on which `subset_table_adopt_subset` runs its probe loop: the
table it was given or, after a growth, a table of twice the capacity with the
same entries. -/
theorem adopt_returns (t : subset_table) (hinv : TableInv t)
    (hbound : 4 * (t.used_size + 1) < 3 * 2 ^ 30) (s : List Nat) (h id depth : Nat) :
    ∃ r t1 k, subset_table_adopt_subset (depth + 2) t s h id = some r ∧
      TableInv t1 ∧ 8 ≤ k ∧ k ≤ 30 ∧ t1.available_size = 2 ^ k ∧
      t1.used_size = t.used_size ∧ 4 * (t1.used_size + 1) < 3 * t1.available_size ∧
      r.2 < t1.available_size ∧
      ((r.1 = t1 ∧ t1.subsets.getD r.2 none = some s ∧ t1.subset_hashes.getD r.2 0 = h) ∨
       (t1.subsets.getD r.2 none = none ∧ r.1 = filled t1 r.2 s h id)) := by
  rw [subset_table_adopt_subset]
  rcases hinv.size with ⟨hz, hu0⟩ | ⟨⟨k, hk8, hk, hcap⟩, hload0⟩
  · have hcond : 3 * t.available_size % 2 ^ 32 ≤ 4 * (t.used_size + 1) % 2 ^ 32 := by
      rw [hz, hu0]; decide
    have hn : (if t.available_size * 2 % 2 ^ 32 = 0 then 256
        else t.available_size * 2 % 2 ^ 32) = 2 ^ 8 := by
      rw [hz]; rfl
    simp only [if_pos hcond, hn]
    have hre : reinsert (subset_table_adopt_subset (depth + 1)) t
        (List.range t.available_size) (fresh_table (2 ^ 8)) = some (fresh_table (2 ^ 8)) := by
      rw [hz]; rfl
    rw [hre]
    have hf := TableInv_fresh 8 (le_refl 8) (by norm_num)
    obtain ⟨r, hr, h1, h2⟩ := probe_returns (fresh_table (2 ^ 8)) hf 8 (le_refl 8)
      (by norm_num) rfl (by show 4 * (0 + 1) < 3 * 2 ^ 8; norm_num) s h id
    exact ⟨r, fresh_table (2 ^ 8), 8, hr, hf, le_refl 8, by norm_num, rfl,
      by rw [hu0]; rfl, by show 4 * (0 + 1) < 3 * 2 ^ 8; norm_num, h1, h2⟩
  · have hpos : 0 < 2 ^ k := Nat.two_pow_pos k
    have hle : 2 ^ k ≤ 2 ^ 30 := Nat.pow_le_pow_right (by norm_num) hk
    have hm1 : 3 * t.available_size % 2 ^ 32 = 3 * t.available_size :=
      Nat.mod_eq_of_lt (by omega)
    have hm2 : 4 * (t.used_size + 1) % 2 ^ 32 = 4 * (t.used_size + 1) :=
      Nat.mod_eq_of_lt (by omega)
    rw [hm1, hm2]
    by_cases hcond : 3 * t.available_size ≤ 4 * (t.used_size + 1)
    · have hk30 : k + 1 ≤ 30 := by
        by_contra hc
        have : k = 30 := by omega
        subst this
        omega
      have hn : (if t.available_size * 2 % 2 ^ 32 = 0 then 256
          else t.available_size * 2 % 2 ^ 32) = 2 ^ (k + 1) := by
        rw [hcap, Nat.mod_eq_of_lt (by omega), if_neg (by omega), pow_succ]
      simp only [if_pos hcond, hn]
      have hfl := filter_range_length t
      rw [← hinv.used] at hfl
      have hfnone : ∀ i, (fresh_table (2 ^ (k + 1))).subsets.getD i none = none := by
        intro i; exact getD_replicate_eq _ _ _ _ rfl
      obtain ⟨t1, ht1, hinv1, hcap1, hused1, _⟩ := reinsert_spec t hinv (k + 1) (by omega)
        hk30 depth (List.range t.available_size) (fresh_table (2 ^ (k + 1)))
        (List.nodup_range _) (TableInv_fresh (k + 1) (by omega) hk30) rfl
        (by
          rintro s' ⟨i, hi⟩
          rw [hfnone i] at hi; exact Option.noConfusion hi)
        (by
          rw [hfl]
          show 4 * (0 + t.used_size) < 3 * 2 ^ (k + 1)
          rw [pow_succ]; omega)
      rw [ht1]
      have hused1' : t1.used_size = t.used_size := by
        rw [hused1, hfl]; show 0 + t.used_size = t.used_size; omega
      have hload1 : 4 * (t1.used_size + 1) < 3 * t1.available_size := by
        have hk256 : 2 ^ 8 ≤ 2 ^ k := Nat.pow_le_pow_right (by norm_num) hk8
        rw [hused1', hcap1, pow_succ]; omega
      obtain ⟨r, hr, h1, h2⟩ := probe_returns t1 hinv1 (k + 1) (by omega) hk30 hcap1 hload1
        s h id
      exact ⟨r, t1, k + 1, hr, hinv1, by omega, hk30, hcap1, hused1', hload1, h1, h2⟩
    · simp only [if_neg hcond]
      obtain ⟨r, hr, h1, h2⟩ := probe_returns t hinv k hk8 hk hcap (by omega) s h id
      exact ⟨r, t, k, hr, hinv, hk8, hk, hcap, rfl, by omega, h1, h2⟩

/-- C14: on a table reachable from the empty table, while the capacity needed
stays within `2 ^ 30` slots, `subset_table_adopt_subset` returns for every subset
and every hash value: the probe loop does not reach `abort()`.  It ends at a
matching entry, and the table is the one probed, or at an empty slot, which it
fills.  The returned index and every index `x & mask` that the loop can compute
are below `available_size`, which is the length of the three arrays. -/
theorem probe_never_aborts (t : subset_table) (hreach : reachable_table t)
    (hsmall : 4 * (t.used_size + 1) < 3 * 2 ^ 30) (s : List Nat) (hash id depth : Nat) :
    ∃ r, subset_table_adopt_subset (depth + 2) t s hash id = some r ∧
      r.2 < r.1.available_size ∧ r.1.available_size ≤ 2 ^ 30 ∧
      (∀ x, x &&& ((r.1.available_size + 2 ^ 32 - 1) % 2 ^ 32) < r.1.available_size) ∧
      r.1.subsets.length = r.1.available_size ∧
      r.1.subset_hashes.length = r.1.available_size ∧
      r.1.subset_states.length = r.1.available_size ∧
      r.1.subsets.getD r.2 none = some s ∧ r.1.subset_hashes.getD r.2 0 = hash ∧
      (r.1.used_size = t.used_size ∨
        (r.1.used_size = t.used_size + 1 ∧ r.1.subset_states.getD r.2 0 = id)) := by
  obtain ⟨r, t1, k, hr, hinv1, _, hk, hcap1, hused1, hload1, hlt, hcases⟩ :=
    adopt_returns t (reachable_table_inv t hreach) hsmall s hash id depth
  have hle : 2 ^ k ≤ 2 ^ 30 := Nat.pow_le_pow_right (by norm_num) hk
  refine ⟨r, hr, ?_⟩
  rcases hcases with ⟨e1, e2, e3⟩ | ⟨e1, e2⟩
  · rw [e1]
    exact ⟨hlt, by rw [hcap1]; exact hle, mask_lt _ k hk hcap1, hinv1.len_subsets,
      hinv1.len_hashes, hinv1.len_states, e2, e3, Or.inl hused1⟩
  · rw [e2]
    refine ⟨hlt, by show t1.available_size ≤ _; rw [hcap1]; exact hle, mask_lt _ k hk hcap1,
      ?_, ?_, ?_, ?_, ?_, Or.inr ⟨?_, ?_⟩⟩
    · show (t1.subsets.set r.2 (some s)).length = t1.available_size
      rw [List.length_set]; exact hinv1.len_subsets
    · show (t1.subset_hashes.set r.2 hash).length = t1.available_size
      rw [List.length_set]; exact hinv1.len_hashes
    · show (t1.subset_states.set r.2 id).length = t1.available_size
      rw [List.length_set]; exact hinv1.len_states
    · show (t1.subsets.set r.2 (some s)).getD r.2 none = some s
      rw [getD_set_eq, if_pos ⟨rfl, by rw [hinv1.len_subsets]; exact hlt⟩]
    · show (t1.subset_hashes.set r.2 hash).getD r.2 0 = hash
      rw [getD_set_eq, if_pos ⟨rfl, by rw [hinv1.len_hashes]; exact hlt⟩]
    · show (t1.used_size + 1) % 2 ^ 32 = t.used_size + 1
      rw [hused1, Nat.mod_eq_of_lt (by omega)]
    · show (t1.subset_states.set r.2 id).getD r.2 0 = id
      rw [getD_set_eq, if_pos ⟨rfl, by rw [hinv1.len_states]; exact hlt⟩]

/-- C14 at the table that holds `[0, 1]`, `[2]` and `[0, 2]`, for a subset and a
hash value that is not its FNV hash. -/
theorem probe_never_aborts_witness :
    reachable_table example_table ∧ 4 * (example_table.used_size + 1) < 3 * 2 ^ 30 ∧
    ∃ r, subset_table_adopt_subset 2 example_table [5] 12345 3 = some r ∧
      r.2 < r.1.available_size ∧ r.1.subsets.getD r.2 none = some [5] :=
  ⟨example_table_reachable, by rw [example_table_used]; norm_num,
    match probe_never_aborts example_table example_table_reachable
      (by rw [example_table_used]; norm_num) [5] 12345 3 0 with
    | ⟨r, h1, h2, _, _, _, _, _, h8, _⟩ => ⟨r, h1, h2, h8⟩⟩

/-- The first call of `deterministic_state_for_subset` establishes the invariant
of the worklist loop, with one subset discovered and one worklist entry. -/
theorem DetInv_initial (cl : automaton → automaton) (a : automaton)
    (options : start_state_options) :
    ∃ r, deterministic_state_for_subset empty_table [] (initial_subset (cl a) options) 0
        = some r ∧
      r.worklist.length = 1 ∧
      DetInv (cl a) options
        { subsets := r.table, worklist := r.worklist, next_state := r.next_state,
          next_subset := r.states,
          result := { empty_automaton with start_state := r.state } }
        none [canonicalize (initial_subset (cl a) options)] := by
  obtain ⟨r, hr, hrs, hcases⟩ := resolve_spec empty_table [] (initial_subset (cl a) options) 0 []
    Assigned_empty (by simp)
  rcases hcases with ⟨hmem, _⟩ | ⟨_, hA, hwl, hnext, hstate⟩
  · exact absurd hmem (List.not_mem_nil _)
  · rw [List.nil_append] at hA
    refine ⟨r, hr, by rw [hwl]; rfl, ?_⟩
    have hblank : ∀ id, blank { empty_automaton with start_state := r.state } id :=
      fun id => rfl
    refine ⟨hA, ?_, ⟨rfl, hstate⟩, ?_, ?_, fun _ _ _ he => Option.noConfusion he,
      fun p _ => hblank p.2, fun id _ => hblank id, fun _ _ _ he => Option.noConfusion he,
      ?_, hrs, Nat.zero_le _⟩
    · intro S hS
      rw [List.mem_singleton] at hS
      subst hS
      exact reachable_subset.start
    · intro p hp
      change p ∈ r.worklist at hp
      rw [hwl, List.mem_singleton] at hp
      subst hp
      exact (hA.ids _ _).mpr rfl
    · show (r.worklist.map Prod.snd).Nodup
      rw [hwl]; simp
    · intro S' id' hs hn _
      exfalso
      have h1 := (hA.ids S' id').mp hs
      have hlt := getElem?_some_lt _ _ _ h1
      simp only [List.length_singleton] at hlt
      apply hn
      show id' ∈ r.worklist.map Prod.snd
      rw [hwl]
      have : id' = 0 := by omega
      subst this
      simp

/-- The worklist loop runs once for each entry of the worklist and once for each
subset discovered on the way: it returns exactly when the bound on the number of
iterations exceeds this count. -/
theorem loop_count (a : automaton) (options : start_state_options)
    (hfew : few_subsets a options) :
    ∀ (m : Nat) (s : determinize_state) (disc : List (List Nat)),
      2 * (805306367 - disc.length) + s.worklist.length ≤ m →
      DetInv a options s none disc →
      ∃ s' extra, DetInv a options s' none (disc ++ extra) ∧ s'.worklist = [] ∧
        ∀ fuel, determinize_loop a fuel s
          = if s.worklist.length + extra.length < fuel then some s' else none := by
  have hnil : ∀ (s : determinize_state) (disc : List (List Nat)), s.worklist = [] →
      DetInv a options s none disc →
      ∃ s' extra, DetInv a options s' none (disc ++ extra) ∧ s'.worklist = [] ∧
        ∀ fuel, determinize_loop a fuel s
          = if s.worklist.length + extra.length < fuel then some s' else none := by
    intro s disc hwl h
    refine ⟨s, [], by rw [List.append_nil]; exact h, hwl, ?_⟩
    intro fuel
    cases fuel with
    | zero => rw [determinize_loop, hwl]; rfl
    | succ fuel =>
      rw [determinize_loop, hwl]
      simp
  intro m
  induction m with
  | zero =>
    intro s disc hm h
    have hwl : s.worklist = [] := List.length_eq_zero.mp (by omega)
    exact hnil s disc hwl h
  | succ m ih =>
    intro s disc hm h
    obtain hwl | ⟨p, rest, hwl⟩ : s.worklist = [] ∨ ∃ p rest, s.worklist = p :: rest := by
      cases s.worklist with
      | nil => exact Or.inl rfl
      | cons p rest => exact Or.inr ⟨p, rest, rfl⟩
    · exact hnil s disc hwl h
    · obtain ⟨S, id⟩ := p
      have h1 := DetInv_pop a options s S id rest disc h hwl
      obtain ⟨s2, extra, he, h2, hl⟩ := explore_spec a options hfew S id
        (List.range a.number_of_symbols) [] _ disc (List.nil_append _) h1
      have h3 := DetInv_close a options s2 S id _ h2
      have hb := few_subsets_bound a options hfew s2 _ _ h3
      rw [List.length_append] at hb
      simp only at hl
      rw [hwl, List.length_cons] at hm
      obtain ⟨s', extra', h4, h5, h6⟩ := ih s2 (disc ++ extra)
        (by rw [List.length_append, hl]; omega) h3
      refine ⟨s', extra ++ extra', by rw [← List.append_assoc]; exact h4, h5, ?_⟩
      intro fuel
      cases fuel with
      | zero =>
        rw [determinize_loop, if_neg (by omega)]
      | succ fuel =>
        rw [determinize_loop]
        simp only [hwl, he]
        rw [h6 fuel, hl]
        simp only [List.length_cons, List.length_append]
        by_cases hc : rest.length + extra.length + extra'.length < fuel
        · rw [if_pos hc, if_pos (by omega)]
        · rw [if_neg hc, if_neg (by omega)]

/-- The run of `determinize_automaton` returns exactly when the bound on the
number of iterations of the worklist loop exceeds the number of deterministic
states created. -/
theorem run_count (cl : automaton → automaton) (a : automaton) (options : start_state_options)
    (hfew : few_subsets (cl a) options) :
    ∃ s disc, DetInv (cl a) options s none disc ∧ s.worklist = [] ∧
      ∀ fuel, determinize_run cl fuel a empty_automaton options
        = if s.next_state < fuel then some s else none := by
  obtain ⟨r, hr, hwl, hinit⟩ := DetInv_initial cl a options
  obtain ⟨s', extra, h1, h2, h3⟩ := loop_count (cl a) options hfew _ _ _ (le_refl _) hinit
  refine ⟨s', _, h1, h2, ?_⟩
  intro fuel
  unfold determinize_run
  simp only [hr]
  rw [h3 fuel]
  have hn : s'.next_state = 1 + extra.length := by
    rw [h1.assigned.next, List.length_append, List.length_singleton]
  show (if r.worklist.length + extra.length < fuel then some s' else none) = _
  rw [hwl, hn]

theorem reachable_subset_lt (a : automaton) (hwf : WellFormed a)
    (options : start_state_options) (S : List Nat) (h : reachable_subset a options S) :
    ∀ x, x ∈ S → x < a.states.length := by
  induction h with
  | start =>
    intro x hx
    rw [mem_canonicalize, mem_initial_subset a hwf] at hx
    exact epsilon_reachable_valid a hwf _ _ hx hwf.start_valid
  | step S c _ _ _ _ =>
    intro x hx
    rw [mem_canonicalize, mem_successors, in_successors_iff a hwf.usable] at hx
    obtain ⟨q, _, t, ht, hx⟩ := hx
    exact epsilon_reachable_valid a hwf _ _ hx (hwf.targets_valid _ _ ht)

theorem few_subsets_of_length (a : automaton) (hwf : WellFormed a)
    (options : start_state_options) (hn : a.states.length ≤ 29) : few_subsets a options := by
  intro l hnd hl
  have h1 := length_le_two_pow (List.range a.states.length) l hnd
    (fun S hS => reachable_subset_sorted _ _ S (hl S hS))
    (fun S hS x hx => List.mem_range.mpr (reachable_subset_lt _ hwf options S (hl S hS) x hx))
  rw [List.length_range] at h1
  have h2 : 2 ^ a.states.length ≤ 2 ^ 29 := Nat.pow_le_pow_right (by norm_num) hn
  omega

/-- C16: for a well-formed automaton with `n` states, `n` at most 29 or the
subsets met by the subset construction fewer than `3 * 2 ^ 28 - 1`,
`determinize_automaton` terminates: the run returns a final state with an empty
worklist as soon as the bound on the number of iterations of the worklist loop
exceeds the final value of `next_state`, and not before, so that the loop body
runs once for each deterministic state created, that is for each distinct
canonical subset discovered (`used_size` of the table); and this number is at
least 1 and at most `2 ^ n`. -/
theorem determinize_terminates (cl : automaton → automaton) (a : automaton)
    (options : start_state_options) (hwf : WellFormed (cl a))
    (hsize : (cl a).states.length ≤ 29 ∨ few_subsets (cl a) options) :
    ∃ s, (∀ fuel, determinize_run cl fuel a empty_automaton options
        = if s.next_state < fuel then some s else none) ∧
      s.worklist = [] ∧ s.subsets.used_size = s.next_state ∧
      (∀ S S' id, stored s.subsets S id → stored s.subsets S' id → S = S') ∧
      (∀ id, id < s.next_state ↔ ∃ S, stored s.subsets S id) ∧
      1 ≤ s.next_state ∧ s.next_state ≤ 2 ^ (cl a).states.length := by
  have hfew : few_subsets (cl a) options := by
    rcases hsize with h | h
    · exact few_subsets_of_length (cl a) hwf options h
    · exact h
  obtain ⟨s, disc, hinv, hwl, hrun⟩ := run_count cl a options hfew
  have hA := hinv.assigned
  refine ⟨s, hrun, hwl, by rw [hA.used, hA.next], ?_, ?_, ?_, ?_⟩
  · intro S S' id h1 h2
    have e1 := (hA.ids _ _).mp h1
    have e2 := (hA.ids _ _).mp h2
    rw [e1] at e2
    exact Option.some.inj e2
  · intro id
    constructor
    · intro hlt
      rw [hA.next] at hlt
      exact ⟨disc[id], (hA.ids _ _).mpr (List.getElem?_eq_getElem hlt)⟩
    · rintro ⟨S, hS⟩
      exact hA.stored_lt hS
  · rw [hA.next]
    have := getElem?_some_lt _ _ _ hinv.start.1
    omega
  · rw [hA.next]
    have := length_le_two_pow (List.range (cl a).states.length) disc hA.nodup
      (fun S hS => reachable_subset_sorted _ _ S (hinv.reach S hS))
      (fun S hS x hx => List.mem_range.mpr
        (reachable_subset_lt _ hwf options S (hinv.reach S hS) x hx))
    rwa [List.length_range] at this

theorem example_nfa_two_iterations :
    determinize_run id 2 example_nfa empty_automaton
        start_state_options.INCLUDE_START_STATE = none ∧
    (determinize_run id 3 example_nfa empty_automaton
        start_state_options.INCLUDE_START_STATE).isSome = true := by
  constructor <;> decide

/-- C16 at the three-state example: two deterministic states are created, the
loop body runs twice, and the run returns exactly for a bound above 2. -/
theorem determinize_terminates_witness :
    WellFormed (id example_nfa) ∧ (id example_nfa).states.length ≤ 29 ∧
    ∃ s, (∀ fuel, determinize_run id fuel example_nfa empty_automaton
          start_state_options.INCLUDE_START_STATE
        = if s.next_state < fuel then some s else none) ∧
      s.next_state = 2 ∧ s.next_state ≤ 2 ^ 3 :=
  ⟨example_nfa_well_formed, by decide,
    match determinize_terminates id example_nfa start_state_options.INCLUDE_START_STATE
      example_nfa_well_formed (Or.inl (by decide)) with
    | ⟨s, h1, _, _, _, _, _, h7⟩ =>
      ⟨s, h1,
        (by
          have e2 := h1 2
          have e3 := h1 3
          rw [example_nfa_two_iterations.1] at e2
          have h3 := example_nfa_two_iterations.2
          rw [e3] at h3
          by_cases c2 : s.next_state < 2
          · rw [if_pos c2] at e2; exact Option.noConfusion e2
          · by_cases c3 : s.next_state < 3
            · omega
            · rw [if_neg c3] at h3; exact Bool.noConfusion h3),
        h7⟩⟩

theorem fnv_append (d : List Nat) (b : Nat) :
    fnv (d ++ [b]) = (fnv d ^^^ b) * fnvPrime % 2 ^ 32 := by
  unfold fnv
  rw [List.foldl_append]
  rfl

theorem fnv_lt (d : List Nat) : fnv d < 2 ^ 32 := by
  rcases List.eq_nil_or_concat d with h | ⟨d', b, h⟩
  · rw [h]; decide
  · rw [h, List.concat_eq_append, fnv_append]
    exact Nat.mod_lt _ (by norm_num)

theorem subset_bytes_cons (x : Nat) (l : List Nat) :
    subset_bytes (x :: l) = state_id_bytes x ++ subset_bytes l := by
  unfold subset_bytes
  simp

theorem subset_bytes_length (l : List Nat) : (subset_bytes l).length = 4 * l.length := by
  induction l with
  | nil => rfl
  | cons x l ih =>
    rw [subset_bytes_cons, List.length_append, ih, List.length_cons]
    show 4 + 4 * l.length = 4 * (l.length + 1)
    omega

/-- The hash that `deterministic_state_for_subset` stores for a subset. -/
theorem resolve_stores_hash (t : subset_table) (hinv : TableInv t)
    (hsmall : 4 * (t.used_size + 1) < 3 * 2 ^ 30) (wl : worklist) (states : List Nat)
    (next_state : Nat) :
    ∃ r, deterministic_state_for_subset t wl states next_state = some r ∧
      stored_entry r.table (canonicalize states) (fnv (subset_bytes (canonicalize states)))
        r.state := by
  obtain ⟨r0, hr0, hspec⟩ := adopt_spec t hinv hsmall (canonicalize states) next_state 0
  have hst : stored_entry r0.1 (canonicalize states) (fnv (subset_bytes (canonicalize states)))
      (r0.1.subset_states.getD r0.2 0) :=
    ⟨r0.2, hspec.holds, hspec.inv.hash_ok _ _ hspec.holds, rfl⟩
  unfold deterministic_state_for_subset
  simp only [hr0]
  by_cases hc : r0.1.subset_states.getD r0.2 0 = next_state
  · rw [if_pos hc]; exact ⟨_, rfl, hst⟩
  · rw [if_neg hc]; exact ⟨_, rfl, hst⟩

/-- C15: `fnv` is the 32-bit FNV-1a hash.  The hash of the empty byte sequence
is `0x811c9dc5`, one more byte `b` turns the hash `h` into
`((h XOR b) * 0x01000193) mod 2 ^ 32`, and every hash is below `2 ^ 32`.  The
bytes hashed for a subset are the four bytes of each of its ids, least
significant first, in the order of the ids; the empty subset hashes to
`0x811c9dc5`; and the hash that `deterministic_state_for_subset` stores with a
subset is the hash of the bytes of its canonical sequence. -/
theorem fnv_is_fnv1a :
    fnv [] = 0x811c9dc5 ∧
    (∀ (d : List Nat) (b : Nat), fnv (d ++ [b]) = (fnv d ^^^ b) * 0x01000193 % 2 ^ 32) ∧
    (∀ d : List Nat, fnv d < 2 ^ 32) ∧
    subset_bytes [] = [] ∧
    (∀ (x : Nat) (l : List Nat), subset_bytes (x :: l) = state_id_bytes x ++ subset_bytes l) ∧
    (∀ x : Nat, ∃ b0 b1 b2 b3, state_id_bytes x = [b0, b1, b2, b3] ∧
      b0 < 256 ∧ b1 < 256 ∧ b2 < 256 ∧ b3 < 256 ∧
      b0 + 256 * b1 + 65536 * b2 + 16777216 * b3 = x % 2 ^ 32) ∧
    (∀ l : List Nat, (subset_bytes l).length = 4 * l.length) ∧
    fnv (subset_bytes []) = 0x811c9dc5 ∧
    (∀ (t : subset_table) (wl : worklist) (states : List Nat) (next_state : Nat),
      reachable_table t → 4 * (t.used_size + 1) < 3 * 2 ^ 30 →
      ∃ r, deterministic_state_for_subset t wl states next_state = some r ∧
        stored_entry r.table (canonicalize states)
          (fnv (subset_bytes (canonicalize states))) r.state) := by
  refine ⟨rfl, fnv_append, fnv_lt, rfl, subset_bytes_cons, ?_, subset_bytes_length, rfl, ?_⟩
  · intro x
    refine ⟨x % 256, x / 256 % 256, x / 65536 % 256, x / 16777216 % 256, rfl, ?_, ?_, ?_, ?_, ?_⟩
    all_goals omega
  · intro t wl states next_state hreach hsmall
    exact resolve_stores_hash t (reachable_table_inv t hreach) hsmall wl states next_state

/-- C15 at concrete inputs: the hash of the byte `0x61`, the bytes of the subset
`[1, 258]`, and the hash stored for the empty subset. -/
theorem fnv_is_fnv1a_witness :
    fnv [0x61] = 0xe40c292c ∧
    subset_bytes [1, 258] = [1, 0, 0, 0, 2, 1, 0, 0] ∧
    fnv ([0x61] ++ [0x62]) = (fnv [0x61] ^^^ 0x62) * 0x01000193 % 2 ^ 32 ∧
    ∃ r, deterministic_state_for_subset empty_table [] [] 0 = some r ∧
      stored_entry r.table [] 0x811c9dc5 r.state :=
  ⟨by decide, by decide, fnv_is_fnv1a.2.1 [0x61] 0x62,
    fnv_is_fnv1a.2.2.2.2.2.2.2.2 empty_table [] [] 0 reachable_table.empty (by decide)⟩

theorem qsort_of_sorted (l : List Nat) (h : l.Sorted (· < ·)) :
    qsort compare_state_ids l = l := by
  unfold qsort
  apply List.Sorted.insertionSort_eq
  exact h.imp (fun {x y} hxy => (compare_state_ids_le x y).mpr (Nat.le_of_lt hxy))

theorem removed_le (l : List Nat) :
    (remove_duplicates (qsort compare_state_ids l) 1 0 (l.length - 1)).2 ≤ l.length := by
  by_cases hl : l = []
  · rw [hl]; decide
  · exact Nat.le_of_lt (remove_duplicates_qsort l hl).2.1

/-- C17: for a sequence of state ids that is strictly ascending, `qsort` leaves
the sequence as it is, the loop removes no element, and the canonical form is
the sequence itself, of the same length; and for every sequence, the canonical
form of its canonical form is its canonical form. -/
theorem canonicalize_idempotent (l : List Nat) (h : l.Sorted (· < ·)) (l2 : List Nat) :
    qsort compare_state_ids l = l ∧
    (remove_duplicates (qsort compare_state_ids l) 1 0 (l.length - 1)).2 = 0 ∧
    canonicalize l = l ∧ (canonicalize l).length = l.length ∧
    canonicalize (canonicalize l2) = canonicalize l2 ∧
    (canonicalize (canonicalize l2)).length = (canonicalize l2).length := by
  have h1 := canonicalize_of_sorted l h
  have h2 := canonicalize_length l
  have h3 := removed_le l
  rw [h1] at h2
  have h4 := canonicalize_of_sorted _ (canonicalize_sorted l2)
  refine ⟨qsort_of_sorted l h, by omega, h1, by rw [h1], h4, by rw [h4]⟩

/-- C17 at the sequences `[1, 4, 7]` and `[7, 1, 7, 4]`. -/
theorem canonicalize_idempotent_witness :
    [1, 4, 7].Sorted (· < ·) ∧ canonicalize [1, 4, 7] = [1, 4, 7] ∧
    canonicalize [7, 1, 7, 4] = [1, 4, 7] ∧
    canonicalize (canonicalize [7, 1, 7, 4]) = canonicalize [7, 1, 7, 4] :=
  ⟨by decide, (canonicalize_idempotent [1, 4, 7] (by decide) [7, 1, 7, 4]).2.2.1, by decide,
    (canonicalize_idempotent [1, 4, 7] (by decide) [7, 1, 7, 4]).2.2.2.2.1⟩

theorem canonicalize_length_dedup (l : List Nat) :
    (canonicalize l).length = l.dedup.length := by
  apply List.Perm.length_eq
  apply (List.perm_ext_iff_of_nodup (canonicalize_sorted l).nodup (List.nodup_dedup l)).mpr
  intro x
  rw [mem_canonicalize, List.mem_dedup]

/-- C18: for every sequence of state ids, the array that the sort and the
compaction loop leave has, in its first `number_of_states` positions (the
canonical form), a strictly ascending sequence with the values of the input;
the loop leaves the length of the array as it is, and the count `removed` that
is subtracted from `number_of_states` is the number of duplicate occurrences:
the length of the input less the number of its distinct values. -/
theorem canonicalize_spec (l : List Nat) :
    canonicalize l
      = (remove_duplicates (qsort compare_state_ids l) 1 0 (l.length - 1)).1.take
          (l.length - (remove_duplicates (qsort compare_state_ids l) 1 0 (l.length - 1)).2) ∧
    (canonicalize l).Sorted (· < ·) ∧
    (∀ x, x ∈ canonicalize l ↔ x ∈ l) ∧
    (remove_duplicates (qsort compare_state_ids l) 1 0 (l.length - 1)).2
      = l.length - l.dedup.length ∧
    (canonicalize l).length
      = l.length - (remove_duplicates (qsort compare_state_ids l) 1 0 (l.length - 1)).2 ∧
    (canonicalize l).length = l.dedup.length ∧
    (canonicalize l).length = l.toFinset.card := by
  have h2 := canonicalize_length l
  have h3 := removed_le l
  have h4 := canonicalize_length_dedup l
  refine ⟨rfl, canonicalize_sorted l, mem_canonicalize l, by omega, h2, h4, ?_⟩
  rw [h4, List.card_toFinset]

/-- C18 at the empty sequence and at a sequence with runs of repeated values. -/
theorem canonicalize_spec_witness :
    canonicalize [] = [] ∧ canonicalize [3, 1, 3, 2, 1, 3] = [1, 2, 3] ∧
    (remove_duplicates (qsort compare_state_ids [3, 1, 3, 2, 1, 3]) 1 0 5) = ([1, 2, 3, 3, 3, 3], 3) ∧
    (canonicalize [3, 1, 3, 2, 1, 3]).length = [3, 1, 3, 2, 1, 3].dedup.length :=
  ⟨by decide, by decide, by decide, (canonicalize_spec [3, 1, 3, 2, 1, 3]).2.2.2.2.2.1⟩

/-- C19: on a table reachable from the empty table, below the capacity bound,
on which every stored id is below `*next_state`, the id that
`deterministic_state_for_subset` reads in the returned slot and returns is
`*next_state` if and only if the canonical subset was not stored.  In that case
`*next_state` grows by one, the pair of the subset and the new id is appended to
the worklist and the subset is stored with the new id; otherwise `*next_state`
and the worklist are unchanged and the id returned is the one stored for the
subset.  In both cases every id stored afterwards is below the new value of
`*next_state`, and the entries stored before are kept. -/
theorem new_state_test (t : subset_table) (hreach : reachable_table t)
    (hsmall : 4 * (t.used_size + 1) < 3 * 2 ^ 30) (wl : worklist) (states : List Nat)
    (next_state : Nat) (hnext : next_state + 1 < 2 ^ 32)
    (hlt : ∀ S id, stored t S id → id < next_state) :
    ∃ r, deterministic_state_for_subset t wl states next_state = some r ∧
      (r.state = next_state ↔ ∀ i, t.subsets.getD i none ≠ some (canonicalize states)) ∧
      ((∀ i, t.subsets.getD i none ≠ some (canonicalize states)) →
        r.next_state = next_state + 1 ∧
        r.worklist = (canonicalize states, next_state) :: wl ∧
        r.table.used_size = t.used_size + 1 ∧
        ∀ S id, stored r.table S id ↔
          stored t S id ∨ (S = canonicalize states ∧ id = next_state)) ∧
      ((∃ i, t.subsets.getD i none = some (canonicalize states)) →
        r.next_state = next_state ∧ r.worklist = wl ∧
        r.table.used_size = t.used_size ∧
        stored t (canonicalize states) r.state ∧
        ∀ S id, stored r.table S id ↔ stored t S id) ∧
      stored r.table (canonicalize states) r.state ∧
      ∀ S id, stored r.table S id → id < r.next_state := by
  have hinv := reachable_table_inv t hreach
  obtain ⟨r0, hr0, hspec⟩ := adopt_spec t hinv hsmall (canonicalize states) next_state 0
  have hstored : stored r0.1 (canonicalize states) (r0.1.subset_states.getD r0.2 0) :=
    ⟨r0.2, hspec.holds, rfl⟩
  unfold deterministic_state_for_subset
  simp only [hr0]
  by_cases hex : ∃ i, t.subsets.getD i none = some (canonicalize states)
  · obtain ⟨hu, hent⟩ := hspec.present hex
    have hids : ∀ S id, stored r0.1 S id ↔ stored t S id := by
      intro S id
      rw [stored_iff_entry, stored_iff_entry]
      constructor
      · rintro ⟨hh, he⟩; exact ⟨hh, (hent _ _ _).mp he⟩
      · rintro ⟨hh, he⟩; exact ⟨hh, (hent _ _ _).mpr he⟩
    have hold := (hids _ _).mp hstored
    have hlt0 := hlt _ _ hold
    have hne : ¬ (r0.1.subset_states.getD r0.2 0 = next_state) := by omega
    rw [if_neg hne]
    refine ⟨_, rfl, ?_, ?_, ?_, hstored, ?_⟩
    · constructor
      · intro h; exact absurd h hne
      · intro h
        obtain ⟨i, hi⟩ := hex
        exact absurd hi (h i)
    · intro h
      obtain ⟨i, hi⟩ := hex
      exact absurd hi (h i)
    · intro _; exact ⟨rfl, rfl, hu, hold, hids⟩
    · intro S id hs; exact hlt S id ((hids S id).mp hs)
  · have habs : ∀ i, t.subsets.getD i none ≠ some (canonicalize states) :=
      fun i hi => hex ⟨i, hi⟩
    obtain ⟨hu, _, hid, hent⟩ := hspec.absent habs
    have hids : ∀ S id, stored r0.1 S id ↔
        stored t S id ∨ (S = canonicalize states ∧ id = next_state) := by
      intro S id
      rw [stored_iff_entry, stored_iff_entry]
      constructor
      · rintro ⟨hh, he⟩
        rcases (hent _ _ _).mp he with h1 | ⟨h1, _, h3⟩
        · exact Or.inl ⟨hh, h1⟩
        · exact Or.inr ⟨h1, h3⟩
      · rintro (⟨hh, he⟩ | ⟨h1, h2⟩)
        · exact ⟨hh, (hent _ _ _).mpr (Or.inl he)⟩
        · exact ⟨_, (hent _ _ _).mpr (Or.inr ⟨h1, rfl, h2⟩)⟩
    rw [if_pos hid]
    have hmod : (next_state + 1) % 2 ^ 32 = next_state + 1 := Nat.mod_eq_of_lt hnext
    have hwl : ((r0.1.subsets.getD r0.2 none).getD [], next_state) :: wl
        = (canonicalize states, next_state) :: wl := by
      rw [hspec.holds]; rfl
    refine ⟨_, rfl, ⟨fun _ => habs, fun _ => hid⟩, fun _ => ⟨hmod, hwl, hu, hids⟩,
      fun h => absurd h hex, hstored, ?_⟩
    intro S id hs
    show id < (next_state + 1) % 2 ^ 32
    rw [hmod]
    rcases (hids S id).mp hs with h | ⟨_, h⟩
    · exact Nat.lt_succ_of_lt (hlt S id h)
    · omega

theorem example_table_ids : ∀ S id, stored example_table S id → id < 3 := by
  obtain ⟨t, h1, hA, _, _⟩ := adopt_all_spec [[0, 1], [2], [0, 2]] [] empty_table
    Assigned_empty reachable_table.empty (by decide) (by decide) (Or.inr (by decide))
  have he : example_table = t := by
    unfold example_table
    rw [show adopt_all empty_table [[0, 1], [2], [0, 2]] 0 = some t from h1]
    rfl
  rw [he]
  intro S id hs
  exact hA.stored_lt hs

/-- C19 at the table that holds `[0, 1]`, `[2]` and `[0, 2]` with the ids 0, 1
and 2: the sequence `[2, 0, 2]` is resolved to the stored state 2 and nothing
changes, the sequence `[1]` gets the new state 3. -/
theorem new_state_test_witness :
    reachable_table example_table ∧ 4 * (example_table.used_size + 1) < 3 * 2 ^ 30 ∧
    (∀ S id, stored example_table S id → id < 3) ∧
    (∃ r, deterministic_state_for_subset example_table [] [2, 0, 2] 3 = some r ∧
      r.state = 2 ∧ r.next_state = 3 ∧ r.worklist = []) ∧
    (∃ r, deterministic_state_for_subset example_table [] [1] 3 = some r ∧
      r.state = 3 ∧ r.next_state = 4 ∧ r.worklist = [([1], 3)]) ∧
    ∃ r, deterministic_state_for_subset example_table [] [1] 3 = some r ∧
      (r.state = 3 ↔ ∀ i, example_table.subsets.getD i none ≠ some (canonicalize [1])) ∧
      ∀ S id, stored r.table S id → id < r.next_state :=
  ⟨example_table_reachable, by rw [example_table_used]; norm_num, example_table_ids,
    by decide, by decide,
    match new_state_test example_table example_table_reachable
      (by rw [example_table_used]; norm_num) [] [1] 3 (by norm_num) example_table_ids with
    | ⟨r, h1, h2, _, _, _, h6⟩ => ⟨r, h1, h2, h6⟩⟩

/-- On a table that does not have to grow, `subset_table_adopt_subset` is the
probe loop alone. -/
theorem adopt_eq_without_growth (cur : subset_table) (k : Nat) (hk : k ≤ 30)
    (hcap : cur.available_size = 2 ^ k)
    (hload : 4 * (cur.used_size + 1) < 3 * cur.available_size) (s : List Nat)
    (h id depth : Nat) :
    subset_table_adopt_subset (depth + 1) cur s h id = adopt_without_growth cur s h id := by
  have hle : 2 ^ k ≤ 2 ^ 30 := Nat.pow_le_pow_right (by norm_num) hk
  have hcond : ¬ (3 * cur.available_size % 2 ^ 32 ≤ 4 * (cur.used_size + 1) % 2 ^ 32) := by
    rw [Nat.mod_eq_of_lt (by omega), Nat.mod_eq_of_lt (by omega)]
    omega
  rw [subset_table_adopt_subset]
  unfold adopt_without_growth
  simp only [if_neg hcond]

/-- The calls made for the old entries during a growth find a table that does
not have to grow: the loop over the old slots gives the same result when the
calls are replaced by calls that fail on a growth. -/
theorem reinsert_without_growth (old : subset_table) (hold : TableInv old) (k : Nat)
    (hk8 : 8 ≤ k) (hk : k ≤ 30) (depth : Nat) :
    ∀ (l : List Nat) (cur : subset_table), l.Nodup → TableInv cur →
      cur.available_size = 2 ^ k →
      (∀ s, (∃ i, cur.subsets.getD i none = some s) →
        ∀ j, j ∈ l → old.subsets.getD j none ≠ some s) →
      4 * (cur.used_size + (l.filter (fun j => decide (old.subsets.getD j none ≠ none))).length)
        < 3 * 2 ^ k →
      reinsert adopt_without_growth old l cur
        = reinsert (subset_table_adopt_subset (depth + 1)) old l cur := by
  intro l
  induction l with
  | nil => intro cur _ _ _ _ _; rfl
  | cons j rest ih =>
    intro cur hnd hcur hcap hdisj hcount
    have hnd' := List.nodup_cons.mp hnd
    rw [reinsert, reinsert]
    cases hslot : old.subsets.getD j none with
    | none =>
      have hf : (List.filter (fun j => decide (old.subsets.getD j none ≠ none)) (j :: rest))
          = List.filter (fun j => decide (old.subsets.getD j none ≠ none)) rest := by
        rw [List.filter_cons_of_neg]; rw [hslot]; simp
      rw [hf] at hcount
      exact ih cur hnd'.2 hcur hcap
        (fun s hs i hi => hdisj s hs i (List.mem_cons_of_mem _ hi)) hcount
    | some s =>
      have hf : (List.filter (fun j => decide (old.subsets.getD j none ≠ none)) (j :: rest))
          = j :: List.filter (fun j => decide (old.subsets.getD j none ≠ none)) rest := by
        rw [List.filter_cons_of_pos]; rw [hslot]; simp
      rw [hf] at hcount
      simp only [List.length_cons] at hcount
      have hload : 4 * (cur.used_size + 1) < 3 * cur.available_size := by
        rw [hcap]; omega
      have habs : ∀ i, cur.subsets.getD i none ≠ some s := by
        intro i hi
        exact hdisj s ⟨i, hi⟩ j (List.mem_cons_self _ _) hslot
      obtain ⟨r, hr, hrinv, hr1, _, hr3⟩ := adopt_no_growth cur hcur k hk8 hk hcap hload s
        (old.subset_states.getD j 0) depth
      obtain ⟨hfill, hnone⟩ := hr3 habs
      have hr' := hr
      rw [adopt_eq_without_growth cur k hk hcap hload] at hr'
      simp only [hold.hash_ok j s hslot, hr, hr']
      have hr_entry : ∀ s' h' id', stored_entry r.1 s' h' id' ↔
          stored_entry cur s' h' id' ∨
            (s' = s ∧ h' = fnv (subset_bytes s) ∧ id' = old.subset_states.getD j 0) := by
        intro s' h' id'
        rw [hfill]
        exact stored_entry_filled cur r.2 s _ _ hcur hr1 hnone s' h' id'
      have hused : r.1.used_size = cur.used_size + 1 := by
        rw [hfill]
        show (cur.used_size + 1) % 2 ^ 32 = cur.used_size + 1
        have : 2 ^ k ≤ 2 ^ 30 := Nat.pow_le_pow_right (by norm_num) hk
        exact Nat.mod_eq_of_lt (by omega)
      have hrcap : r.1.available_size = 2 ^ k := by rw [hfill]; exact hcap
      exact ih r.1 hnd'.2 hrinv hrcap
        (by
          intro s' hs' i hi hh
          obtain ⟨h', id', he⟩ := (holds_iff_entry r.1 s').mp hs'
          rcases (hr_entry s' h' id').mp he with hc | ⟨rfl, _, _⟩
          · exact hdisj s' ((holds_iff_entry cur s').mpr ⟨h', id', hc⟩) i
              (List.mem_cons_of_mem _ hi) hh
          · have := hold.nodup i j s' hh hslot
            subst this
            exact hnd'.1 hi)
        (by rw [hused]; omega)

/-- The growth of `subset_table_adopt_subset`, with the calls for the old
entries replaced by calls that fail on a growth. -/
theorem growth_without_nested_growth (t : subset_table) (hinv : TableInv t)
    (hbound : 4 * (t.used_size + 1) < 3 * 2 ^ 30)
    (hcond : 3 * t.available_size ≤ 4 * (t.used_size + 1)) (s : List Nat) (h id depth : Nat)
    (r : subset_table × Nat)
    (hr : subset_table_adopt_subset (depth + 2) t s h id = some r) :
    ∃ t1, reinsert adopt_without_growth t (List.range t.available_size)
          (fresh_table (if t.available_size = 0 then 256 else 2 * t.available_size)) = some t1 ∧
      reinsert (subset_table_adopt_subset (depth + 1)) t (List.range t.available_size)
          (fresh_table (if t.available_size = 0 then 256 else 2 * t.available_size)) = some t1 ∧
      t1.used_size = t.used_size ∧
      adopt_without_growth t1 s h id = some r := by
  rw [subset_table_adopt_subset] at hr
  rcases hinv.size with ⟨hz, hu0⟩ | ⟨⟨k, hk8, hk, hcap⟩, hload0⟩
  · have hc : 3 * t.available_size % 2 ^ 32 ≤ 4 * (t.used_size + 1) % 2 ^ 32 := by
      rw [hz, hu0]; decide
    have hn : (if t.available_size * 2 % 2 ^ 32 = 0 then 256
        else t.available_size * 2 % 2 ^ 32) = 2 ^ 8 := by
      rw [hz]; rfl
    simp only [if_pos hc, hn] at hr
    have hre : reinsert (subset_table_adopt_subset (depth + 1)) t
        (List.range t.available_size) (fresh_table (2 ^ 8)) = some (fresh_table (2 ^ 8)) := by
      rw [hz]; rfl
    rw [hre] at hr
    rw [if_pos hz]
    refine ⟨fresh_table (2 ^ 8), by rw [hz]; rfl, hre, by rw [hu0]; rfl, ?_⟩
    rw [← adopt_eq_without_growth (fresh_table (2 ^ 8)) 8 (by norm_num) rfl
      (by show 4 * (0 + 1) < 3 * 2 ^ 8; norm_num) s h id 0, subset_table_adopt_subset]
    have hc2 : ¬ (3 * (fresh_table (2 ^ 8)).available_size % 2 ^ 32
        ≤ 4 * ((fresh_table (2 ^ 8)).used_size + 1) % 2 ^ 32) := by decide
    simp only [if_neg hc2]
    exact hr
  · have hpos : 0 < 2 ^ k := Nat.two_pow_pos k
    have hle : 2 ^ k ≤ 2 ^ 30 := Nat.pow_le_pow_right (by norm_num) hk
    have hk256 : 2 ^ 8 ≤ 2 ^ k := Nat.pow_le_pow_right (by norm_num) hk8
    have hm1 : 3 * t.available_size % 2 ^ 32 = 3 * t.available_size :=
      Nat.mod_eq_of_lt (by omega)
    have hm2 : 4 * (t.used_size + 1) % 2 ^ 32 = 4 * (t.used_size + 1) :=
      Nat.mod_eq_of_lt (by omega)
    rw [hm1, hm2] at hr
    have hk30 : k + 1 ≤ 30 := by
      by_contra hc
      have : k = 30 := by omega
      subst this
      omega
    have hn : (if t.available_size * 2 % 2 ^ 32 = 0 then 256
        else t.available_size * 2 % 2 ^ 32) = 2 ^ (k + 1) := by
      rw [hcap, Nat.mod_eq_of_lt (by omega), if_neg (by omega), pow_succ]
    simp only [if_pos hcond, hn] at hr
    have hn2 : (if t.available_size = 0 then 256 else 2 * t.available_size) = 2 ^ (k + 1) := by
      rw [if_neg (by omega), hcap, pow_succ]; omega
    rw [hn2]
    have hfl := filter_range_length t
    rw [← hinv.used] at hfl
    have hfnone : ∀ i, (fresh_table (2 ^ (k + 1))).subsets.getD i none = none := by
      intro i; exact getD_replicate_eq _ _ _ _ rfl
    have hdisj : ∀ s', (∃ i, (fresh_table (2 ^ (k + 1))).subsets.getD i none = some s') →
        ∀ j, j ∈ List.range t.available_size → t.subsets.getD j none ≠ some s' := by
      rintro s' ⟨i, hi⟩
      rw [hfnone i] at hi; exact Option.noConfusion hi
    have hcount : 4 * ((fresh_table (2 ^ (k + 1))).used_size +
        ((List.range t.available_size).filter
          (fun j => decide (t.subsets.getD j none ≠ none))).length) < 3 * 2 ^ (k + 1) := by
      rw [hfl]
      show 4 * (0 + t.used_size) < 3 * 2 ^ (k + 1)
      rw [pow_succ]; omega
    obtain ⟨t1, ht1, hinv1, hcap1, hused1, _⟩ := reinsert_spec t hinv (k + 1) (by omega)
      hk30 depth (List.range t.available_size) (fresh_table (2 ^ (k + 1)))
      (List.nodup_range _) (TableInv_fresh (k + 1) (by omega) hk30) rfl hdisj hcount
    have hwo := reinsert_without_growth t hinv (k + 1) (by omega) hk30 depth
      (List.range t.available_size) (fresh_table (2 ^ (k + 1)))
      (List.nodup_range _) (TableInv_fresh (k + 1) (by omega) hk30) rfl hdisj hcount
    rw [ht1] at hr hwo
    have hused1' : t1.used_size = t.used_size := by
      rw [hused1, hfl]; show 0 + t.used_size = t.used_size; omega
    have hload1 : 4 * (t1.used_size + 1) < 3 * t1.available_size := by
      rw [hused1', hcap1, pow_succ]; omega
    refine ⟨t1, hwo, ht1, hused1', ?_⟩
    rw [← adopt_eq_without_growth t1 (k + 1) hk30 hcap1 hload1 s h id 0,
      subset_table_adopt_subset]
    have hc2 : ¬ (3 * t1.available_size % 2 ^ 32 ≤ 4 * (t1.used_size + 1) % 2 ^ 32) := by
      have : 2 ^ (k + 1) ≤ 2 ^ 30 := Nat.pow_le_pow_right (by norm_num) hk30
      rw [Nat.mod_eq_of_lt (by omega), Nat.mod_eq_of_lt (by omega)]
      omega
    simp only [if_neg hc2]
    exact hr

/-- C20: a call of `subset_table_adopt_subset` on a table reachable from the
empty table, below the capacity bound, returns a table that is reachable again
and satisfies the table invariant: the three arrays have `available_size` slots,
`available_size` is a power of two between 256 and `2 ^ 30`, `used_size` is the
number of occupied slots, `4 * used_size < 3 * available_size`, every occupied
slot stores the FNV hash of its subset, that is the hash passed when the subset
was inserted, and the entries stored before are stored with the same hash and
id.  When the call grows the table, the calls made for the old entries do not
grow the new table: replaced by calls that fail on a growth they give the same
table, on which the probe loop alone gives the result. -/
theorem adopt_preserves_invariant (t : subset_table) (hreach : reachable_table t)
    (hsmall : 4 * (t.used_size + 1) < 3 * 2 ^ 30) (s : List Nat) (id depth : Nat) :
    ∃ r, subset_table_adopt_subset (depth + 2) t s (fnv (subset_bytes s)) id = some r ∧
      reachable_table r.1 ∧
      r.1.subsets.length = r.1.available_size ∧
      r.1.subset_hashes.length = r.1.available_size ∧
      r.1.subset_states.length = r.1.available_size ∧
      (∃ k, 8 ≤ k ∧ k ≤ 30 ∧ r.1.available_size = 2 ^ k) ∧
      r.1.used_size = occupied_slots r.1 ∧
      4 * r.1.used_size < 3 * r.1.available_size ∧
      (∀ i S, r.1.subsets.getD i none = some S →
        r.1.subset_hashes.getD i 0 = fnv (subset_bytes S)) ∧
      (∀ S h id', stored_entry t S h id' → stored_entry r.1 S h id') ∧
      (3 * t.available_size ≤ 4 * (t.used_size + 1) →
        ∃ t1, reinsert adopt_without_growth t (List.range t.available_size)
              (fresh_table (if t.available_size = 0 then 256 else 2 * t.available_size))
            = some t1 ∧
          reinsert (subset_table_adopt_subset (depth + 1)) t (List.range t.available_size)
              (fresh_table (if t.available_size = 0 then 256 else 2 * t.available_size))
            = some t1 ∧
          t1.used_size = t.used_size ∧
          adopt_without_growth t1 s (fnv (subset_bytes s)) id = some r) := by
  have hinv := reachable_table_inv t hreach
  obtain ⟨r, hr, hspec⟩ := adopt_spec t hinv hsmall s id depth
  have hri := hspec.inv
  have hsize : (∃ k, 8 ≤ k ∧ k ≤ 30 ∧ r.1.available_size = 2 ^ k) ∧
      4 * r.1.used_size < 3 * r.1.available_size := by
    rcases hri.size with ⟨hz, _⟩ | ⟨⟨k, hk8, hk, hcap⟩, hload⟩
    · have := hspec.index_lt
      omega
    · exact ⟨⟨k, hk8, hk, hcap⟩, hload⟩
  refine ⟨r, hr, reachable_table.adopt t s id depth r hreach hsmall hr, hri.len_subsets,
    hri.len_hashes, hri.len_states, hsize.1, hri.used, hsize.2, hri.hash_ok, ?_, ?_⟩
  · intro S h id' he
    by_cases hex : ∃ i, t.subsets.getD i none = some s
    · exact ((hspec.present hex).2 S h id').mpr he
    · exact ((hspec.absent (fun i hi => hex ⟨i, hi⟩)).2.2.2 S h id').mpr (Or.inl he)
  · intro hcond
    exact growth_without_nested_growth t hinv hsmall hcond s _ id depth r hr

/-- C20 at the empty table, which the first call grows to 256 slots. -/
theorem adopt_preserves_invariant_witness :
    reachable_table empty_table ∧ 4 * (empty_table.used_size + 1) < 3 * 2 ^ 30 ∧
    ∃ r, subset_table_adopt_subset 2 empty_table [0, 1] (fnv (subset_bytes [0, 1])) 0 = some r ∧
      reachable_table r.1 ∧ r.1.available_size = 256 ∧ r.1.used_size = 1 ∧
      r.1.used_size = occupied_slots r.1 ∧ 4 * r.1.used_size < 3 * r.1.available_size ∧
      ∃ t1, reinsert adopt_without_growth empty_table (List.range 0) (fresh_table 256)
          = some t1 ∧
        adopt_without_growth t1 [0, 1] (fnv (subset_bytes [0, 1])) 0 = some r :=
  ⟨reachable_table.empty, by decide,
    match adopt_preserves_invariant empty_table reachable_table.empty (by decide) [0, 1] 0 0 with
    | ⟨r, h1, h2, _, _, _, _, h7, h8, _, _, h11⟩ =>
      ⟨r, h1, h2,
        (by
          have e : (subset_table_adopt_subset 2 empty_table [0, 1]
              (fnv (subset_bytes [0, 1])) 0).map (fun p => p.1.available_size) = some 256 := by
            decide
          rw [h1] at e
          exact Option.some.inj e),
        (by
          have e : (subset_table_adopt_subset 2 empty_table [0, 1]
              (fnv (subset_bytes [0, 1])) 0).map (fun p => p.1.used_size) = some 1 := by
            decide
          rw [h1] at e
          exact Option.some.inj e),
        h7, h8,
        match h11 (by decide) with
        | ⟨t1, e1, _, _, e4⟩ => ⟨t1, e1, e4⟩⟩⟩

end Owl
